import Mathlib

/-!
# DNF counting: the exact counter and the two randomized estimators

A shallow embedding of `solveDNF.cpp`, `MonteCarloCounter.cpp` and `KLM.cpp`.

Conventions of the embedding.

* A literal is the pair `(variable_index, negated_flag)` of C++ `int`s, kept as `Int × Int`;
  a flag is "negated" exactly when it is non-zero, as in `if (is_negated)`.
* `int` arithmetic that can leave the 32-bit range is wrapped with `wrapInt32`.
* `double` and `long double` values are kept as exact rationals; rounding is not modelled.
  The rational is the machine value wherever the values involved are integers of at most
  53 bits or powers of two. Conversions of a `double` to `int` go through `static_cast_int`.
* The pseudo random generator is an oracle handed to the estimators: `pick k` is the clause
  index returned by `clause_dist(rng)` in trial `k`, and `bits k j` is the `j`-th value
  returned by `bit_dist(rng)` in trial `k`.
* The sample count `m` (a floating point expression in `eps`, `delta` and the clause count)
  is an input of the estimator models `solve_dnf`; `sample_count` computes it, with its
  conversion to a 32-bit `int`, and `run` is the whole call.
-/

namespace DNFCounter

/-- A literal `(variable_index, negated_flag)`. -/
abbrev Literal := Int × Int

/-- A clause is the conjunction of its literals, in file order. -/
abbrev Clause := List Literal

/-- A formula is the disjunction of its clauses, in file order. -/
abbrev Formula := List Clause

/-- Reinterpretation of an integer as a 32-bit two's complement `int`. -/
def wrapInt32 (x : Int) : Int := (x + 2147483648) % 4294967296 - 2147483648

/-- Conversion of a `double` that holds an integer to `int`: the integer itself inside the
32-bit range; outside it, where C++ leaves the conversion undefined, the value `INT_MIN`
that the x86 conversion instruction delivers. -/
def static_cast_int (x : Int) : Int :=
  if -2147483648 ≤ x ∧ x ≤ 2147483647 then x else -2147483648

/-! ## solveDNF.cpp -/

namespace SolveDNF

/-- The literal loop of `solve_dnf` (solveDNF.cpp:56-76): the value of `clause_true` when the
loop over the literals of one clause ends, with its two `break`s. -/
def clause_true (num_vars : Int) (mask : Nat) : Clause → Bool
  | [] => true
  | lit :: rest =>
    let var_idx := lit.1
    let is_negated := lit.2
    if var_idx ≤ 0 ∨ var_idx > num_vars then false
    else
      let value : Bool := ((mask >>> (var_idx - 1).toNat) &&& 1) != 0
      let value : Bool := if is_negated ≠ 0 then !value else value
      if !value then false else clause_true num_vars mask rest

/-- The clause loop of `solve_dnf` (solveDNF.cpp:53-82): the value of `formula_true` when the
loop over the clauses ends, with its `break` at the first satisfied clause. -/
def formula_true (num_vars : Int) (mask : Nat) : Formula → Bool
  | [] => false
  | clause :: rest =>
    if clause_true num_vars mask clause then true else formula_true num_vars mask rest

/-- The exact counter `solve_dnf` (solveDNF.cpp:47-90). `total_masks = 1 << num_vars` and the
counter `satisfied` are 32-bit `int`s; the shift count is read at `num_vars.toNat` and the
shift is `2 ^ num_vars` reduced to 32 bits, which is the C++ value for `0 ≤ num_vars ≤ 31`
(outside that range C++ leaves the shift undefined). -/
def solve_dnf (dnf : Formula) (num_vars : Int) : Int :=
  let total_masks : Int := wrapInt32 (2 ^ num_vars.toNat)
  (List.range total_masks.toNat).foldl
    (fun satisfied mask =>
      if formula_true num_vars mask dnf then wrapInt32 (satisfied + 1) else satisfied) 0

end SolveDNF

/-! ## The random source -/

/-- The pseudo random generator as an oracle: `pick k` is the index `clause_dist(rng)` returns
in trial `k` and `bits k j` is the `j`-th value `bit_dist(rng)` returns in trial `k`
(`true` for 1, `false` for 0). -/
structure Rng where
  pick : Nat → Nat
  bits : Nat → Nat → Bool

/-- The `int` a draw of `bit_dist` stores into the assignment. -/
def bitValue (b : Bool) : Int := if b then 1 else 0

/-! ## MonteCarloCounter.cpp -/

namespace MonteCarloCounter

/-- What one call hands back: the returned `double`, the out-parameter `samples_used`, and the
number of calls of `clause_dist(rng)` made before returning. -/
structure Outcome where
  result : ℚ
  samples_used : Int
  clause_draws : Nat
  deriving DecidableEq

/-- One iteration of the weights loop (MonteCarloCounter.cpp:66-74): `0.0` when the clause has
more literals than `num_vars`, else `1ULL << (num_vars - clause_size)` as a 64-bit value. -/
def weight (num_vars : Int) (clause : Clause) : ℚ :=
  let clause_size : Int := clause.length
  if clause_size > num_vars then 0
  else ((2 ^ (num_vars - clause_size).toNat % 18446744073709551616 : Nat) : ℚ)

/-- The vector `weights` after the loop of MonteCarloCounter.cpp:64-74. -/
def weights (dnf : Formula) (num_vars : Int) : List ℚ :=
  dnf.map (fun clause => weight num_vars clause)

/-- The lambda `clause_satisfied` (MonteCarloCounter.cpp:85-96). -/
def clause_satisfied (num_vars : Int) : Clause → List Int → Bool
  | [], _ => true
  | lit :: rest, assignment =>
    let var_idx := lit.1
    let is_negated := lit.2
    if var_idx ≤ 0 ∨ var_idx > num_vars then false
    else
      let value : Bool := decide (assignment.getD var_idx.toNat 0 ≠ 0)
      let value : Bool := if is_negated ≠ 0 then !value else value
      if !value then false else clause_satisfied num_vars rest assignment

/-- The assignment after the loop "Random assignment" (MonteCarloCounter.cpp:104-109): a zero
vector of size `num_vars + 1` whose entries `1 .. num_vars` receive successive draws. -/
def random_assignment (num_vars : Int) (draw : Nat → Bool) : List Int :=
  (List.range num_vars.toNat).foldl
    (fun assignment j => assignment.set (j + 1) (bitValue (draw j)))
    (List.replicate (num_vars.toNat + 1) 0)

/-- The loop "Force literals in chosen clause to be satisfied"
(MonteCarloCounter.cpp:111-117). -/
def force_literals (num_vars : Int) (clause : Clause) (assignment : List Int) : List Int :=
  clause.foldl
    (fun assignment lit =>
      let var_idx := lit.1
      let is_negated := lit.2
      if var_idx > 0 ∧ var_idx ≤ num_vars then
        assignment.set var_idx.toNat (if is_negated ≠ 0 then 0 else 1)
      else assignment)
    assignment

/-- The value of `in_prior` after the loop over `j < i` (MonteCarloCounter.cpp:119-125). -/
def in_prior (dnf : Formula) (num_vars : Int) (i : Nat) (assignment : List Int) : Bool :=
  (dnf.take i).any (fun clause => clause_satisfied num_vars clause assignment)

/-- The assignment built in trial `k` for the drawn clause index. -/
def trial_assignment (dnf : Formula) (num_vars : Int) (rng : Rng) (k : Nat) : List Int :=
  force_literals num_vars (dnf.getD (rng.pick k) []) (random_assignment num_vars (rng.bits k))

/-- Whether trial `k` increments the hit counter `X` (MonteCarloCounter.cpp:100-130). -/
def trial_hit (dnf : Formula) (num_vars : Int) (rng : Rng) (k : Nat) : Bool :=
  !in_prior dnf num_vars (rng.pick k) (trial_assignment dnf num_vars rng k)

/-- The first-hit estimator `solve_dnf` (MonteCarloCounter.cpp:54-134), with the sample
count `m` of line 56 as an input. -/
def solve_dnf (dnf : Formula) (num_vars : Int) (m : Int) (rng : Rng) : Outcome :=
  let samples_used := m
  if dnf.isEmpty ∨ num_vars ≤ 0 ∨ m ≤ 0 then ⟨0, samples_used, 0⟩
  else
    let total_weight : ℚ := (weights dnf num_vars).foldl (fun acc w => acc + w) 0
    if total_weight = 0 then ⟨0, samples_used, 0⟩
    else
      let X : Int := (List.range m.toNat).foldl
        (fun X k => if trial_hit dnf num_vars rng k then X + 1 else X) 0
      let Y : ℚ := ((X : ℚ) / (m : ℚ)) * total_weight
      ⟨Y, samples_used, m.toNat⟩

end MonteCarloCounter

/-! ## KLM.cpp -/

namespace KLM

/-- What one call hands back: the returned `double` and the number of calls of
`clause_dist(rng)` made before returning. -/
structure Outcome where
  result : ℚ
  clause_draws : Nat
  deriving DecidableEq

/-- The loop that widens the hint to the largest variable index (KLM.cpp:55-60). -/
def actual_n (dnf : Formula) (num_vars_hint : Int) : Int :=
  dnf.foldl (fun n clause => clause.foldl (fun n lit => max n lit.1) n) num_vars_hint

/-- The struct `ClauseMeta` (KLM.cpp:71-76). -/
structure ClauseMeta where
  vars : List Int := []
  signs : List Int := []
  free_vars : List Int := []
  contradictory : Bool := false
  deriving DecidableEq, Inhabited

/-- The statement `seen[var_idx] = sign` on the map `seen`, kept as an association list. -/
def seen_assign (seen : List (Int × Int)) (var_idx sign : Int) : List (Int × Int) :=
  match seen.lookup var_idx with
  | some _ => seen.map (fun entry => if entry.1 = var_idx then (var_idx, sign) else entry)
  | none => seen ++ [(var_idx, sign)]

/-- The scan of one clause (KLM.cpp:84-95): the map `seen` and the flag `cm.contradictory`
when the loop ends, with its `continue` and its `break`. -/
def scan (seen : List (Int × Int)) : Clause → List (Int × Int) × Bool
  | [] => (seen, false)
  | lit :: rest =>
    let var_idx := lit.1
    let sign := lit.2
    if var_idx ≤ 0 then scan seen rest
    else
      match seen.lookup var_idx with
      | some found => if found ≠ sign then (seen, true) else scan (seen_assign seen var_idx sign) rest
      | none => scan (seen_assign seen var_idx sign) rest

/-- The bitmap `in_clause` after the loop of KLM.cpp:113-116. -/
def in_clause (actual_n : Int) (vars : List Int) : List Int :=
  vars.foldl (fun bitmap v => if v ≥ 1 ∧ v ≤ actual_n then bitmap.set v.toNat 1 else bitmap)
    (List.replicate (actual_n + 1).toNat 0)

/-- The vector `vs` (KLM.cpp:97-106): the entries of `seen` sorted by variable, left empty
when the clause is contradictory. -/
def vs (scanned : List (Int × Int) × Bool) : List (Int × Int) :=
  if scanned.2 then [] else List.insertionSort (fun a b => a.1 ≤ b.1) scanned.1

/-- The vector `cm.free_vars` after the loop of KLM.cpp:117-119. -/
def free_vars (actual_n : Int) (vars : List Int) : List Int :=
  ((List.range actual_n.toNat).map (fun j => ((j + 1 : Nat) : Int))).filter
    (fun v => (in_clause actual_n vars).getD v.toNat 0 = 0)

/-- One iteration of the analysis loop (KLM.cpp:82-124): the entry `meta[idx]` and the entry
`free_counts[idx]` for one clause. -/
def analyze (actual_n : Int) (clause : Clause) : ClauseMeta × Int :=
  let scanned := scan [] clause
  let contradictory := scanned.2
  let vars := (vs scanned).map (fun kv => kv.1)
  let signs := (vs scanned).map (fun kv => kv.2)
  if contradictory ∨ (vars.length : Int) > actual_n then
    ({ vars := vars, signs := signs, free_vars := [], contradictory := contradictory }, 0)
  else
    let free_vars := free_vars actual_n vars
    ({ vars := vars, signs := signs, free_vars := free_vars, contradictory := contradictory },
      (free_vars.length : Int))

/-- The vector `meta` (KLM.cpp:78-124). -/
def metas (dnf : Formula) (actual_n : Int) : List ClauseMeta :=
  dnf.map (fun clause => (analyze actual_n clause).1)

/-- The vector `free_counts` (KLM.cpp:79-124). -/
def free_counts (dnf : Formula) (actual_n : Int) : List Int :=
  dnf.map (fun clause => (analyze actual_n clause).2)

/-- The value of `max_free` after the analysis loop (KLM.cpp:80, 122). -/
def max_free (dnf : Formula) (actual_n : Int) : Int :=
  (free_counts dnf actual_n).foldl (fun acc fc => max acc fc) 0

/-- One iteration of the scaling loop (KLM.cpp:129-138): the entry `weights_scaled[i]`,
which is `ldexp(1.0L, free_counts[i] - max_free)` unless the clause is contradictory. -/
def weight_scaled (max_free : Int) (cm : ClauseMeta) (free_count : Int) : ℚ :=
  if cm.contradictory then 0 else (2 : ℚ) ^ (free_count - max_free)

/-- The vector `weights_scaled` (KLM.cpp:127-138). -/
def weights_scaled (dnf : Formula) (actual_n : Int) : List ℚ :=
  List.zipWith (fun cm fc => weight_scaled (max_free dnf actual_n) cm fc)
    (metas dnf actual_n) (free_counts dnf actual_n)

/-- The value of `total_scaled` after the scaling loop (KLM.cpp:128-138). -/
def total_scaled (dnf : Formula) (actual_n : Int) : ℚ :=
  (weights_scaled dnf actual_n).foldl (fun acc w => acc + w) 0

/-- The value `scale_factor = ldexp(1.0L, max_free)` (KLM.cpp:140). -/
def scale_factor (dnf : Formula) (actual_n : Int) : ℚ :=
  (2 : ℚ) ^ (max_free dnf actual_n)

/-- The value `total_weight = scale_factor * total_scaled` (KLM.cpp:141). -/
def total_weight (dnf : Formula) (actual_n : Int) : ℚ :=
  scale_factor dnf actual_n * total_scaled dnf actual_n

/-- The lambda `clause_satisfied` (KLM.cpp:152-165). -/
def clause_satisfied : Clause → List Int → Bool
  | [], _ => true
  | lit :: rest, assignment =>
    let var_idx := lit.1
    let is_negated := lit.2
    if var_idx ≤ 0 ∨ var_idx ≥ (assignment.length : Int) then false
    else
      let value : Bool := decide (assignment.getD var_idx.toNat 0 ≠ 0)
      let value : Bool := if is_negated ≠ 0 then !value else value
      if !value then false else clause_satisfied rest assignment

/-- The assignment built for a chosen clause (KLM.cpp:177-189): a zero vector of size
`actual_n + 1`, the free variables receive successive draws, the clause's variables are forced. -/
def generate (actual_n : Int) (chosen_clause : ClauseMeta) (draw : Nat → Bool) : List Int :=
  let assignment : List Int := List.replicate (actual_n + 1).toNat 0
  let assignment := chosen_clause.free_vars.enum.foldl
    (fun assignment jv => assignment.set jv.2.toNat (bitValue (draw jv.1))) assignment
  (List.zip chosen_clause.vars chosen_clause.signs).foldl
    (fun assignment vs =>
      let var_idx := vs.1
      let sign := vs.2
      if var_idx > 0 ∧ var_idx < (assignment.length : Int) then
        assignment.set var_idx.toNat (if sign ≠ 0 then 0 else 1)
      else assignment)
    assignment

/-- The value of `coverage_count` after the loop of KLM.cpp:195-203. -/
def coverage_count (dnf : Formula) (meta : List ClauseMeta) (assignment : List Int) : Nat :=
  (List.zip meta dnf).countP
    (fun mc => !mc.1.contradictory && clause_satisfied mc.2 assignment)

/-- The amount trial `k` adds to `weighted_sum` (KLM.cpp:169-209); zero when the trial is
skipped by the `continue` or when the coverage count is zero. -/
def trial_contribution (dnf : Formula) (actual_n : Int) (rng : Rng) (k : Nat) : ℚ :=
  let i := rng.pick k
  let meta := metas dnf actual_n
  if (meta.getD i default).contradictory ∨ (weights_scaled dnf actual_n).getD i 0 = 0 then 0
  else
    let assignment := generate actual_n (meta.getD i default) (rng.bits k)
    let coverage_count := coverage_count dnf meta assignment
    if coverage_count > 0 then 1 / (coverage_count : ℚ) else 0

/-- The inverse-coverage estimator `solve_dnf` (KLM.cpp:49-215), with the globals `eps` and
`delta`, the sample count `m` of line 64 and the test `std::isfinite` as inputs. -/
def solve_dnf (eps delta : ℚ) (m : Int) (isfinite : ℚ → Bool) (dnf : Formula)
    (num_vars_hint : Int) (rng : Rng) : Except String Outcome :=
  if eps ≤ 0 ∨ delta ≤ 0 ∨ delta ≥ 1 then
    Except.error "eps must be > 0 and delta in (0,1)"
  else
    let actual_n := actual_n dnf num_vars_hint
    if dnf.isEmpty ∨ actual_n ≤ 0 ∨ m ≤ 0 then Except.ok ⟨0, 0⟩
    else
      let total_scaled := total_scaled dnf actual_n
      let total_weight := total_weight dnf actual_n
      if total_scaled = 0 ∨ !isfinite total_weight then Except.ok ⟨0, 0⟩
      else
        let weighted_sum : ℚ := (List.range m.toNat).foldl
          (fun weighted_sum k => weighted_sum + trial_contribution dnf actual_n rng k) 0
        let result : ℚ := (weighted_sum / (m : ℚ)) * total_weight
        Except.ok ⟨result, m.toNat⟩

end KLM

/-! ## The counting problem as the specification words it -/

/-- A bit pattern satisfies a clause iff every literal has its variable's bit (bit `v - 1` of
the pattern for variable `v`) equal to 1 when the literal is not negated and 0 when it is. -/
def satisfiesClause (mask : Nat) (clause : Clause) : Bool :=
  clause.all (fun lit => mask.testBit (lit.1 - 1).toNat == decide (lit.2 = 0))

/-- A bit pattern satisfies a formula iff it satisfies at least one clause. -/
def satisfiesFormula (mask : Nat) (dnf : Formula) : Bool :=
  dnf.any (fun clause => satisfiesClause mask clause)

/-- The number of bit patterns among the `2 ^ n` patterns of length `n` that satisfy the
formula. -/
def exact_count (dnf : Formula) (n : Nat) : Nat :=
  (List.range (2 ^ n)).countP (fun mask => satisfiesFormula mask dnf)

/-- All literals of the formula have a variable index in `[1, n]`. -/
def literalsInRange (dnf : Formula) (n : Int) : Prop :=
  ∀ clause ∈ dnf, ∀ lit ∈ clause, 1 ≤ lit.1 ∧ lit.1 ≤ n

instance (dnf : Formula) (n : Int) : Decidable (literalsInRange dnf n) := by
  unfold literalsInRange
  exact inferInstance

/-- Some variable occurs in the clause both un-negated (flag 0) and negated (flag non-zero). -/
def hasBothSigns (clause : Clause) : Prop :=
  ∃ v : Int, (∃ lit ∈ clause, lit.1 = v ∧ lit.2 = 0) ∧ (∃ lit ∈ clause, lit.1 = v ∧ lit.2 ≠ 0)

/-! ## Assignments over the variables `1 .. n` -/

/-- The assignment vector of size `n + 1` (index 0 unused and left at 0) that gives variable
`v` the bit `v - 1` of the pattern `mask`. -/
def assignmentOfMask (n : Nat) (mask : Nat) : List Int :=
  0 :: (List.range n).map (fun p => bitValue (mask.testBit p))

/-- All assignments over the variables `1 .. n`, one for each of the `2 ^ n` bit patterns. -/
def assignments (n : Nat) : Finset (List Int) :=
  (Finset.range (2 ^ n)).image (assignmentOfMask n)

/-- The bit positions of a pattern that hold the given variables: variable `v` sits at bit
`v - 1`. -/
def bitPositions (vars : List Int) : Finset Nat :=
  (vars.map (fun v => (v - 1).toNat)).toFinset

/-- The number of distinct variable indices a clause mentions. -/
def distinctVarCount (clause : Clause) : Nat :=
  (clause.map Prod.fst).toFinset.card

/-- No variable of the clause carries two different flags. -/
def consistentFlags (clause : Clause) : Prop :=
  ∀ lit ∈ clause, ∀ lit' ∈ clause, lit.1 = lit'.1 → lit.2 = lit'.2

instance (clause : Clause) : Decidable (consistentFlags clause) := by
  unfold consistentFlags
  exact inferInstance

namespace KLM

/-- The weight of a clause as the estimator holds it: its entry of `weights_scaled`
(KLM.cpp:129-138) times `scale_factor` (KLM.cpp:140). -/
def clause_weight (dnf : Formula) (actual_n : Int) (clause : Clause) : ℚ :=
  scale_factor dnf actual_n *
    weight_scaled (max_free dnf actual_n) (analyze actual_n clause).1 (analyze actual_n clause).2

end KLM

namespace KLM

/-- The sum, over every clause that is not contradictory and every assignment over the
variables `1 .. n` satisfying that clause, of `1 / coverage_count`. -/
def inverse_coverage_sum (dnf : Formula) (n : Nat) : ℚ :=
  ((List.zip (metas dnf n) dnf).map
    (fun mc =>
      if mc.1.contradictory then 0
      else ∑ a ∈ (assignments n).filter (fun a => clause_satisfied mc.2 a = true),
        1 / (coverage_count dnf (metas dnf n) a : ℚ))).sum

end KLM

namespace MonteCarloCounter

/-- The assignments the generator can build in a trial that drew clause index `i`: one for
each of the `2 ^ num_vars` sequences of draws of `bit_dist`, draw `j` being bit `j` of `b`. -/
def buildable (dnf : Formula) (num_vars : Nat) (i : Nat) : Finset (List Int) :=
  (Finset.range (2 ^ num_vars)).image
    (fun b => trial_assignment dnf num_vars ⟨fun _ => i, fun _ j => b.testBit j⟩ 0)

/-- The buildable assignments of clause `i` on which the trial counts as a hit: no clause
`j < i` is satisfied. -/
def hits (dnf : Formula) (num_vars : Nat) (i : Nat) : Finset (List Int) :=
  (buildable dnf num_vars i).filter (fun a => in_prior dnf num_vars i a = false)

/-- The number of pairs `(i, a)` with `a` buildable for clause `i` and the trial a hit. -/
def hit_pairs (dnf : Formula) (num_vars : Nat) : Nat :=
  ∑ i ∈ Finset.range dnf.length, (hits dnf num_vars i).card

end MonteCarloCounter

namespace KLM

/-- The expected value of the amount one trial adds to `weighted_sum`: clause index `i` is
drawn with probability `weights_scaled[i] / total_scaled`, and each of the
`2 ^ |free_vars|` sequences of draws for the free variables of the drawn clause is equally
likely (draw `j` being bit `j` of `d`). -/
def expected_contribution (dnf : Formula) (actual_n : Int) : ℚ :=
  ∑ i ∈ Finset.range dnf.length,
    ((weights_scaled dnf actual_n).getD i 0 / total_scaled dnf actual_n) *
      ((∑ d ∈ Finset.range (2 ^ ((metas dnf actual_n).getD i default).free_vars.length),
          trial_contribution dnf actual_n ⟨fun _ => i, fun _ j => d.testBit j⟩ 0) /
        (2 : ℚ) ^ ((metas dnf actual_n).getD i default).free_vars.length)

end KLM

namespace MonteCarloCounter

/-- The expected value of `hit × total_weight` for one trial: clause index `i` is drawn with
probability `weights[i] / total_weight`, and each of the `2 ^ num_vars` sequences of draws of
`bit_dist` is equally likely (draw `j` being bit `j` of `b`). -/
def expected_estimate (dnf : Formula) (num_vars : Nat) : ℚ :=
  let total_weight : ℚ := (weights dnf num_vars).foldl (fun acc w => acc + w) 0
  ∑ i ∈ Finset.range dnf.length,
    ((weights dnf num_vars).getD i 0 / total_weight) *
      ((((Finset.range (2 ^ num_vars)).filter
          (fun b => trial_hit dnf num_vars ⟨fun _ => i, fun _ j => b.testBit j⟩ 0 = true)).card : ℚ) /
        (2 : ℚ) ^ num_vars) * total_weight

end MonteCarloCounter

/-! ## The sample count and the calls under the globals `eps` and `delta` -/

namespace MonteCarloCounter

/-- The sample count `m` of MonteCarloCounter.cpp:55-56,
`int m = ceil((3 * t / (eps*eps)) * log(2/delta))` with `int t = dnf.size()`: `t` and the
product `3 * t` are 32-bit `int`s, the library function `std::log` is the input `ln`, and
the ceiling is converted to `int`. -/
def sample_count (ln : ℚ → ℚ) (eps delta : ℚ) (dnf : Formula) : Int :=
  let t : Int := wrapInt32 dnf.length
  static_cast_int ⌈(((wrapInt32 (3 * t) : Int) : ℚ) / (eps * eps)) * ln (2 / delta)⌉

/-- One call `solve_dnf(dnf, num_vars, samples_used)` under the globals `eps` and `delta`
(MonteCarloCounter.cpp:49-134). -/
def run (ln : ℚ → ℚ) (eps delta : ℚ) (dnf : Formula) (num_vars : Int) (rng : Rng) : Outcome :=
  solve_dnf dnf num_vars (sample_count ln eps delta dnf) rng

end MonteCarloCounter

namespace KLM

/-- The sample count `m` of KLM.cpp:63-64,
`static_cast<int>(std::ceil((3.0 * t / (eps * eps)) * std::log(2.0 / delta)))` with
`int t = static_cast<int>(dnf.size())`: `t` is a 32-bit `int`, the product `3.0 * t` is a
`double`, the library function `std::log` is the input `ln`, and the ceiling is converted to
`int`. -/
def sample_count (ln : ℚ → ℚ) (eps delta : ℚ) (dnf : Formula) : Int :=
  let t : Int := wrapInt32 dnf.length
  static_cast_int ⌈(3 * (t : ℚ) / (eps * eps)) * ln (2 / delta)⌉

/-- One call `solve_dnf(dnf, num_vars_hint)` under the globals `eps` and `delta`
(KLM.cpp:45-215). -/
def run (ln : ℚ → ℚ) (eps delta : ℚ) (isfinite : ℚ → Bool) (dnf : Formula)
    (num_vars_hint : Int) (rng : Rng) : Except String Outcome :=
  solve_dnf eps delta (sample_count ln eps delta dnf) isfinite dnf num_vars_hint rng

end KLM

/-- No bit pattern of length `n` satisfies two clauses of the formula. -/
def mutuallyExclusive (dnf : Formula) (n : Nat) : Prop :=
  ∀ i, i < dnf.length → ∀ j, j < dnf.length → i ≠ j → ∀ b, b < 2 ^ n →
    ¬ (satisfiesClause b (dnf.getD i []) = true ∧ satisfiesClause b (dnf.getD j []) = true)

instance (dnf : Formula) (n : Nat) : Decidable (mutuallyExclusive dnf n) := by
  unfold mutuallyExclusive
  exact inferInstance

/-- Every clause of the formula lists pairwise distinct variables. -/
def distinctVariables (dnf : Formula) : Prop :=
  ∀ clause ∈ dnf, (clause.map Prod.fst).Nodup

instance (dnf : Formula) : Decidable (distinctVariables dnf) := by
  unfold distinctVariables
  exact inferInstance

/-- A natural number is a value of the type `double` exactly when it is `k * 2 ^ e` with a
significand `k` below `2 ^ 53` (and an exponent `e` of at most 971). -/
def representableDouble (x : Nat) : Prop :=
  ∃ k e : Nat, k < 2 ^ 53 ∧ e ≤ 971 ∧ x = k * 2 ^ e

/-! ## Lemmas on the exact counter -/

theorem wrapInt32_of_range (x : Int) (h0 : -2147483648 ≤ x) (h1 : x < 2147483648) :
    wrapInt32 x = x := by
  unfold wrapInt32
  omega

theorem shift_and_one (mask k : Nat) : (((mask >>> k) &&& 1) != 0) = mask.testBit k := by
  unfold Nat.testBit
  rw [Nat.and_comm]

theorem all_congr_mem {α : Type} (l : List α) (f g : α → Bool) (h : ∀ x ∈ l, f x = g x) :
    l.all f = l.all g := by
  induction l with
  | nil => rfl
  | cons a l ih =>
    simp only [List.all_cons]
    rw [h a (List.mem_cons_self a l), ih (fun x hx => h x (List.mem_cons_of_mem a hx))]

theorem any_congr_mem {α : Type} (l : List α) (f g : α → Bool) (h : ∀ x ∈ l, f x = g x) :
    l.any f = l.any g := by
  induction l with
  | nil => rfl
  | cons a l ih =>
    simp only [List.any_cons]
    rw [h a (List.mem_cons_self a l), ih (fun x hx => h x (List.mem_cons_of_mem a hx))]

namespace SolveDNF

theorem clause_true_eq_all (num_vars : Int) (mask : Nat) (clause : Clause) :
    clause_true num_vars mask clause =
      clause.all (fun lit => decide (0 < lit.1 ∧ lit.1 ≤ num_vars) &&
        (mask.testBit (lit.1 - 1).toNat == decide (lit.2 = 0))) := by
  induction clause with
  | nil => rfl
  | cons lit rest ih =>
    simp only [clause_true, List.all_cons, shift_and_one]
    by_cases h1 : lit.1 ≤ 0 ∨ lit.1 > num_vars
    · have : ¬ (0 < lit.1 ∧ lit.1 ≤ num_vars) := by omega
      simp [h1, this]
    · have h2 : 0 < lit.1 ∧ lit.1 ≤ num_vars := by omega
      rw [if_neg h1, ih]
      by_cases h3 : lit.2 = 0 <;> cases hb : mask.testBit (lit.1 - 1).toNat <;> simp [h2, h3]

theorem clause_true_eq_satisfies (num_vars : Int) (mask : Nat) (clause : Clause)
    (h : ∀ lit ∈ clause, 1 ≤ lit.1 ∧ lit.1 ≤ num_vars) :
    clause_true num_vars mask clause = satisfiesClause mask clause := by
  rw [clause_true_eq_all, satisfiesClause]
  apply all_congr_mem
  intro lit hlit
  have := h lit hlit
  have h2 : 0 < lit.1 ∧ lit.1 ≤ num_vars := by omega
  simp [h2]

theorem formula_true_eq_any (num_vars : Int) (mask : Nat) (dnf : Formula) :
    formula_true num_vars mask dnf = dnf.any (fun clause => clause_true num_vars mask clause) := by
  induction dnf with
  | nil => rfl
  | cons clause rest ih =>
    simp only [formula_true, List.any_cons, ih]
    cases clause_true num_vars mask clause <;> simp

theorem formula_true_eq_satisfies (num_vars : Int) (mask : Nat) (dnf : Formula)
    (h : literalsInRange dnf num_vars) :
    formula_true num_vars mask dnf = satisfiesFormula mask dnf := by
  rw [formula_true_eq_any, satisfiesFormula]
  apply any_congr_mem
  intro clause hc
  exact clause_true_eq_satisfies num_vars mask clause (h clause hc)

theorem count_loop (p : Nat → Bool) (l : List Nat) (init : Int) (h0 : 0 ≤ init)
    (h : init + l.length < 2147483648) :
    l.foldl (fun satisfied mask => if p mask then wrapInt32 (satisfied + 1) else satisfied) init
      = init + (l.countP p : Nat) := by
  induction l generalizing init with
  | nil => simp
  | cons a l ih =>
    simp only [List.foldl_cons, List.length_cons, Nat.cast_add, Nat.cast_one] at h ⊢
    by_cases hp : p a = true
    · have hw : wrapInt32 (init + 1) = init + 1 := wrapInt32_of_range _ (by omega) (by omega)
      rw [if_pos hp, hw, ih (init + 1) (by omega) (by omega), List.countP_cons_of_pos _ _ hp]
      push_cast
      ring
    · rw [if_neg hp, ih init h0 (by omega), List.countP_cons_of_neg _ _ hp]

theorem total_masks_small (n : Nat) (hn : n ≤ 30) :
    wrapInt32 ((2 : Int) ^ n) = (2 : Int) ^ n ∧ (2 : Int) ^ n ≤ 1073741824 := by
  have h1 : (2 : Int) ^ n ≤ 2 ^ 30 := pow_le_pow_right₀ (by norm_num) hn
  have h2 : (0 : Int) < 2 ^ n := by positivity
  norm_num at h1
  exact ⟨wrapInt32_of_range _ (by omega) (by omega), h1⟩

/-- On `0 ≤ num_vars ≤ 30` the machine counter is the count of the patterns below
`2 ^ num_vars` on which `formula_true` holds. -/
theorem solve_dnf_eq_countP (dnf : Formula) (num_vars : Int) (h0 : 0 ≤ num_vars)
    (h30 : num_vars ≤ 30) :
    solve_dnf dnf num_vars =
      ((List.range (2 ^ num_vars.toNat)).countP (fun mask => formula_true num_vars mask dnf) : Nat) := by
  have hn : num_vars.toNat ≤ 30 := by omega
  obtain ⟨hw, hle⟩ := total_masks_small num_vars.toNat hn
  unfold solve_dnf
  simp only []
  rw [hw]
  have ht : ((2 : Int) ^ num_vars.toNat).toNat = 2 ^ num_vars.toNat := by
    have : ((2 : Int) ^ num_vars.toNat) = ((2 ^ num_vars.toNat : Nat) : Int) := by push_cast; rfl
    rw [this, Int.toNat_natCast]
  rw [ht, count_loop _ _ 0 le_rfl]
  · simp
  · simp only [List.length_range, zero_add]
    have : ((2 ^ num_vars.toNat : Nat) : Int) ≤ 1073741824 := by push_cast; exact hle
    omega

theorem clause_true_both_signs (num_vars : Int) (mask : Nat) (clause : Clause)
    (h : hasBothSigns clause) : clause_true num_vars mask clause = false := by
  obtain ⟨v, ⟨p, hp, hpv, hp0⟩, ⟨q, hq, hqv, hq0⟩⟩ := h
  rw [clause_true_eq_all]
  cases hall : clause.all (fun lit => decide (0 < lit.1 ∧ lit.1 ≤ num_vars) &&
        (mask.testBit (lit.1 - 1).toNat == decide (lit.2 = 0))) with
  | false => rfl
  | true =>
    exfalso
    rw [List.all_eq_true] at hall
    have h1 := hall p hp
    have h2 := hall q hq
    simp only [Bool.and_eq_true, decide_eq_true_eq, beq_iff_eq, hpv, hqv, hp0, hq0] at h1 h2
    rw [h1.2] at h2
    simp at h2

theorem formula_true_remove (num_vars : Int) (mask : Nat) (pre post : Formula) (clause : Clause)
    (h : hasBothSigns clause) :
    formula_true num_vars mask (pre ++ clause :: post) = formula_true num_vars mask (pre ++ post) := by
  simp only [formula_true_eq_any, List.any_append, List.any_cons,
    clause_true_both_signs num_vars mask clause h, Bool.false_or]

end SolveDNF

theorem SolveDNF.solve_dnf_eq_exact_count (dnf : Formula) (n : Int) (h0 : 0 ≤ n) (h30 : n ≤ 30)
    (hr : literalsInRange dnf n) :
    SolveDNF.solve_dnf dnf n = (exact_count dnf n.toNat : Int) := by
  rw [SolveDNF.solve_dnf_eq_countP dnf n h0 h30]
  unfold exact_count
  have hfun : (fun mask => SolveDNF.formula_true n mask dnf) =
      (fun mask => satisfiesFormula mask dnf) := by
    funext mask
    exact SolveDNF.formula_true_eq_satisfies n mask dnf hr
  rw [hfun]

/-! ## The exact counter: main statements -/

/-- C1. For `0 ≤ n ≤ 30` and a formula whose literals all have a variable index in `[1, n]`,
the exact `solve_dnf` returns the number of bit patterns among the `2 ^ n` patterns that
satisfy at least one clause, a clause being satisfied iff each literal finds its variable's
bit at 1 when not negated and at 0 when negated. -/
theorem exact_solve_dnf_counts (dnf : Formula) (n : Int) (h0 : 0 ≤ n) (h30 : n ≤ 30)
    (hr : literalsInRange dnf n) :
    SolveDNF.solve_dnf dnf n = (exact_count dnf n.toNat : Int) := by
  rw [SolveDNF.solve_dnf_eq_countP dnf n h0 h30, exact_count]
  congr 2
  funext mask
  exact SolveDNF.formula_true_eq_satisfies n mask dnf hr

theorem exact_solve_dnf_counts_witness :
    SolveDNF.solve_dnf [[(1, 0)], [(2, 1), (3, 0)]] 3 =
      (exact_count [[(1, 0)], [(2, 1), (3, 0)]] (3 : Int).toNat : Int) :=
  exact_solve_dnf_counts [[(1, 0)], [(2, 1), (3, 0)]] 3 (by decide) (by decide)
    (by decide)

/-- C8. Deleting from a formula (equivalently, inserting at any position) a clause in which
some variable occurs both negated and un-negated leaves the result of the exact `solve_dnf`
unchanged, for every `n`; and the formula whose only clause is `{(x1,false),(x1,true)}` has
exact count 0. -/
theorem exact_contradictory_clause_ignored (pre post : Formula) (clause : Clause) (n : Int)
    (hc : hasBothSigns clause) :
    SolveDNF.solve_dnf (pre ++ clause :: post) n = SolveDNF.solve_dnf (pre ++ post) n ∧
      SolveDNF.solve_dnf [[(1, 0), (1, 1)]] n = 0 := by
  have key : ∀ (a b : Formula) (c : Clause), hasBothSigns c →
      SolveDNF.solve_dnf (a ++ c :: b) n = SolveDNF.solve_dnf (a ++ b) n := by
    intro a b c h
    unfold SolveDNF.solve_dnf
    simp only [SolveDNF.formula_true_remove n _ a b c h]
  refine ⟨key pre post clause hc, ?_⟩
  have hx : hasBothSigns [((1 : Int), (0 : Int)), (1, 1)] :=
    ⟨1, ⟨(1, 0), by simp, rfl, rfl⟩, ⟨(1, 1), by simp, rfl, by decide⟩⟩
  have h := key [] [] [(1, 0), (1, 1)] hx
  simp only [List.nil_append] at h
  rw [h]
  unfold SolveDNF.solve_dnf
  simp only [SolveDNF.formula_true]
  generalize (List.range (wrapInt32 (2 ^ n.toNat)).toNat) = l
  induction l with
  | nil => rfl
  | cons a l ih => simp [ih]

theorem exact_contradictory_clause_ignored_witness :
    hasBothSigns [(2, 1), (1, 0), (2, 0)] ∧
      (SolveDNF.solve_dnf ([[(1, 0)]] ++ [(2, 1), (1, 0), (2, 0)] :: [[(3, 1)]]) 3 =
          SolveDNF.solve_dnf ([[(1, 0)]] ++ [[(3, 1)]]) 3 ∧
        SolveDNF.solve_dnf [[(1, 0), (1, 1)]] 3 = 0) :=
  have hc : hasBothSigns [((2 : Int), (1 : Int)), (1, 0), (2, 0)] :=
    ⟨2, ⟨(2, 0), by simp, rfl, rfl⟩, ⟨(2, 1), by simp, rfl, by decide⟩⟩
  ⟨hc, exact_contradictory_clause_ignored [[(1, 0)]] [[(3, 1)]] [(2, 1), (1, 0), (2, 0)] 3 hc⟩

/-! ## Counting bit patterns with prescribed bits -/

theorem card_filter_range_two_pow_succ (n : Nat) (P : Nat → Prop) [DecidablePred P] :
    ((Finset.range (2 ^ (n + 1))).filter P).card =
      ((Finset.range (2 ^ n)).filter P).card +
        ((Finset.range (2 ^ n)).filter (fun m => P (2 ^ n + m))).card := by
  have h : 2 ^ (n + 1) = 2 ^ n + 2 ^ n := by ring
  rw [h, Finset.card_filter, Finset.card_filter, Finset.card_filter, Finset.sum_range_add]

theorem card_masks_with_bits (n : Nat) : ∀ (S : Finset Nat) (f : Nat → Bool),
    (∀ p ∈ S, p < n) →
    ((Finset.range (2 ^ n)).filter (fun m => ∀ p ∈ S, m.testBit p = f p)).card =
      2 ^ (n - S.card) := by
  induction n with
  | zero =>
    intro S f hS
    have hS0 : S = ∅ := by
      apply Finset.eq_empty_of_forall_not_mem
      intro p hp
      exact absurd (hS p hp) (Nat.not_lt_zero p)
    subst hS0
    simp
  | succ n ih =>
    intro S f hS
    rw [card_filter_range_two_pow_succ]
    by_cases hn : n ∈ S
    · have hS' : ∀ p ∈ S.erase n, p < n := by
        intro p hp
        have h1 := hS p (Finset.mem_of_mem_erase hp)
        have h2 := Finset.ne_of_mem_erase hp
        omega
      have hcard : (S.erase n).card = S.card - 1 := Finset.card_erase_of_mem hn
      have hpos : 0 < S.card := Finset.card_pos.mpr ⟨n, hn⟩
      have hle : (S.erase n).card ≤ n := by
        have := Finset.card_le_card (fun p hp => Finset.mem_range.mpr (hS' p hp) :
          S.erase n ⊆ Finset.range n)
        simpa using this
      have hlow : ∀ m ∈ Finset.range (2 ^ n),
          ((∀ p ∈ S, m.testBit p = f p) ↔
            (f n = false ∧ ∀ p ∈ S.erase n, m.testBit p = f p)) := by
        intro m hm
        have hmn : m.testBit n = false := Nat.testBit_lt_two_pow (Finset.mem_range.mp hm)
        constructor
        · intro h
          exact ⟨by rw [← h n hn, hmn], fun p hp => h p (Finset.mem_of_mem_erase hp)⟩
        · rintro ⟨h1, h2⟩ p hp
          by_cases hpn : p = n
          · subst hpn; rw [hmn, h1]
          · exact h2 p (Finset.mem_erase.mpr ⟨hpn, hp⟩)
      have hhigh : ∀ m ∈ Finset.range (2 ^ n),
          ((∀ p ∈ S, (2 ^ n + m).testBit p = f p) ↔
            (f n = true ∧ ∀ p ∈ S.erase n, m.testBit p = f p)) := by
        intro m hm
        have hmn : m.testBit n = false := Nat.testBit_lt_two_pow (Finset.mem_range.mp hm)
        have htop : (2 ^ n + m).testBit n = true := by
          rw [Nat.testBit_two_pow_add_eq, hmn]; rfl
        constructor
        · intro h
          refine ⟨by rw [← h n hn, htop], fun p hp => ?_⟩
          have := h p (Finset.mem_of_mem_erase hp)
          rwa [Nat.testBit_two_pow_add_gt (hS' p hp)] at this
        · rintro ⟨h1, h2⟩ p hp
          by_cases hpn : p = n
          · subst hpn; rw [htop, h1]
          · have hp' := Finset.mem_erase.mpr ⟨hpn, hp⟩
            rw [Nat.testBit_two_pow_add_gt (hS' p hp')]
            exact h2 p hp'
      rw [Finset.filter_congr hlow, Finset.filter_congr hhigh]
      cases hf : f n
      · simp only [true_and, Bool.false_eq_true, false_and, Finset.filter_False,
          Finset.card_empty, add_zero]
        rw [ih (S.erase n) f hS', hcard]
        congr 1
        omega
      · simp only [true_and, Bool.true_eq_false, false_and, Finset.filter_False,
          Finset.card_empty, zero_add]
        rw [ih (S.erase n) f hS', hcard]
        congr 1
        omega
    · have hS' : ∀ p ∈ S, p < n := by
        intro p hp
        have h1 := hS p hp
        have h2 : p ≠ n := fun h => hn (h ▸ hp)
        omega
      have hle : S.card ≤ n := by
        have := Finset.card_le_card (fun p hp => Finset.mem_range.mpr (hS' p hp) :
          S ⊆ Finset.range n)
        simpa using this
      have hhigh : ∀ m ∈ Finset.range (2 ^ n),
          ((∀ p ∈ S, (2 ^ n + m).testBit p = f p) ↔ (∀ p ∈ S, m.testBit p = f p)) := by
        intro m _
        constructor
        · intro h p hp
          have := h p hp
          rwa [Nat.testBit_two_pow_add_gt (hS' p hp)] at this
        · intro h p hp
          rw [Nat.testBit_two_pow_add_gt (hS' p hp)]
          exact h p hp
      rw [Finset.filter_congr hhigh, ih S f hS']
      have : n + 1 - S.card = (n - S.card) + 1 := by omega
      rw [this, pow_succ]
      ring

theorem exists_mask_with_bits (n : Nat) (g : Nat → Bool) :
    ∃ b, b < 2 ^ n ∧ ∀ p, p < n → b.testBit p = g p := by
  induction n with
  | zero => exact ⟨0, by simp, fun p hp => absurd hp (Nat.not_lt_zero p)⟩
  | succ n ih =>
    obtain ⟨b, hb, hbits⟩ := ih
    have hbn : b.testBit n = false := Nat.testBit_lt_two_pow hb
    cases hg : g n
    · refine ⟨b, by rw [pow_succ]; omega, fun p hp => ?_⟩
      by_cases hpn : p = n
      · subst hpn; rw [hbn, hg]
      · exact hbits p (by omega)
    · refine ⟨2 ^ n + b, by rw [pow_succ]; omega, fun p hp => ?_⟩
      by_cases hpn : p = n
      · subst hpn; rw [Nat.testBit_two_pow_add_eq, hbn, hg]; rfl
      · rw [Nat.testBit_two_pow_add_gt (by omega)]
        exact hbits p (by omega)

theorem mask_eq_of_bits (n b b' : Nat) (hb : b < 2 ^ n) (hb' : b' < 2 ^ n)
    (h : ∀ p, p < n → b.testBit p = b'.testBit p) : b = b' := by
  apply Nat.eq_of_testBit_eq
  intro p
  by_cases hp : p < n
  · exact h p hp
  · have hle : 2 ^ n ≤ 2 ^ p := Nat.pow_le_pow_right (by norm_num) (by omega)
    rw [Nat.testBit_lt_two_pow (lt_of_lt_of_le hb hle),
      Nat.testBit_lt_two_pow (lt_of_lt_of_le hb' hle)]

/-! ## Assignment vectors and bit patterns -/

theorem bitValue_ne_zero (b : Bool) : decide (bitValue b ≠ 0) = b := by
  cases b <;> simp [bitValue]

theorem assignmentOfMask_length (n b : Nat) : (assignmentOfMask n b).length = n + 1 := by
  simp [assignmentOfMask]

theorem assignmentOfMask_getD_zero (n b : Nat) : (assignmentOfMask n b).getD 0 0 = 0 := by
  simp [assignmentOfMask]

theorem assignmentOfMask_getD_succ (n b p : Nat) (hp : p < n) :
    (assignmentOfMask n b).getD (p + 1) 0 = bitValue (b.testBit p) := by
  simp [assignmentOfMask, List.getD_eq_getElem?_getD, List.getElem?_map,
    List.getElem?_range hp]

theorem assignmentOfMask_inj (n b b' : Nat) (hb : b < 2 ^ n) (hb' : b' < 2 ^ n)
    (h : assignmentOfMask n b = assignmentOfMask n b') : b = b' := by
  apply mask_eq_of_bits n b b' hb hb'
  intro p hp
  have h1 := assignmentOfMask_getD_succ n b p hp
  rw [h, assignmentOfMask_getD_succ n b' p hp] at h1
  have h2 := congrArg (fun x => decide (x ≠ 0)) h1
  simp only [bitValue_ne_zero] at h2
  exact h2.symm

theorem list_eq_of_getD (a a' : List Int) (hlen : a.length = a'.length)
    (h : ∀ i, i < a.length → a.getD i 0 = a'.getD i 0) : a = a' := by
  apply List.ext_getElem hlen
  intro i h1 h2
  have := h i h1
  rwa [List.getD_eq_getElem _ _ h1, List.getD_eq_getElem _ _ h2] at this

/-- The vectors in `assignments n` are exactly the 0/1 vectors of size `n + 1` whose unused
entry 0 is 0. -/
theorem mem_assignments_iff (n : Nat) (a : List Int) :
    a ∈ assignments n ↔
      a.length = n + 1 ∧ a.getD 0 0 = 0 ∧
        ∀ p, p < n → (a.getD (p + 1) 0 = 0 ∨ a.getD (p + 1) 0 = 1) := by
  constructor
  · intro h
    obtain ⟨b, _, rfl⟩ := Finset.mem_image.mp h
    refine ⟨assignmentOfMask_length n b, assignmentOfMask_getD_zero n b, fun p hp => ?_⟩
    rw [assignmentOfMask_getD_succ n b p hp]
    cases b.testBit p <;> simp [bitValue]
  · rintro ⟨hlen, h0, hbits⟩
    obtain ⟨b, hb, hb2⟩ := exists_mask_with_bits n (fun p => decide (a.getD (p + 1) 0 ≠ 0))
    refine Finset.mem_image.mpr ⟨b, Finset.mem_range.mpr hb, ?_⟩
    apply list_eq_of_getD _ _ (by rw [assignmentOfMask_length, hlen])
    intro i hi
    rw [assignmentOfMask_length] at hi
    cases i with
    | zero => rw [assignmentOfMask_getD_zero, h0]
    | succ p =>
      have hp : p < n := by omega
      rw [assignmentOfMask_getD_succ n b p hp, hb2 p hp]
      rcases hbits p hp with h | h <;> rw [h] <;> simp [bitValue]

namespace KLM

theorem klm_clause_satisfied_eq_all (clause : Clause) (assignment : List Int) :
    clause_satisfied clause assignment =
      clause.all (fun lit => decide (0 < lit.1 ∧ lit.1 < (assignment.length : Int)) &&
        (decide (assignment.getD lit.1.toNat 0 ≠ 0) == decide (lit.2 = 0))) := by
  induction clause with
  | nil => rfl
  | cons lit rest ih =>
    simp only [clause_satisfied, List.all_cons]
    by_cases h1 : lit.1 ≤ 0 ∨ lit.1 ≥ (assignment.length : Int)
    · have : ¬ (0 < lit.1 ∧ lit.1 < (assignment.length : Int)) := by omega
      simp [h1, this]
    · have h2 : 0 < lit.1 ∧ lit.1 < (assignment.length : Int) := by omega
      rw [if_neg h1, ih]
      by_cases h3 : lit.2 = 0 <;>
        cases hb : decide (assignment.getD lit.1.toNat 0 ≠ 0) <;> simp [h2, h3, hb]

end KLM

namespace MonteCarloCounter

theorem mc_clause_satisfied_eq_all (num_vars : Int) (clause : Clause) (assignment : List Int) :
    clause_satisfied num_vars clause assignment =
      clause.all (fun lit => decide (0 < lit.1 ∧ lit.1 ≤ num_vars) &&
        (decide (assignment.getD lit.1.toNat 0 ≠ 0) == decide (lit.2 = 0))) := by
  induction clause with
  | nil => rfl
  | cons lit rest ih =>
    simp only [clause_satisfied, List.all_cons]
    by_cases h1 : lit.1 ≤ 0 ∨ lit.1 > num_vars
    · have : ¬ (0 < lit.1 ∧ lit.1 ≤ num_vars) := by omega
      simp [h1, this]
    · have h2 : 0 < lit.1 ∧ lit.1 ≤ num_vars := by omega
      rw [if_neg h1, ih]
      by_cases h3 : lit.2 = 0 <;>
        cases hb : decide (assignment.getD lit.1.toNat 0 ≠ 0) <;> simp [h2, h3, hb]

end MonteCarloCounter

theorem assignmentOfMask_getD_var (n b : Nat) (v : Int) (h1 : 0 < v) (h2 : v ≤ n) :
    decide ((assignmentOfMask n b).getD v.toNat 0 ≠ 0) = b.testBit (v - 1).toNat := by
  have hv : v.toNat = (v - 1).toNat + 1 := by omega
  rw [hv, assignmentOfMask_getD_succ n b _ (by omega), bitValue_ne_zero]

/-- On the vector of a bit pattern the estimator's satisfaction test agrees with the exact
counter's literal loop. -/
theorem KLM.klm_clause_satisfied_assignmentOfMask (n b : Nat) (clause : Clause) :
    KLM.clause_satisfied clause (assignmentOfMask n b) = SolveDNF.clause_true n b clause := by
  rw [KLM.klm_clause_satisfied_eq_all, SolveDNF.clause_true_eq_all]
  apply all_congr_mem
  intro lit _
  rw [assignmentOfMask_length]
  by_cases h : 0 < lit.1 ∧ lit.1 ≤ (n : Int)
  · have h' : 0 < lit.1 ∧ lit.1 < ((n + 1 : Nat) : Int) := by omega
    rw [assignmentOfMask_getD_var n b lit.1 h.1 h.2, decide_eq_true h, decide_eq_true h']
  · have h' : ¬ (0 < lit.1 ∧ lit.1 < ((n + 1 : Nat) : Int)) := by omega
    rw [decide_eq_false h, decide_eq_false h', Bool.false_and, Bool.false_and]

theorem MonteCarloCounter.mc_clause_satisfied_assignmentOfMask (n b : Nat) (clause : Clause) :
    MonteCarloCounter.clause_satisfied n clause (assignmentOfMask n b) =
      SolveDNF.clause_true n b clause := by
  rw [MonteCarloCounter.mc_clause_satisfied_eq_all, SolveDNF.clause_true_eq_all]
  apply all_congr_mem
  intro lit _
  by_cases h : 0 < lit.1 ∧ lit.1 ≤ (n : Int)
  · rw [assignmentOfMask_getD_var n b lit.1 h.1 h.2]
  · rw [decide_eq_false h, Bool.false_and, Bool.false_and]

/-! ## The clause scan of the KLM analyzer -/

namespace KLM

theorem lookup_some_mem (l : List (Int × Int)) (k x : Int) (h : l.lookup k = some x) :
    (k, x) ∈ l := by
  induction l with
  | nil => simp [List.lookup] at h
  | cons e l ih =>
    obtain ⟨a, b⟩ := e
    rw [List.lookup_cons] at h
    by_cases hk : k = a
    · subst hk
      simp only [beq_self_eq_true, Option.some.injEq] at h
      subst h
      exact List.mem_cons_self _ _
    · have hka : (k == a) = false := by simp [hk]
      rw [hka] at h
      exact List.mem_cons_of_mem _ (ih h)

theorem lookup_none_not_mem (l : List (Int × Int)) (k : Int) (h : l.lookup k = none) :
    k ∉ l.map Prod.fst := by
  induction l with
  | nil => simp
  | cons e l ih =>
    obtain ⟨a, b⟩ := e
    rw [List.lookup_cons] at h
    by_cases hk : k = a
    · subst hk
      simp at h
    · have hka : (k == a) = false := by simp [hk]
      rw [hka] at h
      simp only [List.map_cons, List.mem_cons, not_or]
      exact ⟨hk, ih h⟩

theorem seen_assign_of_some (seen : List (Int × Int)) (v s : Int)
    (hnd : (seen.map Prod.fst).Nodup) (h : seen.lookup v = some s) :
    seen_assign seen v s = seen := by
  unfold seen_assign
  rw [h]
  have hmem := lookup_some_mem seen v s h
  have hid : ∀ e ∈ seen, (fun entry : Int × Int => if entry.1 = v then (v, s) else entry) e = id e := by
    intro e he
    by_cases hev : e.1 = v
    · have : e = (v, s) := List.inj_on_of_nodup_map hnd he hmem hev
      simp [this]
    · simp [hev]
  simp only []
  rw [List.map_congr_left hid, List.map_id]

theorem seen_assign_of_none (seen : List (Int × Int)) (v s : Int)
    (h : seen.lookup v = none) : seen_assign seen v s = seen ++ [(v, s)] := by
  unfold seen_assign
  rw [h]

theorem nodup_keys_append (seen : List (Int × Int)) (v s : Int)
    (hnd : (seen.map Prod.fst).Nodup) (h : seen.lookup v = none) :
    ((seen ++ [(v, s)]).map Prod.fst).Nodup := by
  rw [List.map_append, List.nodup_append]
  refine ⟨hnd, by simp, ?_⟩
  intro k hk hk'
  simp only [List.map_cons, List.map_nil, List.mem_singleton] at hk'
  subst hk'
  exact lookup_none_not_mem seen k h hk

/-- A scan that ends without the flag has recorded every literal with a positive index and
nothing else, each variable once. -/
theorem scan_false (clause : Clause) : ∀ (seen0 seen : List (Int × Int)),
    (seen0.map Prod.fst).Nodup → scan seen0 clause = (seen, false) →
    (seen.map Prod.fst).Nodup ∧
      ∀ v s, (v, s) ∈ seen ↔ ((v, s) ∈ seen0 ∨ (0 < v ∧ (v, s) ∈ clause)) := by
  induction clause with
  | nil =>
    intro seen0 seen hnd h
    simp only [scan, Prod.mk.injEq, and_true] at h
    subst h
    exact ⟨hnd, fun v s => by simp⟩
  | cons lit rest ih =>
    intro seen0 seen hnd h
    obtain ⟨lv, ls⟩ := lit
    simp only [scan] at h
    by_cases hv : lv ≤ 0
    · rw [if_pos hv] at h
      obtain ⟨h1, h2⟩ := ih seen0 seen hnd h
      refine ⟨h1, fun v s => ?_⟩
      rw [h2 v s]
      constructor
      · rintro (h | ⟨h, h'⟩)
        · exact Or.inl h
        · exact Or.inr ⟨h, List.mem_cons_of_mem _ h'⟩
      · rintro (h | ⟨h, h'⟩)
        · exact Or.inl h
        · rcases List.mem_cons.mp h' with heq | hmem
          · simp only [Prod.mk.injEq] at heq
            omega
          · exact Or.inr ⟨h, hmem⟩
    · rw [if_neg hv] at h
      cases hl : seen0.lookup lv with
      | none =>
        rw [hl] at h
        simp only [] at h
        rw [seen_assign_of_none seen0 lv ls hl] at h
        obtain ⟨h1, h2⟩ := ih _ seen (nodup_keys_append seen0 lv ls hnd hl) h
        refine ⟨h1, fun v s => ?_⟩
        rw [h2 v s]
        simp only [List.mem_append, List.mem_cons, Prod.mk.injEq, List.not_mem_nil, or_false]
        constructor
        · rintro ((hm | ⟨hm1, hm2⟩) | ⟨hm, hm'⟩)
          · exact Or.inl hm
          · exact Or.inr ⟨by omega, Or.inl ⟨hm1, hm2⟩⟩
          · exact Or.inr ⟨hm, Or.inr hm'⟩
        · rintro (hm | ⟨hm, hm' | hm'⟩)
          · exact Or.inl (Or.inl hm)
          · exact Or.inl (Or.inr hm')
          · exact Or.inr ⟨hm, hm'⟩
      | some found =>
        rw [hl] at h
        simp only [] at h
        by_cases hf : found ≠ ls
        · rw [if_pos hf] at h
          simp at h
        · rw [if_neg hf] at h
          have hfe : found = ls := by
            by_contra hne
            exact hf hne
          subst hfe
          rw [seen_assign_of_some seen0 lv found hnd hl] at h
          obtain ⟨h1, h2⟩ := ih seen0 seen hnd h
          refine ⟨h1, fun v s => ?_⟩
          rw [h2 v s]
          have hmem := lookup_some_mem seen0 lv found hl
          simp only [List.mem_cons, Prod.mk.injEq]
          constructor
          · rintro (hm | ⟨hm, hm'⟩)
            · exact Or.inl hm
            · exact Or.inr ⟨hm, Or.inr hm'⟩
          · rintro (hm | ⟨hm, ⟨hm1, hm2⟩ | hm'⟩)
            · exact Or.inl hm
            · rw [hm1, hm2]
              exact Or.inl hmem
            · exact Or.inr ⟨hm, hm'⟩

/-- A scan that raises the flag has met a positive index carrying two different flags. -/
theorem scan_true (clause : Clause) : ∀ (seen0 seen : List (Int × Int)),
    (seen0.map Prod.fst).Nodup → scan seen0 clause = (seen, true) →
    ∃ v s s', 0 < v ∧ s ≠ s' ∧ ((v, s) ∈ seen0 ∨ (v, s) ∈ clause) ∧ (v, s') ∈ clause := by
  induction clause with
  | nil =>
    intro seen0 seen _ h
    simp [scan] at h
  | cons lit rest ih =>
    intro seen0 seen hnd h
    obtain ⟨lv, ls⟩ := lit
    simp only [scan] at h
    by_cases hv : lv ≤ 0
    · rw [if_pos hv] at h
      obtain ⟨v, s, s', h1, h2, h3, h4⟩ := ih seen0 seen hnd h
      refine ⟨v, s, s', h1, h2, ?_, List.mem_cons_of_mem _ h4⟩
      rcases h3 with h3 | h3
      · exact Or.inl h3
      · exact Or.inr (List.mem_cons_of_mem _ h3)
    · rw [if_neg hv] at h
      cases hl : seen0.lookup lv with
      | none =>
        rw [hl] at h
        simp only [] at h
        rw [seen_assign_of_none seen0 lv ls hl] at h
        obtain ⟨v, s, s', h1, h2, h3, h4⟩ :=
          ih _ seen (nodup_keys_append seen0 lv ls hnd hl) h
        refine ⟨v, s, s', h1, h2, ?_, List.mem_cons_of_mem _ h4⟩
        rcases h3 with h3 | h3
        · rcases List.mem_append.mp h3 with h3 | h3
          · exact Or.inl h3
          · exact Or.inr (by
              rw [List.mem_singleton] at h3
              rw [h3]
              exact List.mem_cons_self _ _)
        · exact Or.inr (List.mem_cons_of_mem _ h3)
      | some found =>
        rw [hl] at h
        simp only [] at h
        have hmem := lookup_some_mem seen0 lv found hl
        by_cases hf : found ≠ ls
        · exact ⟨lv, found, ls, by omega, hf, Or.inl hmem, List.mem_cons_self _ _⟩
        · rw [if_neg hf] at h
          have hfe : found = ls := by
            by_contra hne
            exact hf hne
          subst hfe
          rw [seen_assign_of_some seen0 lv found hnd hl] at h
          obtain ⟨v, s, s', h1, h2, h3, h4⟩ := ih seen0 seen hnd h
          refine ⟨v, s, s', h1, h2, ?_, List.mem_cons_of_mem _ h4⟩
          rcases h3 with h3 | h3
          · exact Or.inl h3
          · exact Or.inr (List.mem_cons_of_mem _ h3)

end KLM

/-! ## Vectors updated by a loop of guarded stores -/

theorem foldl_set_length {α : Type} (c : Nat → α → Prop) [∀ k x, Decidable (c k x)]
    (idx : α → Nat) (val : α → Int) (l : List α) : ∀ a : List Int,
    (l.foldl (fun a x => if c a.length x then a.set (idx x) (val x) else a) a).length
      = a.length := by
  induction l with
  | nil => intro a; rfl
  | cons x l ih =>
    intro a
    rw [List.foldl_cons, ih]
    split
    · exact List.length_set _ _ _
    · rfl

theorem foldl_set_getD_other {α : Type} (c : Nat → α → Prop) [∀ k x, Decidable (c k x)]
    (idx : α → Nat) (val : α → Int) (p : Nat) (l : List α) : ∀ a : List Int,
    (∀ x ∈ l, c a.length x → idx x ≠ p) →
    (l.foldl (fun a x => if c a.length x then a.set (idx x) (val x) else a) a).getD p 0
      = a.getD p 0 := by
  induction l with
  | nil => intro a _; rfl
  | cons x l ih =>
    intro a h
    rw [List.foldl_cons]
    by_cases hc : c a.length x
    · rw [if_pos hc, ih]
      · rw [List.getD_eq_getElem?_getD, List.getD_eq_getElem?_getD,
          List.getElem?_set_ne (h x (List.mem_cons_self _ _) hc)]
      · intro y hy hcy
        rw [List.length_set] at hcy
        exact h y (List.mem_cons_of_mem _ hy) hcy
    · rw [if_neg hc, ih]
      intro y hy hcy
      exact h y (List.mem_cons_of_mem _ hy) hcy

theorem foldl_set_getD_hit {α : Type} (c : Nat → α → Prop) [∀ k x, Decidable (c k x)]
    (idx : α → Nat) (val : α → Int) (p : Nat) (w : Int) (l : List α) : ∀ a : List Int,
    p < a.length → (∃ x ∈ l, c a.length x ∧ idx x = p) →
    (∀ x ∈ l, c a.length x → idx x = p → val x = w) →
    (l.foldl (fun a x => if c a.length x then a.set (idx x) (val x) else a) a).getD p 0
      = w := by
  induction l with
  | nil =>
    intro a _ hex _
    obtain ⟨x, hx, _⟩ := hex
    exact absurd hx (List.not_mem_nil x)
  | cons x l ih =>
    intro a hp hex hval
    rw [List.foldl_cons]
    have hlen : (if c a.length x then a.set (idx x) (val x) else a).length = a.length := by
      split
      · exact List.length_set _ _ _
      · rfl
    by_cases htail : ∃ y ∈ l, c a.length y ∧ idx y = p
    · apply ih
      · rw [hlen]; exact hp
      · rw [hlen]; exact htail
      · rw [hlen]
        intro y hy
        exact hval y (List.mem_cons_of_mem _ hy)
    · obtain ⟨y, hy, hcy, hiy⟩ := hex
      rcases List.mem_cons.mp hy with rfl | hy'
      · rw [foldl_set_getD_other c idx val p l]
        · rw [if_pos hcy, List.getD_eq_getElem?_getD, hiy, List.getElem?_set_self hp]
          exact hval y (List.mem_cons_self _ _) hcy hiy
        · rw [hlen]
          intro z hz hcz hiz
          exact htail ⟨z, hz, hcz, hiz⟩
      · exact absurd ⟨y, hy', hcy, hiy⟩ htail

theorem getD_replicate_zero (k p : Nat) : (List.replicate k (0 : Int)).getD p 0 = 0 := by
  rw [List.getD_eq_getElem?_getD, List.getElem?_replicate]
  split <;> rfl

/-! ## The number of patterns satisfying one clause -/

theorem mem_bitPositions (vars : List Int) (p : Nat) :
    p ∈ bitPositions vars ↔ ∃ v ∈ vars, (v - 1).toNat = p := by
  simp [bitPositions]

theorem bitPositions_lt (vars : List Int) (n : Nat) (h : ∀ v ∈ vars, 1 ≤ v ∧ v ≤ n) :
    ∀ p ∈ bitPositions vars, p < n := by
  intro p hp
  obtain ⟨v, hv, rfl⟩ := (mem_bitPositions vars p).mp hp
  have := h v hv
  omega

theorem bitPositions_card (vars : List Int) (h : ∀ v ∈ vars, 1 ≤ v) :
    (bitPositions vars).card = vars.toFinset.card := by
  have himg : bitPositions vars = vars.toFinset.image (fun v => (v - 1).toNat) := by
    ext p
    simp [bitPositions]
  rw [himg]
  apply Finset.card_image_of_injOn
  intro x hx y hy hxy
  have h1 := h x (List.mem_toFinset.mp hx)
  have h2 := h y (List.mem_toFinset.mp hy)
  simp only at hxy
  omega

theorem satisfiesClause_iff_bits (clause : Clause) (hpos : ∀ lit ∈ clause, 1 ≤ lit.1)
    (hcons : consistentFlags clause) (b : Nat) :
    satisfiesClause b clause = true ↔
      ∀ p ∈ bitPositions (clause.map Prod.fst),
        b.testBit p = decide ((((p + 1 : Nat) : Int), (0 : Int)) ∈ clause) := by
  have hflag : ∀ lit ∈ clause,
      decide (lit.2 = 0) = decide ((((((lit.1 - 1).toNat + 1 : Nat) : Int)), (0 : Int)) ∈ clause) := by
    intro lit hlit
    have h1 := hpos lit hlit
    have hv : ((((lit.1 - 1).toNat + 1 : Nat) : Int)) = lit.1 := by omega
    rw [hv]
    by_cases h0 : lit.2 = 0
    · have : (lit.1, (0 : Int)) ∈ clause := by
        rw [← h0]
        exact hlit
      simp [h0, this]
    · have : (lit.1, (0 : Int)) ∉ clause := by
        intro hmem
        exact h0 (hcons lit hlit (lit.1, 0) hmem rfl)
      simp [h0, this]
  unfold satisfiesClause
  rw [List.all_eq_true]
  constructor
  · intro h p hp
    obtain ⟨v, hv, rfl⟩ := (mem_bitPositions _ p).mp hp
    obtain ⟨lit, hlit, rfl⟩ := List.mem_map.mp hv
    have := h lit hlit
    rw [beq_iff_eq] at this
    rw [this, hflag lit hlit]
  · intro h lit hlit
    rw [beq_iff_eq, hflag lit hlit]
    apply h
    exact (mem_bitPositions _ _).mpr ⟨lit.1, List.mem_map.mpr ⟨lit, hlit, rfl⟩, rfl⟩

/-- A clause with consistent flags and indices in `[1, n]` is satisfied by exactly
`2 ^ (n - d)` of the `2 ^ n` patterns, `d` its number of distinct variables. -/
theorem card_satisfying_masks (clause : Clause) (n : Nat)
    (hr : ∀ lit ∈ clause, 1 ≤ lit.1 ∧ lit.1 ≤ n) (hcons : consistentFlags clause) :
    ((Finset.range (2 ^ n)).filter (fun b => satisfiesClause b clause = true)).card =
      2 ^ (n - distinctVarCount clause) := by
  have hpos : ∀ lit ∈ clause, 1 ≤ lit.1 := fun lit hlit => (hr lit hlit).1
  have hvars : ∀ v ∈ clause.map Prod.fst, 1 ≤ v ∧ v ≤ (n : Int) := by
    intro v hv
    obtain ⟨lit, hlit, rfl⟩ := List.mem_map.mp hv
    exact hr lit hlit
  rw [Finset.filter_congr (fun b _ => satisfiesClause_iff_bits clause hpos hcons b),
    card_masks_with_bits n _ _ (bitPositions_lt _ n hvars),
    bitPositions_card _ (fun v hv => (hvars v hv).1), distinctVarCount]

theorem distinctVarCount_le (clause : Clause) (n : Nat)
    (hr : ∀ lit ∈ clause, 1 ≤ lit.1 ∧ lit.1 ≤ n) : distinctVarCount clause ≤ n := by
  have hvars : ∀ v ∈ clause.map Prod.fst, 1 ≤ v ∧ v ≤ (n : Int) := by
    intro v hv
    obtain ⟨lit, hlit, rfl⟩ := List.mem_map.mp hv
    exact hr lit hlit
  rw [distinctVarCount, ← bitPositions_card _ (fun v hv => (hvars v hv).1)]
  have := Finset.card_le_card (fun p hp => Finset.mem_range.mpr (bitPositions_lt _ n hvars p hp) :
    bitPositions (clause.map Prod.fst) ⊆ Finset.range n)
  simpa using this

/-! ## The KLM clause analyzer -/

namespace KLM

theorem analyze_contradictory (n : Int) (clause : Clause) :
    (analyze n clause).1.contradictory = (scan [] clause).2 := by
  unfold analyze
  simp only []
  split <;> rfl

theorem vs_of_false (clause : Clause) (hs : (scan [] clause).2 = false) :
    vs (scan [] clause) =
      List.insertionSort (fun a b : Int × Int => a.1 ≤ b.1) (scan [] clause).1 := by
  unfold vs
  rw [hs]
  rfl

theorem analyze_vars (n : Int) (clause : Clause) (hs : (scan [] clause).2 = false) :
    (analyze n clause).1.vars =
      (List.insertionSort (fun a b : Int × Int => a.1 ≤ b.1) (scan [] clause).1).map Prod.fst := by
  rw [← vs_of_false clause hs]
  unfold analyze
  simp only []
  split <;> rfl

theorem analyze_signs (n : Int) (clause : Clause) (hs : (scan [] clause).2 = false) :
    (analyze n clause).1.signs =
      (List.insertionSort (fun a b : Int × Int => a.1 ≤ b.1) (scan [] clause).1).map Prod.snd := by
  rw [← vs_of_false clause hs]
  unfold analyze
  simp only []
  split <;> rfl

theorem scan_nil_false (clause : Clause) (hs : (scan [] clause).2 = false) :
    ((scan [] clause).1.map Prod.fst).Nodup ∧
      ∀ v s, (v, s) ∈ (scan [] clause).1 ↔ (0 < v ∧ (v, s) ∈ clause) := by
  have h := scan_false clause [] (scan [] clause).1 (by simp) (Prod.ext rfl hs)
  refine ⟨h.1, fun v s => ?_⟩
  rw [h.2 v s]
  simp

theorem mem_zip_vars_signs (n : Int) (clause : Clause) (hs : (scan [] clause).2 = false)
    (v s : Int) :
    (v, s) ∈ List.zip (analyze n clause).1.vars (analyze n clause).1.signs ↔
      (0 < v ∧ (v, s) ∈ clause) := by
  rw [analyze_vars n clause hs, analyze_signs n clause hs, ← List.zip_of_prod rfl rfl,
    (List.perm_insertionSort _ _).mem_iff]
  exact (scan_nil_false clause hs).2 v s

theorem vars_nodup (n : Int) (clause : Clause) (hs : (scan [] clause).2 = false) :
    (analyze n clause).1.vars.Nodup := by
  rw [analyze_vars n clause hs,
    ((List.perm_insertionSort _ _).map Prod.fst).nodup_iff]
  exact (scan_nil_false clause hs).1

theorem mem_vars (n : Int) (clause : Clause) (hs : (scan [] clause).2 = false) (v : Int) :
    v ∈ (analyze n clause).1.vars ↔ (0 < v ∧ v ∈ clause.map Prod.fst) := by
  rw [analyze_vars n clause hs, ((List.perm_insertionSort _ _).map Prod.fst).mem_iff]
  simp only [List.mem_map, Prod.exists, exists_and_right, exists_eq_right]
  constructor
  · rintro ⟨s, h⟩
    have := ((scan_nil_false clause hs).2 v s).mp h
    exact ⟨this.1, s, this.2⟩
  · rintro ⟨h0, s, h⟩
    exact ⟨s, ((scan_nil_false clause hs).2 v s).mpr ⟨h0, h⟩⟩

theorem consistentFlags_of_scan (clause : Clause) (hpos : ∀ lit ∈ clause, 1 ≤ lit.1)
    (hs : (scan [] clause).2 = false) : consistentFlags clause := by
  obtain ⟨hnd, hmem⟩ := scan_nil_false clause hs
  intro lit hlit lit' hlit' hv
  have h1 : lit ∈ (scan [] clause).1 := (hmem lit.1 lit.2).mpr ⟨by have := hpos lit hlit; omega, hlit⟩
  have h2 : lit' ∈ (scan [] clause).1 :=
    (hmem lit'.1 lit'.2).mpr ⟨by have := hpos lit' hlit'; omega, hlit'⟩
  rw [List.inj_on_of_nodup_map hnd h1 h2 hv]

theorem vars_length (n : Int) (clause : Clause) (hpos : ∀ lit ∈ clause, 1 ≤ lit.1)
    (hs : (scan [] clause).2 = false) :
    (analyze n clause).1.vars.length = distinctVarCount clause := by
  rw [distinctVarCount, ← List.toFinset_card_of_nodup (vars_nodup n clause hs)]
  congr 1
  ext v
  rw [List.mem_toFinset, List.mem_toFinset, mem_vars n clause hs v]
  constructor
  · exact fun h => h.2
  · intro h
    refine ⟨?_, h⟩
    obtain ⟨lit, hlit, rfl⟩ := List.mem_map.mp h
    have := hpos lit hlit
    omega

theorem in_clause_getD (n : Int) (vars : List Int) (v : Int) (h1 : 1 ≤ v) (h2 : v ≤ n) :
    (in_clause n vars).getD v.toNat 0 = if v ∈ vars then 1 else 0 := by
  unfold in_clause
  by_cases hv : v ∈ vars
  · rw [if_pos hv]
    apply foldl_set_getD_hit (fun _ (u : Int) => u ≥ 1 ∧ u ≤ n) Int.toNat (fun _ => 1)
    · rw [List.length_replicate]
      omega
    · exact ⟨v, hv, ⟨h1, h2⟩, rfl⟩
    · intro _ _ _ _
      rfl
  · rw [if_neg hv, foldl_set_getD_other (fun _ (u : Int) => u ≥ 1 ∧ u ≤ n) Int.toNat (fun _ => 1)]
    · exact getD_replicate_zero _ _
    · intro u hu hc heq
      apply hv
      have : u = v := by omega
      rw [← this]
      exact hu

end KLM

namespace KLM

theorem mem_free_vars (n : Nat) (vars : List Int) (v : Int) :
    v ∈ free_vars n vars ↔ (1 ≤ v ∧ v ≤ n ∧ v ∉ vars) := by
  unfold free_vars
  rw [List.mem_filter, List.mem_map, Int.toNat_natCast]
  constructor
  · rintro ⟨⟨j, hj, rfl⟩, hget⟩
    have hj' := List.mem_range.mp hj
    have h1 : (1 : Int) ≤ ((j + 1 : Nat) : Int) := by omega
    have h2 : ((j + 1 : Nat) : Int) ≤ (n : Int) := by omega
    refine ⟨h1, h2, ?_⟩
    rw [in_clause_getD n vars _ h1 h2] at hget
    intro hmem
    rw [if_pos hmem] at hget
    simp at hget
  · rintro ⟨h1, h2, h3⟩
    refine ⟨⟨(v - 1).toNat, List.mem_range.mpr (by omega), by omega⟩, ?_⟩
    rw [in_clause_getD n vars v h1 h2, if_neg h3]
    simp

theorem free_vars_nodup (n : Nat) (vars : List Int) : (free_vars n vars).Nodup := by
  unfold free_vars
  apply List.Nodup.filter
  apply List.Nodup.map _ (List.nodup_range _)
  intro a b hab
  simp only at hab
  omega

theorem free_vars_length (n : Nat) (vars : List Int) (hnd : vars.Nodup)
    (hr : ∀ v ∈ vars, 1 ≤ v ∧ v ≤ n) :
    (free_vars n vars).length + vars.length = n := by
  rw [← List.toFinset_card_of_nodup (free_vars_nodup n vars),
    ← List.toFinset_card_of_nodup hnd]
  have hdisj : Disjoint (free_vars n vars).toFinset vars.toFinset := by
    rw [Finset.disjoint_left]
    intro v hv hv'
    exact ((mem_free_vars n vars v).mp (List.mem_toFinset.mp hv)).2.2 (List.mem_toFinset.mp hv')
  have hunion : (free_vars n vars).toFinset ∪ vars.toFinset =
      (Finset.range n).image (fun j => ((j + 1 : Nat) : Int)) := by
    ext v
    simp only [Finset.mem_union, List.mem_toFinset, mem_free_vars, Finset.mem_image,
      Finset.mem_range]
    constructor
    · rintro (⟨h1, h2, _⟩ | h)
      · exact ⟨(v - 1).toNat, by omega, by omega⟩
      · have := hr v h
        exact ⟨(v - 1).toNat, by omega, by omega⟩
    · rintro ⟨j, hj, rfl⟩
      by_cases hmem : ((j + 1 : Nat) : Int) ∈ vars
      · exact Or.inr hmem
      · exact Or.inl ⟨by omega, by omega, hmem⟩
  rw [← Finset.card_union_of_disjoint hdisj, hunion, Finset.card_image_of_injOn, Finset.card_range]
  intro a _ b _ hab
  simp only at hab
  omega

theorem analyze_vars_eq (n : Int) (clause : Clause) :
    (analyze n clause).1.vars = (vs (scan [] clause)).map (fun kv => kv.1) := by
  unfold analyze
  simp only []
  split <;> rfl

theorem analyze_of_fits (n : Int) (clause : Clause)
    (hcond : ¬ ((scan [] clause).2 = true ∨ ((analyze n clause).1.vars.length : Int) > n)) :
    (analyze n clause).1.free_vars = free_vars n (analyze n clause).1.vars ∧
      (analyze n clause).2 = ((free_vars n (analyze n clause).1.vars).length : Int) := by
  rw [analyze_vars_eq] at hcond ⊢
  unfold analyze
  simp only []
  rw [if_neg hcond]
  exact ⟨rfl, rfl⟩

/-- A clause that the scan does not flag and whose indices lie in `[1, n]`: its variables are
recorded once each, and the free variables are the remaining ones of `1 .. n`. -/
theorem analyze_free (n : Nat) (clause : Clause)
    (hr : ∀ lit ∈ clause, 1 ≤ lit.1 ∧ lit.1 ≤ n) (hs : (scan [] clause).2 = false) :
    (analyze n clause).1.free_vars = free_vars n (analyze n clause).1.vars ∧
      (analyze n clause).2 = ((analyze n clause).1.free_vars.length : Int) ∧
      (analyze n clause).1.free_vars.length + distinctVarCount clause = n := by
  have hpos : ∀ lit ∈ clause, 1 ≤ lit.1 := fun lit hlit => (hr lit hlit).1
  have hlen := vars_length n clause hpos hs
  have hle := distinctVarCount_le clause n hr
  have hcond : ¬ ((scan [] clause).2 = true ∨ ((analyze n clause).1.vars.length : Int) > n) := by
    rw [hs, hlen]
    simp only [Bool.false_eq_true, false_or, gt_iff_lt, not_lt]
    omega
  obtain ⟨h1, h2⟩ := analyze_of_fits n clause hcond
  have hvr : ∀ v ∈ (analyze n clause).1.vars, 1 ≤ v ∧ v ≤ (n : Int) := by
    intro v hv
    obtain ⟨h0, hmem⟩ := (mem_vars n clause hs v).mp hv
    obtain ⟨lit, hlit, rfl⟩ := List.mem_map.mp hmem
    exact hr lit hlit
  refine ⟨h1, by rw [h2, h1], ?_⟩
  rw [h1, ← hlen]
  exact free_vars_length n _ (vars_nodup n clause hs) hvr

end KLM

/-! ## The KLM assignment generator -/

namespace KLM

theorem free_fold_eq (fv : List (Nat × Int)) (draw : Nat → Bool) (a : List Int) :
    fv.foldl (fun assignment jv => assignment.set jv.2.toNat (bitValue (draw jv.1))) a =
      fv.foldl (fun assignment jv =>
        if (fun (_ : Nat) (_ : Nat × Int) => True) assignment.length jv then
          assignment.set jv.2.toNat (bitValue (draw jv.1)) else assignment) a := by
  simp

theorem free_fold_length (fv : List (Nat × Int)) (draw : Nat → Bool) (a : List Int) :
    (fv.foldl (fun assignment jv => assignment.set jv.2.toNat (bitValue (draw jv.1))) a).length
      = a.length := by
  rw [free_fold_eq]
  exact foldl_set_length (fun (_ : Nat) (_ : Nat × Int) => True)
    (fun jv => jv.2.toNat) (fun jv => bitValue (draw jv.1)) fv a

theorem free_fold_getD_other (fv : List (Nat × Int)) (draw : Nat → Bool) (a : List Int)
    (p : Nat) (h : ∀ jv ∈ fv, jv.2.toNat ≠ p) :
    (fv.foldl (fun assignment jv => assignment.set jv.2.toNat (bitValue (draw jv.1))) a).getD p 0
      = a.getD p 0 := by
  rw [free_fold_eq]
  exact foldl_set_getD_other (fun (_ : Nat) (_ : Nat × Int) => True)
    (fun jv => jv.2.toNat) (fun jv => bitValue (draw jv.1)) p fv a (fun jv hjv _ => h jv hjv)

theorem free_fold_getD_hit (fv : List (Nat × Int)) (draw : Nat → Bool) (a : List Int)
    (p : Nat) (j : Nat) (hp : p < a.length) (hex : ∃ jv ∈ fv, jv.2.toNat = p)
    (huniq : ∀ jv ∈ fv, jv.2.toNat = p → jv.1 = j) :
    (fv.foldl (fun assignment jv => assignment.set jv.2.toNat (bitValue (draw jv.1))) a).getD p 0
      = bitValue (draw j) := by
  rw [free_fold_eq]
  apply foldl_set_getD_hit (fun (_ : Nat) (_ : Nat × Int) => True)
    (fun jv => jv.2.toNat) (fun jv => bitValue (draw jv.1)) p (bitValue (draw j)) fv a hp
  · obtain ⟨jv, h1, h2⟩ := hex
    exact ⟨jv, h1, trivial, h2⟩
  · intro jv hjv _ heq
    show bitValue (draw jv.1) = bitValue (draw j)
    rw [huniq jv hjv heq]

theorem generate_length (n : Int) (cm : ClauseMeta) (draw : Nat → Bool) :
    (generate n cm draw).length = (n + 1).toNat := by
  unfold generate
  simp only []
  rw [foldl_set_length (fun k (vs : Int × Int) => vs.1 > 0 ∧ vs.1 < (k : Int))
    (fun vs => vs.1.toNat) (fun vs => if vs.2 ≠ 0 then 0 else 1), free_fold_length,
    List.length_replicate]

/-- Entries written by neither loop of the generator stay 0. -/
theorem generate_getD_untouched (n : Int) (cm : ClauseMeta) (draw : Nat → Bool) (p : Nat)
    (hv : ∀ vs ∈ List.zip cm.vars cm.signs, vs.1 > 0 → vs.1.toNat ≠ p)
    (hf : ∀ v ∈ cm.free_vars, v.toNat ≠ p) :
    (generate n cm draw).getD p 0 = 0 := by
  unfold generate
  simp only []
  rw [foldl_set_getD_other (fun k (vs : Int × Int) => vs.1 > 0 ∧ vs.1 < (k : Int))
    (fun vs => vs.1.toNat) (fun vs => if vs.2 ≠ 0 then 0 else 1), free_fold_getD_other]
  · exact getD_replicate_zero _ _
  · intro jv hjv
    obtain ⟨j, v⟩ := jv
    exact hf v (by rw [(List.mem_enum hjv).2]; exact List.getElem_mem _)
  · intro vs hvs hc
    exact hv vs hvs hc.1

theorem generate_getD_forced (n : Int) (cm : ClauseMeta) (draw : Nat → Bool) (v s : Int)
    (hmem : (v, s) ∈ List.zip cm.vars cm.signs) (h1 : 1 ≤ v) (h2 : v ≤ n)
    (huniq : ∀ vs ∈ List.zip cm.vars cm.signs, vs.1 = v → vs.2 = s) :
    (generate n cm draw).getD v.toNat 0 = if s ≠ 0 then 0 else 1 := by
  have hlen1 := free_fold_length cm.free_vars.enum draw (List.replicate (n + 1).toNat 0)
  rw [List.length_replicate] at hlen1
  unfold generate
  simp only []
  apply foldl_set_getD_hit (fun k (vs : Int × Int) => vs.1 > 0 ∧ vs.1 < (k : Int))
    (fun vs => vs.1.toNat) (fun vs => if vs.2 ≠ 0 then 0 else 1)
  · rw [hlen1]
    omega
  · refine ⟨(v, s), hmem, ⟨?_, ?_⟩, rfl⟩
    · show v > 0
      omega
    · rw [hlen1]
      show v < (((n + 1).toNat : Nat) : Int)
      omega
  · intro vs hvs hc heq
    have heq' : vs.1.toNat = v.toNat := heq
    have hc1 : vs.1 > 0 := hc.1
    have hv' : vs.1 = v := by omega
    show (if vs.2 ≠ 0 then (0 : Int) else 1) = if s ≠ 0 then 0 else 1
    rw [huniq vs hvs hv']

theorem generate_getD_free (n : Int) (cm : ClauseMeta) (draw : Nat → Bool) (j : Nat) (v : Int)
    (hjv : (j, v) ∈ cm.free_vars.enum) (h1 : 1 ≤ v) (h2 : v ≤ n)
    (hnd : cm.free_vars.Nodup) (hpos : ∀ u ∈ cm.free_vars, 1 ≤ u)
    (hdisj : ∀ vs ∈ List.zip cm.vars cm.signs, vs.1 ≠ v) :
    (generate n cm draw).getD v.toNat 0 = bitValue (draw j) := by
  unfold generate
  simp only []
  rw [foldl_set_getD_other (fun k (vs : Int × Int) => vs.1 > 0 ∧ vs.1 < (k : Int))
    (fun vs => vs.1.toNat) (fun vs => if vs.2 ≠ 0 then 0 else 1)]
  · apply free_fold_getD_hit
    · rw [List.length_replicate]
      omega
    · exact ⟨(j, v), hjv, rfl⟩
    · intro jv hjv' heq
      obtain ⟨j', v'⟩ := jv
      obtain ⟨hj', hv'⟩ := List.mem_enum hjv'
      obtain ⟨hj, hv⟩ := List.mem_enum hjv
      have hpos' := hpos v' (by rw [hv']; exact List.getElem_mem _)
      have heq' : v'.toNat = v.toNat := heq
      have hvv : v' = v := by omega
      rw [hv, hv'] at hvv
      exact (List.Nodup.getElem_inj_iff hnd).mp hvv
  · intro vs hvs hc heq
    apply hdisj vs hvs
    have hc1 : vs.1 > 0 := hc.1
    have heq' : vs.1.toNat = v.toNat := heq
    omega

end KLM

namespace KLM

theorem generate_lit (n : Int) (clause : Clause) (hr : ∀ lit ∈ clause, 1 ≤ lit.1 ∧ lit.1 ≤ n)
    (hs : (scan [] clause).2 = false) (draw : Nat → Bool) (lit : Literal) (hlit : lit ∈ clause) :
    (generate n (analyze n clause).1 draw).getD lit.1.toNat 0 = if lit.2 ≠ 0 then 0 else 1 := by
  have hpos : ∀ lit ∈ clause, 1 ≤ lit.1 := fun lit hlit => (hr lit hlit).1
  have h1 := hr lit hlit
  apply generate_getD_forced n _ draw lit.1 lit.2 _ h1.1 h1.2
  · intro vs hvs hv
    have hmem := ((mem_zip_vars_signs n clause hs vs.1 vs.2).mp hvs).2
    exact consistentFlags_of_scan clause hpos hs vs hmem lit hlit hv
  · exact (mem_zip_vars_signs n clause hs lit.1 lit.2).mpr ⟨by omega, hlit⟩

/-- The generated assignment passes the estimator's own satisfaction test on the original
literal list of the chosen clause. -/
theorem generate_satisfies (n : Int) (clause : Clause)
    (hr : ∀ lit ∈ clause, 1 ≤ lit.1 ∧ lit.1 ≤ n) (hs : (scan [] clause).2 = false)
    (draw : Nat → Bool) :
    clause_satisfied clause (generate n (analyze n clause).1 draw) = true := by
  rw [klm_clause_satisfied_eq_all, List.all_eq_true]
  intro lit hlit
  have h1 := hr lit hlit
  have hrange : 0 < lit.1 ∧ lit.1 < (((generate n (analyze n clause).1 draw).length : Nat) : Int) := by
    rw [generate_length]
    omega
  rw [generate_lit n clause hr hs draw lit hlit, decide_eq_true hrange]
  by_cases h0 : lit.2 = 0 <;> simp [h0]

theorem generate_free (n : Nat) (clause : Clause)
    (hr : ∀ lit ∈ clause, 1 ≤ lit.1 ∧ lit.1 ≤ n) (hs : (scan [] clause).2 = false)
    (draw : Nat → Bool) (j : Nat) (v : Int)
    (hjv : (j, v) ∈ (analyze n clause).1.free_vars.enum) :
    (generate n (analyze n clause).1 draw).getD v.toNat 0 = bitValue (draw j) := by
  obtain ⟨hfree, _, _⟩ := analyze_free n clause hr hs
  have hvmem : v ∈ (analyze n clause).1.free_vars := by
    rw [(List.mem_enum hjv).2]
    exact List.getElem_mem _
  have hv : 1 ≤ v ∧ v ≤ (n : Int) ∧ v ∉ (analyze n clause).1.vars := by
    rw [hfree] at hvmem
    exact (mem_free_vars n _ v).mp hvmem
  apply generate_getD_free n _ draw j v hjv hv.1 hv.2.1
  · rw [hfree]
    exact free_vars_nodup n _
  · intro u hu
    rw [hfree] at hu
    exact ((mem_free_vars n _ u).mp hu).1
  · intro vs hvs hvv
    apply hv.2.2
    rw [← hvv]
    exact (List.of_mem_zip hvs).1

theorem var_or_free (n : Nat) (clause : Clause)
    (hr : ∀ lit ∈ clause, 1 ≤ lit.1 ∧ lit.1 ≤ n) (hs : (scan [] clause).2 = false)
    (v : Int) (h1 : 1 ≤ v) (h2 : v ≤ n) :
    (∃ lit ∈ clause, lit.1 = v) ∨ (∃ j, (j, v) ∈ (analyze n clause).1.free_vars.enum) := by
  obtain ⟨hfree, _, _⟩ := analyze_free n clause hr hs
  by_cases hv : v ∈ (analyze n clause).1.vars
  · left
    obtain ⟨_, hmem⟩ := (mem_vars n clause hs v).mp hv
    obtain ⟨lit, hlit, hlv⟩ := List.mem_map.mp hmem
    exact ⟨lit, hlit, hlv⟩
  · right
    have hvf : v ∈ (analyze n clause).1.free_vars := by
      rw [hfree]
      exact (mem_free_vars n _ v).mpr ⟨h1, h2, hv⟩
    obtain ⟨j, hj⟩ := List.mem_iff_getElem?.mp hvf
    exact ⟨j, List.mk_mem_enum_iff_getElem?.mpr hj⟩

theorem generate_mem_assignments (n : Nat) (clause : Clause)
    (hr : ∀ lit ∈ clause, 1 ≤ lit.1 ∧ lit.1 ≤ n) (hs : (scan [] clause).2 = false)
    (draw : Nat → Bool) :
    generate n (analyze n clause).1 draw ∈ assignments n := by
  obtain ⟨hfree, _, _⟩ := analyze_free n clause hr hs
  rw [mem_assignments_iff]
  refine ⟨by rw [generate_length]; omega, ?_, ?_⟩
  · apply generate_getD_untouched
    · intro vs _ hpos
      omega
    · intro v hv
      rw [hfree] at hv
      have := ((mem_free_vars n _ v).mp hv).1
      omega
  · intro p hp
    have hp1 : (p + 1 : Nat) = (((p + 1 : Nat) : Int)).toNat := by omega
    rcases var_or_free n clause hr hs ((p + 1 : Nat) : Int) (by omega) (by omega) with
      ⟨lit, hlit, hlv⟩ | ⟨j, hj⟩
    · rw [hp1, ← hlv, generate_lit n clause hr hs draw lit hlit]
      by_cases h0 : lit.2 = 0 <;> simp [h0]
    · rw [hp1, generate_free n clause hr hs draw j _ hj]
      cases draw j <;> simp [bitValue]

theorem generate_injective (n : Nat) (clause : Clause)
    (hr : ∀ lit ∈ clause, 1 ≤ lit.1 ∧ lit.1 ≤ n) (hs : (scan [] clause).2 = false)
    (d1 d2 : Nat → Bool)
    (h : generate n (analyze n clause).1 d1 = generate n (analyze n clause).1 d2)
    (j : Nat) (hj : j < (analyze n clause).1.free_vars.length) : d1 j = d2 j := by
  have hmem : (j, (analyze n clause).1.free_vars[j]) ∈ (analyze n clause).1.free_vars.enum :=
    List.mk_mem_enum_iff_getElem?.mpr (List.getElem?_eq_getElem hj)
  have h1 := generate_free n clause hr hs d1 j _ hmem
  have h2 := generate_free n clause hr hs d2 j _ hmem
  rw [h, h2] at h1
  have h3 := congrArg (fun x => decide (x ≠ 0)) h1
  simp only [bitValue_ne_zero] at h3
  exact h3.symm

theorem generate_surjective (n : Nat) (clause : Clause)
    (hr : ∀ lit ∈ clause, 1 ≤ lit.1 ∧ lit.1 ≤ n) (hs : (scan [] clause).2 = false)
    (a : List Int) (ha : a ∈ assignments n) (hsat : clause_satisfied clause a = true) :
    ∃ draw, generate n (analyze n clause).1 draw = a := by
  obtain ⟨hlen, h0, hbits⟩ := (mem_assignments_iff n a).mp ha
  refine ⟨fun j => decide (a.getD ((analyze n clause).1.free_vars.getD j 0).toNat 0 ≠ 0), ?_⟩
  have hgen := (mem_assignments_iff n _).mp
    (generate_mem_assignments n clause hr hs
      (fun j => decide (a.getD ((analyze n clause).1.free_vars.getD j 0).toNat 0 ≠ 0)))
  apply list_eq_of_getD _ _ (by rw [hgen.1, hlen])
  intro i hi
  rw [hgen.1] at hi
  cases i with
  | zero => rw [hgen.2.1, h0]
  | succ p =>
    have hp : p < n := by omega
    have hp1 : (p + 1 : Nat) = (((p + 1 : Nat) : Int)).toNat := by omega
    rcases var_or_free n clause hr hs ((p + 1 : Nat) : Int) (by omega) (by omega) with
      ⟨lit, hlit, hlv⟩ | ⟨j, hj⟩
    · rw [klm_clause_satisfied_eq_all, List.all_eq_true] at hsat
      have hl := hsat lit hlit
      rw [Bool.and_eq_true, beq_iff_eq] at hl
      have hl2 := hl.2
      rw [hlv, ← hp1] at hl2
      rw [hp1, ← hlv, generate_lit n clause hr hs _ lit hlit, hlv, ← hp1]
      rcases hbits p hp with hb | hb <;> rw [hb] at hl2 ⊢ <;>
        by_cases hz : lit.2 = 0 <;> simp [hz] at hl2 ⊢
    · rw [hp1, generate_free n clause hr hs _ j _ hj]
      have hjv := List.mem_enum hj
      have hget : (analyze n clause).1.free_vars.getD j 0 = ((p + 1 : Nat) : Int) := by
        rw [List.getD_eq_getElem _ _ hjv.1]
        exact hjv.2.symm
      rw [hget, ← hp1]
      rcases hbits p hp with hb | hb <;> rw [hb] <;> simp [bitValue]

end KLM

/-! ## The variable universe and the vectors of the KLM estimator -/

namespace KLM

theorem clause_max_ge (clause : Clause) : ∀ n0 : Int,
    n0 ≤ clause.foldl (fun n lit => max n lit.1) n0 ∧
      ∀ lit ∈ clause, lit.1 ≤ clause.foldl (fun n lit => max n lit.1) n0 := by
  induction clause with
  | nil => intro n0; exact ⟨le_rfl, fun lit h => absurd h (List.not_mem_nil lit)⟩
  | cons l rest ih =>
    intro n0
    rw [List.foldl_cons]
    obtain ⟨h1, h2⟩ := ih (max n0 l.1)
    refine ⟨le_trans (le_max_left _ _) h1, fun lit hlit => ?_⟩
    rcases List.mem_cons.mp hlit with rfl | hmem
    · exact le_trans (le_max_right _ _) h1
    · exact h2 lit hmem

theorem clause_max_eq (clause : Clause) : ∀ n0 : Int, (∀ lit ∈ clause, lit.1 ≤ n0) →
    clause.foldl (fun n lit => max n lit.1) n0 = n0 := by
  induction clause with
  | nil => intro n0 _; rfl
  | cons l rest ih =>
    intro n0 h
    rw [List.foldl_cons, max_eq_left (h l (List.mem_cons_self _ _))]
    exact ih n0 (fun lit hlit => h lit (List.mem_cons_of_mem _ hlit))

theorem actual_n_ge (dnf : Formula) : ∀ hint : Int,
    hint ≤ actual_n dnf hint ∧
      ∀ clause ∈ dnf, ∀ lit ∈ clause, lit.1 ≤ actual_n dnf hint := by
  induction dnf with
  | nil => intro hint; exact ⟨le_rfl, fun c h => absurd h (List.not_mem_nil c)⟩
  | cons c rest ih =>
    intro hint
    unfold actual_n
    rw [List.foldl_cons]
    obtain ⟨h1, h2⟩ := ih (c.foldl (fun n lit => max n lit.1) hint)
    unfold actual_n at h1 h2
    obtain ⟨h3, h4⟩ := clause_max_ge c hint
    refine ⟨le_trans h3 h1, fun clause hc lit hlit => ?_⟩
    rcases List.mem_cons.mp hc with rfl | hmem
    · exact le_trans (h4 lit hlit) h1
    · exact h2 clause hmem lit hlit

theorem actual_n_eq (dnf : Formula) : ∀ n : Int, (∀ clause ∈ dnf, ∀ lit ∈ clause, lit.1 ≤ n) →
    actual_n dnf n = n := by
  induction dnf with
  | nil => intro n _; rfl
  | cons c rest ih =>
    intro n h
    unfold actual_n
    rw [List.foldl_cons, clause_max_eq c n (h c (List.mem_cons_self _ _))]
    exact ih n (fun clause hc => h clause (List.mem_cons_of_mem _ hc))

theorem metas_getD (dnf : Formula) (n : Int) (i : Nat) (hi : i < dnf.length) :
    (metas dnf n).getD i default = (analyze n (dnf.getD i [])).1 := by
  unfold metas
  rw [List.getD_eq_getElem _ _ (by rw [List.length_map]; exact hi), List.getElem_map,
    List.getD_eq_getElem _ _ hi]

theorem coverage_count_eq (dnf : Formula) (n : Int) (a : List Int) :
    coverage_count dnf (metas dnf n) a =
      dnf.countP (fun clause =>
        !(analyze n clause).1.contradictory && clause_satisfied clause a) := by
  unfold coverage_count metas
  have hz : List.zip (dnf.map (fun clause => (analyze n clause).1)) dnf =
      dnf.map (fun clause => ((analyze n clause).1, clause)) := by
    conv_lhs => rw [← List.map_id dnf, List.map_map]
    rw [List.zip_map']
    rfl
  rw [hz, List.countP_map]
  rfl

theorem weights_scaled_eq (dnf : Formula) (n : Int) :
    weights_scaled dnf n =
      dnf.map (fun clause =>
        weight_scaled (max_free dnf n) (analyze n clause).1 (analyze n clause).2) := by
  unfold weights_scaled metas free_counts
  rw [List.zipWith_map_left, List.zipWith_map_right, List.zipWith_same]

theorem foldl_add_eq_sum (l : List ℚ) : l.foldl (fun acc w => acc + w) 0 = l.sum := by
  rw [List.sum_eq_foldl]

theorem scan_true_of_both_signs (clause : Clause)
    (h : ∃ v : Int, 1 ≤ v ∧ (∃ lit ∈ clause, lit.1 = v ∧ lit.2 = 0) ∧
      (∃ lit ∈ clause, lit.1 = v ∧ lit.2 ≠ 0)) :
    (scan [] clause).2 = true := by
  obtain ⟨v, hv, ⟨p, hp, hpv, hp0⟩, ⟨q, hq, hqv, hq0⟩⟩ := h
  cases hs : (scan [] clause).2 with
  | true => rfl
  | false =>
    exfalso
    obtain ⟨hnd, hmem⟩ := scan_nil_false clause hs
    have h1 : p ∈ (scan [] clause).1 := (hmem p.1 p.2).mpr ⟨by omega, hp⟩
    have h2 : q ∈ (scan [] clause).1 := (hmem q.1 q.2).mpr ⟨by omega, hq⟩
    have := List.inj_on_of_nodup_map hnd h1 h2 (by rw [hpv, hqv])
    rw [this] at hp0
    exact hq0 hp0

end KLM

/-! ## The KLM estimator: generator and degenerate formulas -/

/-- C4, as stated, fails on a clause with a malformed literal: for the formula `[{(0, 0)}]`
with hint 1 the analyzer skips the literal, so the clause is not contradictory and can be
drawn, but the assignment built for it fails `clause_satisfied` on the original literal list
and the coverage count is 0. -/
theorem klm_generator_malformed_literal_counterexample :
    ((KLM.metas [[(0, 0)]] (KLM.actual_n [[(0, 0)]] 1)).getD 0 default).contradictory = false ∧
      KLM.clause_satisfied ([[(0, 0)]].getD 0 [])
        (KLM.generate (KLM.actual_n [[(0, 0)]] 1)
          ((KLM.metas [[(0, 0)]] (KLM.actual_n [[(0, 0)]] 1)).getD 0 default)
          (fun _ => true)) = false ∧
      KLM.coverage_count [[(0, 0)]] (KLM.metas [[(0, 0)]] (KLM.actual_n [[(0, 0)]] 1))
        (KLM.generate (KLM.actual_n [[(0, 0)]] 1)
          ((KLM.metas [[(0, 0)]] (KLM.actual_n [[(0, 0)]] 1)).getD 0 default)
          (fun _ => true)) = 0 := by
  decide

/-- C4, amended. For every formula and hint, every clause `i` that the analyzer does not
mark contradictory and whose literals all have a variable index `≥ 1`, and every choice of
the random bits for the free variables, the assignment built in the trial loop satisfies
clause `i` under the estimator's own `clause_satisfied` on the original literal list, and
the coverage count of that assignment is at least 1. -/
theorem klm_generator_satisfies_clause (dnf : Formula) (hint : Int)
    (i : Nat) (hi : i < dnf.length)
    (hnc : ((KLM.metas dnf (KLM.actual_n dnf hint)).getD i default).contradictory = false)
    (hpos : ∀ lit ∈ dnf.getD i [], 1 ≤ lit.1)
    (draw : Nat → Bool) :
    KLM.clause_satisfied (dnf.getD i [])
        (KLM.generate (KLM.actual_n dnf hint)
          ((KLM.metas dnf (KLM.actual_n dnf hint)).getD i default) draw) = true ∧
      1 ≤ KLM.coverage_count dnf (KLM.metas dnf (KLM.actual_n dnf hint))
        (KLM.generate (KLM.actual_n dnf hint)
          ((KLM.metas dnf (KLM.actual_n dnf hint)).getD i default) draw) := by
  have hmem : dnf.getD i [] ∈ dnf := by
    rw [List.getD_eq_getElem _ _ hi]
    exact List.getElem_mem _
  rw [KLM.metas_getD dnf _ i hi] at hnc ⊢
  rw [KLM.analyze_contradictory] at hnc
  have hr : ∀ lit ∈ dnf.getD i [], 1 ≤ lit.1 ∧ lit.1 ≤ KLM.actual_n dnf hint :=
    fun lit hlit => ⟨hpos lit hlit, (KLM.actual_n_ge dnf hint).2 _ hmem lit hlit⟩
  have hsat := KLM.generate_satisfies (KLM.actual_n dnf hint) (dnf.getD i []) hr hnc draw
  refine ⟨hsat, ?_⟩
  rw [KLM.coverage_count_eq]
  apply List.countP_pos_iff.mpr
  refine ⟨dnf.getD i [], hmem, ?_⟩
  rw [KLM.analyze_contradictory, hnc, hsat]
  rfl

theorem klm_generator_satisfies_clause_witness :
    KLM.clause_satisfied ([[(2, 1), (1, 0)], [(0, 0)]].getD 0 [])
        (KLM.generate (KLM.actual_n [[(2, 1), (1, 0)], [(0, 0)]] 2)
          ((KLM.metas [[(2, 1), (1, 0)], [(0, 0)]]
            (KLM.actual_n [[(2, 1), (1, 0)], [(0, 0)]] 2)).getD 0 default) (fun _ => true)) = true ∧
      1 ≤ KLM.coverage_count [[(2, 1), (1, 0)], [(0, 0)]]
        (KLM.metas [[(2, 1), (1, 0)], [(0, 0)]] (KLM.actual_n [[(2, 1), (1, 0)], [(0, 0)]] 2))
        (KLM.generate (KLM.actual_n [[(2, 1), (1, 0)], [(0, 0)]] 2)
          ((KLM.metas [[(2, 1), (1, 0)], [(0, 0)]]
            (KLM.actual_n [[(2, 1), (1, 0)], [(0, 0)]] 2)).getD 0 default) (fun _ => true)) :=
  klm_generator_satisfies_clause [[(2, 1), (1, 0)], [(0, 0)]] 2 0 (by decide) (by decide)
    (by decide) (fun _ => true)

/-- C9. For every formula in which every clause contains some variable with index `≥ 1` both
un-negated and negated, every hint, every sample count, every random source and every valid
`eps`, `delta`, the KLM `solve_dnf` returns exactly 0 without drawing any sample, the total
scaled weight being 0; in particular for the single clause `{(x1,false),(x1,true)}`. -/
theorem klm_all_contradictory_returns_zero (eps delta : ℚ) (m : Int) (isfinite : ℚ → Bool)
    (dnf : Formula) (hint : Int) (rng : Rng)
    (heps : 0 < eps) (hdelta : 0 < delta ∧ delta < 1)
    (hall : ∀ clause ∈ dnf, ∃ v : Int, 1 ≤ v ∧ (∃ lit ∈ clause, lit.1 = v ∧ lit.2 = 0) ∧
      (∃ lit ∈ clause, lit.1 = v ∧ lit.2 ≠ 0)) :
    KLM.solve_dnf eps delta m isfinite dnf hint rng = Except.ok ⟨0, 0⟩ ∧
      KLM.total_scaled dnf (KLM.actual_n dnf hint) = 0 ∧
      KLM.solve_dnf eps delta m isfinite [[(1, 0), (1, 1)]] hint rng = Except.ok ⟨0, 0⟩ := by
  have key : ∀ (f : Formula), (∀ clause ∈ f, ∃ v : Int, 1 ≤ v ∧
      (∃ lit ∈ clause, lit.1 = v ∧ lit.2 = 0) ∧ (∃ lit ∈ clause, lit.1 = v ∧ lit.2 ≠ 0)) →
      KLM.total_scaled f (KLM.actual_n f hint) = 0 ∧
        KLM.solve_dnf eps delta m isfinite f hint rng = Except.ok ⟨0, 0⟩ := by
    intro f hf
    have hts : KLM.total_scaled f (KLM.actual_n f hint) = 0 := by
      unfold KLM.total_scaled
      rw [KLM.foldl_add_eq_sum, KLM.weights_scaled_eq]
      apply List.sum_eq_zero
      intro w hw
      obtain ⟨clause, hc, rfl⟩ := List.mem_map.mp hw
      unfold KLM.weight_scaled
      rw [KLM.analyze_contradictory, KLM.scan_true_of_both_signs clause (hf clause hc)]
      rfl
    refine ⟨hts, ?_⟩
    have hparams : ¬ (eps ≤ 0 ∨ delta ≤ 0 ∨ delta ≥ 1) := by
      rintro (h | h | h)
      · exact absurd heps (not_lt.mpr h)
      · exact absurd hdelta.1 (not_lt.mpr h)
      · exact absurd hdelta.2 (not_lt.mpr h)
    unfold KLM.solve_dnf
    rw [if_neg hparams]
    simp only []
    split
    · rfl
    · rw [if_pos (Or.inl hts)]
  obtain ⟨h1, h2⟩ := key dnf hall
  refine ⟨h2, h1, (key [[(1, 0), (1, 1)]] ?_).2⟩
  intro clause hc
  rw [List.mem_singleton] at hc
  subst hc
  exact ⟨1, le_rfl, ⟨(1, 0), by simp, rfl, rfl⟩, ⟨(1, 1), by simp, rfl, by decide⟩⟩

theorem klm_all_contradictory_returns_zero_witness :
    KLM.solve_dnf (1 / 10) (1 / 10) 1798 (fun _ => true) [[(2, 1), (2, 0)], [(1, 0), (3, 1), (1, 1)]] 3
        ⟨fun _ => 0, fun _ _ => true⟩ = Except.ok ⟨0, 0⟩ ∧
      KLM.total_scaled [[(2, 1), (2, 0)], [(1, 0), (3, 1), (1, 1)]]
        (KLM.actual_n [[(2, 1), (2, 0)], [(1, 0), (3, 1), (1, 1)]] 3) = 0 ∧
      KLM.solve_dnf (1 / 10) (1 / 10) 1798 (fun _ => true) [[(1, 0), (1, 1)]] 3
        ⟨fun _ => 0, fun _ _ => true⟩ = Except.ok ⟨0, 0⟩ :=
  klm_all_contradictory_returns_zero (1 / 10) (1 / 10) 1798 (fun _ => true)
    [[(2, 1), (2, 0)], [(1, 0), (3, 1), (1, 1)]] 3 ⟨fun _ => 0, fun _ _ => true⟩
    (by norm_num) (by norm_num)
    (by
      intro clause hc
      simp only [List.mem_cons, List.mem_singleton, List.not_mem_nil, or_false] at hc
      rcases hc with rfl | rfl
      · exact ⟨2, by decide, ⟨(2, 0), by simp, rfl, rfl⟩, ⟨(2, 1), by simp, rfl, by decide⟩⟩
      · exact ⟨1, by decide, ⟨(1, 0), by simp, rfl, rfl⟩, ⟨(1, 1), by simp, rfl, by decide⟩⟩)

theorem KLM.generate_congr (n : Nat) (clause : Clause)
    (hr : ∀ lit ∈ clause, 1 ≤ lit.1 ∧ lit.1 ≤ n) (hs : (KLM.scan [] clause).2 = false)
    (d1 d2 : Nat → Bool)
    (h : ∀ j, j < (KLM.analyze n clause).1.free_vars.length → d1 j = d2 j) :
    KLM.generate n (KLM.analyze n clause).1 d1 = KLM.generate n (KLM.analyze n clause).1 d2 := by
  have h1 := (mem_assignments_iff n _).mp (KLM.generate_mem_assignments n clause hr hs d1)
  have h2 := (mem_assignments_iff n _).mp (KLM.generate_mem_assignments n clause hr hs d2)
  apply list_eq_of_getD _ _ (by rw [h1.1, h2.1])
  intro i hi
  rw [h1.1] at hi
  cases i with
  | zero => rw [h1.2.1, h2.2.1]
  | succ p =>
    have hp1 : (p + 1 : Nat) = (((p + 1 : Nat) : Int)).toNat := by omega
    rcases KLM.var_or_free n clause hr hs ((p + 1 : Nat) : Int) (by omega) (by omega) with
      ⟨lit, hlit, hlv⟩ | ⟨j, hj⟩
    · rw [hp1, ← hlv, KLM.generate_lit n clause hr hs d1 lit hlit,
        KLM.generate_lit n clause hr hs d2 lit hlit]
    · rw [hp1, KLM.generate_free n clause hr hs d1 j _ hj,
        KLM.generate_free n clause hr hs d2 j _ hj, h j (List.mem_enum hj).1]

/-- C5. For a clause the analyzer does not mark contradictory, with variable indices in
`[1, n]`, the map from the bit choices for the clause's `free_vars` (one bit per free
variable, in the order they are drawn) to the assignment the generator builds is a bijection
onto the set of assignments over the variables `1 .. n` that satisfy the clause. -/
theorem klm_generator_bijective (n : Nat) (clause : Clause)
    (hr : ∀ lit ∈ clause, 1 ≤ lit.1 ∧ lit.1 ≤ n)
    (hnc : (KLM.analyze n clause).1.contradictory = false) :
    Set.BijOn
      (fun (d : Fin (KLM.analyze n clause).1.free_vars.length → Bool) =>
        KLM.generate n (KLM.analyze n clause).1
          (fun j => if h : j < (KLM.analyze n clause).1.free_vars.length then d ⟨j, h⟩ else false))
      Set.univ
      {a | a ∈ assignments n ∧ KLM.clause_satisfied clause a = true} := by
  rw [KLM.analyze_contradictory] at hnc
  refine ⟨?_, ?_, ?_⟩
  · intro d _
    exact ⟨KLM.generate_mem_assignments n clause hr hnc _,
      KLM.generate_satisfies n clause hr hnc _⟩
  · intro d1 _ d2 _ h
    funext j
    have := KLM.generate_injective n clause hr hnc _ _ h j.1 j.2
    simpa using this
  · rintro a ⟨ha, hsat⟩
    obtain ⟨draw, hdraw⟩ := KLM.generate_surjective n clause hr hnc a ha hsat
    refine ⟨fun j => draw j.1, Set.mem_univ _, ?_⟩
    show KLM.generate n (KLM.analyze n clause).1 _ = a
    rw [← hdraw]
    apply KLM.generate_congr n clause hr hnc
    intro j hj
    simp [hj]

theorem klm_generator_bijective_witness :
    Set.BijOn
      (fun (d : Fin (KLM.analyze (3 : Nat) [(3, 1), (1, 0), (3, 1)]).1.free_vars.length → Bool) =>
        KLM.generate (3 : Nat) (KLM.analyze (3 : Nat) [(3, 1), (1, 0), (3, 1)]).1
          (fun j => if h : j < (KLM.analyze (3 : Nat) [(3, 1), (1, 0), (3, 1)]).1.free_vars.length
            then d ⟨j, h⟩ else false))
      Set.univ
      {a | a ∈ assignments 3 ∧ KLM.clause_satisfied [(3, 1), (1, 0), (3, 1)] a = true} :=
  klm_generator_bijective 3 [(3, 1), (1, 0), (3, 1)] (by decide) (by decide)

/-! ## Sums and counts over assignments -/

theorem assignmentOfMask_injOn (n : Nat) :
    Set.InjOn (assignmentOfMask n) (Finset.range (2 ^ n) : Finset Nat) := by
  intro b hb b' hb' h
  exact assignmentOfMask_inj n b b' (Finset.mem_range.mp (Finset.mem_coe.mp hb))
    (Finset.mem_range.mp (Finset.mem_coe.mp hb')) h

theorem card_filter_assignments (n : Nat) (Q : List Int → Bool) (P : Nat → Bool)
    (h : ∀ b, Q (assignmentOfMask n b) = P b) :
    ((assignments n).filter (fun a => Q a = true)).card =
      ((Finset.range (2 ^ n)).filter (fun b => P b = true)).card := by
  unfold assignments
  rw [Finset.filter_image, Finset.card_image_of_injOn]
  · congr 1
    apply Finset.filter_congr
    intro b _
    rw [h b]
  · intro b hb b' hb' hbb
    exact assignmentOfMask_injOn n
      (Finset.mem_coe.mpr (Finset.mem_filter.mp (Finset.mem_coe.mp hb)).1)
      (Finset.mem_coe.mpr (Finset.mem_filter.mp (Finset.mem_coe.mp hb')).1) hbb

theorem KLM.clause_weight_eq (dnf : Formula) (n : Int) (clause : Clause)
    (hs : (KLM.scan [] clause).2 = false) :
    KLM.clause_weight dnf n clause = (2 : ℚ) ^ (KLM.analyze n clause).2 := by
  unfold KLM.clause_weight KLM.scale_factor KLM.weight_scaled
  rw [KLM.analyze_contradictory, hs]
  simp only [Bool.false_eq_true, if_false]
  rw [← zpow_add₀ (by norm_num : (2 : ℚ) ≠ 0)]
  congr 1
  ring

theorem KLM.both_signs_of_scan (clause : Clause)
    (hflag : ∀ lit ∈ clause, lit.2 = 0 ∨ lit.2 = 1) (hs : (KLM.scan [] clause).2 = true) :
    hasBothSigns clause := by
  obtain ⟨v, s, s', _, hne, h1, h2⟩ :=
    KLM.scan_true clause [] (KLM.scan [] clause).1 (by simp) (Prod.ext rfl hs)
  have h1' : (v, s) ∈ clause := by
    rcases h1 with h | h
    · exact absurd h (List.not_mem_nil _)
    · exact h
  have f1 := hflag _ h1'
  have f2 := hflag _ h2
  simp only at f1 f2
  rcases f1 with f1 | f1 <;> rcases f2 with f2 | f2
  · exact absurd (f1.trans f2.symm) hne
  · exact ⟨v, ⟨(v, s), h1', rfl, f1⟩, ⟨(v, s'), h2, rfl, by show s' ≠ 0; omega⟩⟩
  · exact ⟨v, ⟨(v, s'), h2, rfl, f2⟩, ⟨(v, s), h1', rfl, by show s ≠ 0; omega⟩⟩
  · exact absurd (f1.trans f2.symm) hne

theorem countP_range_eq_card (N : Nat) (p : Nat → Bool) :
    (List.range N).countP p = ((Finset.range N).filter (fun b => p b = true)).card := by
  induction N with
  | zero => simp
  | succ N ih =>
    rw [List.range_succ, List.countP_append, ih, Finset.range_succ, Finset.filter_insert]
    by_cases hp : p N = true
    · rw [if_pos hp, Finset.card_insert_of_not_mem (by simp)]
      simp [hp]
    · rw [if_neg hp]
      simp [hp]

theorem exact_count_eq_card (dnf : Formula) (n : Nat) :
    exact_count dnf n =
      ((Finset.range (2 ^ n)).filter (fun b => satisfiesFormula b dnf = true)).card := by
  unfold exact_count
  exact countP_range_eq_card _ _

theorem exact_count_le (dnf : Formula) (n : Nat) : exact_count dnf n ≤ 2 ^ n := by
  rw [exact_count_eq_card]
  calc ((Finset.range (2 ^ n)).filter (fun b => satisfiesFormula b dnf = true)).card
      ≤ (Finset.range (2 ^ n)).card := Finset.card_filter_le _ _
    _ = 2 ^ n := Finset.card_range _

theorem sum_map_finset_sum {α : Type} (l : List α) (A : Finset (List Int))
    (f : α → List Int → ℚ) :
    (l.map (fun c => ∑ a ∈ A, f c a)).sum = ∑ a ∈ A, (l.map (fun c => f c a)).sum := by
  induction l with
  | nil => simp
  | cons c l ih =>
    simp only [List.map_cons, List.sum_cons]
    rw [ih, Finset.sum_add_distrib]

theorem sum_map_ite_const {α : Type} (l : List α) (p : α → Bool) (x : ℚ) :
    (l.map (fun c => if p c = true then x else 0)).sum = (l.countP p : ℚ) * x := by
  induction l with
  | nil => simp
  | cons c l ih =>
    simp only [List.map_cons, List.sum_cons, ih, List.countP_cons]
    by_cases hp : p c = true
    · simp [hp]
      ring
    · simp [hp]

namespace KLM

theorem inverse_coverage_sum_eq_card (dnf : Formula) (n : Nat) :
    inverse_coverage_sum dnf n =
      (((assignments n).filter
        (fun a => 0 < coverage_count dnf (metas dnf n) a)).card : ℚ) := by
  have hz : List.zip (metas dnf n) dnf =
      dnf.map (fun clause => ((analyze n clause).1, clause)) := by
    unfold metas
    conv_lhs => rw [← List.map_id dnf, List.map_map]
    rw [List.zip_map']
    rfl
  unfold inverse_coverage_sum
  rw [hz, List.map_map]
  have hterm : ∀ clause : Clause,
      ((fun mc : ClauseMeta × Clause =>
        if mc.1.contradictory then (0 : ℚ)
        else ∑ a ∈ (assignments n).filter (fun a => clause_satisfied mc.2 a = true),
          1 / (coverage_count dnf (metas dnf n) a : ℚ)) ∘
        (fun clause => ((analyze n clause).1, clause))) clause =
      ∑ a ∈ assignments n,
        if (!(analyze n clause).1.contradictory && clause_satisfied clause a) = true then
          1 / (coverage_count dnf (metas dnf n) a : ℚ) else 0 := by
    intro clause
    simp only [Function.comp]
    cases hc : (analyze n clause).1.contradictory
    · simp only [Bool.false_eq_true, if_false, Bool.not_false, Bool.true_and]
      rw [Finset.sum_filter]
    · simp
  rw [List.map_congr_left (fun clause _ => hterm clause), sum_map_finset_sum,
    ← Finset.sum_boole]
  apply Finset.sum_congr rfl
  intro a _
  rw [sum_map_ite_const, ← coverage_count_eq]
  by_cases hpos : 0 < coverage_count dnf (metas dnf n) a
  · rw [if_pos hpos]
    have : (coverage_count dnf (metas dnf n) a : ℚ) ≠ 0 := by
      exact_mod_cast (Nat.pos_iff_ne_zero.mp hpos)
    field_simp
  · rw [if_neg hpos]
    have : coverage_count dnf (metas dnf n) a = 0 := by omega
    rw [this]
    simp

theorem coverage_pos_iff (dnf : Formula) (n : Nat)
    (hwf : ∀ clause ∈ dnf, ∀ lit ∈ clause, 1 ≤ lit.1 ∧ lit.1 ≤ n ∧ (lit.2 = 0 ∨ lit.2 = 1))
    (b : Nat) :
    decide (0 < coverage_count dnf (metas dnf n) (assignmentOfMask n b)) =
      satisfiesFormula b dnf := by
  rw [Bool.eq_iff_iff, decide_eq_true_iff, coverage_count_eq, List.countP_pos_iff]
  unfold satisfiesFormula
  rw [List.any_eq_true]
  have hsat : ∀ clause ∈ dnf,
      clause_satisfied clause (assignmentOfMask n b) = satisfiesClause b clause := by
    intro clause hc
    rw [klm_clause_satisfied_assignmentOfMask,
      SolveDNF.clause_true_eq_satisfies _ _ _
        (fun lit hlit => ⟨(hwf clause hc lit hlit).1, (hwf clause hc lit hlit).2.1⟩)]
  constructor
  · rintro ⟨clause, hc, h⟩
    rw [Bool.and_eq_true, hsat clause hc] at h
    exact ⟨clause, hc, h.2⟩
  · rintro ⟨clause, hc, h⟩
    refine ⟨clause, hc, ?_⟩
    rw [Bool.and_eq_true, hsat clause hc]
    refine ⟨?_, h⟩
    rw [analyze_contradictory]
    cases hs : (scan [] clause).2 with
    | false => rfl
    | true =>
      exfalso
      have hboth := both_signs_of_scan clause
        (fun lit hlit => (hwf clause hc lit hlit).2.2) hs
      have hr : ∀ lit ∈ clause, 1 ≤ lit.1 ∧ lit.1 ≤ (n : Int) :=
        fun lit hlit => ⟨(hwf clause hc lit hlit).1, (hwf clause hc lit hlit).2.1⟩
      rw [← SolveDNF.clause_true_eq_satisfies n b clause hr,
        SolveDNF.clause_true_both_signs n b clause hboth] at h
      exact absurd h (by simp)

theorem inverse_coverage_sum_eq_exact (dnf : Formula) (n : Nat)
    (hwf : ∀ clause ∈ dnf, ∀ lit ∈ clause, 1 ≤ lit.1 ∧ lit.1 ≤ n ∧ (lit.2 = 0 ∨ lit.2 = 1)) :
    inverse_coverage_sum dnf n = (exact_count dnf n : ℚ) := by
  rw [inverse_coverage_sum_eq_card, exact_count_eq_card]
  congr 1
  have h := card_filter_assignments n
    (fun a => decide (0 < coverage_count dnf (metas dnf n) a))
    (fun b => satisfiesFormula b dnf) (coverage_pos_iff dnf n hwf)
  simp only [decide_eq_true_eq] at h
  exact h

end KLM

theorem foldl_set_getD_cases {α : Type} (c : Nat → α → Prop) [∀ k x, Decidable (c k x)]
    (idx : α → Nat) (val : α → Int) (p : Nat) (l : List α) : ∀ a : List Int,
    (l.foldl (fun a x => if c a.length x then a.set (idx x) (val x) else a) a).getD p 0
        = a.getD p 0 ∨
      ∃ x ∈ l,
        (l.foldl (fun a x => if c a.length x then a.set (idx x) (val x) else a) a).getD p 0
          = val x := by
  induction l with
  | nil => intro a; exact Or.inl rfl
  | cons x l ih =>
    intro a
    rw [List.foldl_cons]
    rcases ih (if c a.length x then a.set (idx x) (val x) else a) with h | ⟨y, hy, h⟩
    · rw [h]
      by_cases hc : c a.length x
      · rw [if_pos hc, List.getD_eq_getElem?_getD, List.getD_eq_getElem?_getD, List.getElem?_set]
        by_cases hi : idx x = p
        · rw [if_pos hi]
          by_cases hlt : idx x < a.length
          · rw [if_pos hlt]
            exact Or.inr ⟨x, List.mem_cons_self _ _, rfl⟩
          · rw [if_neg hlt]
            left
            rw [List.getElem?_eq_none (by omega)]
        · rw [if_neg hi]
          exact Or.inl rfl
      · rw [if_neg hc]
        exact Or.inl rfl
    · exact Or.inr ⟨y, List.mem_cons_of_mem _ hy, h⟩

/-! ## The first-hit generator -/

namespace MonteCarloCounter

theorem random_fold_eq (l : List Nat) (draw : Nat → Bool) (a : List Int) :
    l.foldl (fun assignment j => assignment.set (j + 1) (bitValue (draw j))) a =
      l.foldl (fun assignment j =>
        if (fun (_ : Nat) (_ : Nat) => True) assignment.length j then
          assignment.set (j + 1) (bitValue (draw j)) else assignment) a := by
  simp

theorem random_assignment_eq (n b : Nat) :
    random_assignment n (fun j => b.testBit j) = assignmentOfMask n b := by
  unfold random_assignment
  rw [Int.toNat_natCast, random_fold_eq]
  apply list_eq_of_getD
  · rw [foldl_set_length (fun (_ : Nat) (_ : Nat) => True) (fun j => j + 1)
      (fun j => bitValue (b.testBit j)), List.length_replicate, assignmentOfMask_length]
  · intro i hi
    rw [foldl_set_length (fun (_ : Nat) (_ : Nat) => True) (fun j => j + 1)
      (fun j => bitValue (b.testBit j)), List.length_replicate] at hi
    cases i with
    | zero =>
      rw [foldl_set_getD_other (fun (_ : Nat) (_ : Nat) => True) (fun j => j + 1)
        (fun j => bitValue (b.testBit j)) 0, getD_replicate_zero, assignmentOfMask_getD_zero]
      intro j _ _
      exact Nat.succ_ne_zero j
    | succ p =>
      have hp : p < n := by omega
      rw [assignmentOfMask_getD_succ n b p hp]
      apply foldl_set_getD_hit (fun (_ : Nat) (_ : Nat) => True) (fun j => j + 1)
        (fun j => bitValue (b.testBit j))
      · rw [List.length_replicate]
        omega
      · exact ⟨p, List.mem_range.mpr hp, trivial, rfl⟩
      · intro j _ _ hj
        have hjp : j = p := by
          have hj' : j + 1 = p + 1 := hj
          omega
        show bitValue (b.testBit j) = bitValue (b.testBit p)
        rw [hjp]

theorem force_length (n : Int) (clause : Clause) (a : List Int) :
    (force_literals n clause a).length = a.length := by
  unfold force_literals
  exact foldl_set_length (fun (_ : Nat) (lit : Literal) => lit.1 > 0 ∧ lit.1 ≤ n)
    (fun lit => lit.1.toNat) (fun lit => if lit.2 ≠ 0 then 0 else 1) clause a

theorem force_getD_other (n : Int) (clause : Clause) (a : List Int) (p : Nat)
    (h : ∀ lit ∈ clause, lit.1 > 0 ∧ lit.1 ≤ n → lit.1.toNat ≠ p) :
    (force_literals n clause a).getD p 0 = a.getD p 0 := by
  unfold force_literals
  exact foldl_set_getD_other (fun (_ : Nat) (lit : Literal) => lit.1 > 0 ∧ lit.1 ≤ n)
    (fun lit => lit.1.toNat) (fun lit => if lit.2 ≠ 0 then 0 else 1) p clause a h

theorem force_getD_hit (n : Int) (clause : Clause) (a : List Int) (p : Nat) (w : Int)
    (hp : p < a.length) (hex : ∃ lit ∈ clause, (lit.1 > 0 ∧ lit.1 ≤ n) ∧ lit.1.toNat = p)
    (hval : ∀ lit ∈ clause, lit.1 > 0 ∧ lit.1 ≤ n → lit.1.toNat = p →
      (if lit.2 ≠ 0 then (0 : Int) else 1) = w) :
    (force_literals n clause a).getD p 0 = w := by
  unfold force_literals
  exact foldl_set_getD_hit (fun (_ : Nat) (lit : Literal) => lit.1 > 0 ∧ lit.1 ≤ n)
    (fun lit => lit.1.toNat) (fun lit => if lit.2 ≠ 0 then 0 else 1) p w clause a hp hex hval

theorem force_getD_lit (n : Nat) (clause : Clause) (a : List Int) (ha : a.length = n + 1)
    (hr : ∀ lit ∈ clause, 1 ≤ lit.1 ∧ lit.1 ≤ n) (hcons : consistentFlags clause)
    (lit : Literal) (hlit : lit ∈ clause) :
    (force_literals n clause a).getD lit.1.toNat 0 = if lit.2 ≠ 0 then 0 else 1 := by
  have h1 := hr lit hlit
  apply force_getD_hit
  · rw [ha]
    omega
  · exact ⟨lit, hlit, ⟨by omega, h1.2⟩, rfl⟩
  · intro lit' hlit' hc heq
    have h2 := hr lit' hlit'
    have hv : lit'.1 = lit.1 := by omega
    rw [hcons lit' hlit' lit hlit hv]

theorem force_mem_assignments (n : Nat) (clause : Clause) (a : List Int)
    (ha : a ∈ assignments n) : force_literals n clause a ∈ assignments n := by
  obtain ⟨hlen, h0, hbits⟩ := (mem_assignments_iff n a).mp ha
  rw [mem_assignments_iff]
  refine ⟨by rw [force_length, hlen], ?_, ?_⟩
  · rw [force_getD_other, h0]
    intro lit _ hc
    omega
  · intro p hp
    have hcases := foldl_set_getD_cases
      (fun (_ : Nat) (lit : Literal) => lit.1 > 0 ∧ lit.1 ≤ (n : Int))
      (fun lit => lit.1.toNat) (fun lit => if lit.2 ≠ 0 then 0 else 1) (p + 1) clause a
    have hfold : force_literals n clause a =
        clause.foldl (fun a lit =>
          if (fun (_ : Nat) (lit : Literal) => lit.1 > 0 ∧ lit.1 ≤ (n : Int)) a.length lit then
            a.set ((fun lit : Literal => lit.1.toNat) lit)
              ((fun lit : Literal => if lit.2 ≠ 0 then (0 : Int) else 1) lit)
          else a) a := rfl
    rw [hfold]
    rcases hcases with h | ⟨lit, _, h⟩
    · rw [h]
      exact hbits p hp
    · rw [h]
      by_cases hz : lit.2 = 0 <;> simp [hz]

theorem force_satisfies (n : Nat) (clause : Clause) (a : List Int) (ha : a.length = n + 1)
    (hr : ∀ lit ∈ clause, 1 ≤ lit.1 ∧ lit.1 ≤ n) (hcons : consistentFlags clause) :
    clause_satisfied n clause (force_literals n clause a) = true := by
  rw [mc_clause_satisfied_eq_all, List.all_eq_true]
  intro lit hlit
  have h1 := hr lit hlit
  have hrange : 0 < lit.1 ∧ lit.1 ≤ (n : Int) := ⟨by omega, h1.2⟩
  rw [force_getD_lit n clause a ha hr hcons lit hlit, decide_eq_true hrange]
  by_cases h0 : lit.2 = 0 <;> simp [h0]

theorem force_of_satisfied (n : Nat) (clause : Clause) (a : List Int) (ha : a ∈ assignments n)
    (hsat : clause_satisfied n clause a = true) : force_literals n clause a = a := by
  obtain ⟨hlen, h0, hbits⟩ := (mem_assignments_iff n a).mp ha
  rw [mc_clause_satisfied_eq_all, List.all_eq_true] at hsat
  apply list_eq_of_getD _ _ (force_length _ _ _)
  intro i hi
  rw [force_length, hlen] at hi
  by_cases hex : ∃ lit ∈ clause, (lit.1 > 0 ∧ lit.1 ≤ (n : Int)) ∧ lit.1.toNat = i
  · apply force_getD_hit _ _ _ _ _ (by omega) hex
    intro lit hlit hc hidx
    have hl := hsat lit hlit
    rw [Bool.and_eq_true, beq_iff_eq, hidx] at hl
    have hl2 := hl.2
    cases i with
    | zero => omega
    | succ p =>
      rcases hbits p (by omega) with hb | hb <;> rw [hb] at hl2 ⊢ <;>
        by_cases hz : lit.2 = 0 <;> simp [hz] at hl2 ⊢
  · rw [force_getD_other]
    intro lit hlit hc hidx
    exact hex ⟨lit, hlit, hc, hidx⟩

theorem trial_assignment_eq (dnf : Formula) (n i b : Nat) :
    trial_assignment dnf n ⟨fun _ => i, fun _ j => b.testBit j⟩ 0 =
      force_literals n (dnf.getD i []) (assignmentOfMask n b) := by
  unfold trial_assignment
  rw [random_assignment_eq]

theorem buildable_eq (dnf : Formula) (n i : Nat)
    (hr : ∀ lit ∈ dnf.getD i [], 1 ≤ lit.1 ∧ lit.1 ≤ n)
    (hcons : consistentFlags (dnf.getD i [])) :
    buildable dnf n i =
      ((Finset.range (2 ^ n)).filter
        (fun b => satisfiesClause b (dnf.getD i []) = true)).image (assignmentOfMask n) := by
  ext a
  unfold buildable
  simp only [Finset.mem_image, Finset.mem_range, Finset.mem_filter]
  constructor
  · rintro ⟨b, hb, rfl⟩
    rw [trial_assignment_eq]
    have hmem : assignmentOfMask n b ∈ assignments n :=
      Finset.mem_image.mpr ⟨b, Finset.mem_range.mpr hb, rfl⟩
    have hf := force_mem_assignments n (dnf.getD i []) _ hmem
    obtain ⟨b', hb', hbeq⟩ := Finset.mem_image.mp hf
    refine ⟨b', ⟨Finset.mem_range.mp hb', ?_⟩, hbeq⟩
    have hs := force_satisfies n (dnf.getD i []) (assignmentOfMask n b)
      (assignmentOfMask_length n b) hr hcons
    rw [← hbeq, mc_clause_satisfied_assignmentOfMask,
      SolveDNF.clause_true_eq_satisfies _ _ _ hr] at hs
    exact hs
  · rintro ⟨b, ⟨hb, hsat⟩, rfl⟩
    refine ⟨b, hb, ?_⟩
    rw [trial_assignment_eq]
    apply force_of_satisfied n _ _ (Finset.mem_image.mpr ⟨b, Finset.mem_range.mpr hb, rfl⟩)
    rw [mc_clause_satisfied_assignmentOfMask, SolveDNF.clause_true_eq_satisfies _ _ _ hr]
    exact hsat

end MonteCarloCounter

/-! ## The first-hit partition of the satisfying patterns -/

theorem first_hit_partition (R : Finset Nat) (sat : Clause → Nat → Bool) (l : Formula) :
    ∑ i ∈ Finset.range l.length,
        (R.filter (fun b => sat (l.getD i []) b = true ∧
          (l.take i).any (fun c => sat c b) = false)).card =
      (R.filter (fun b => l.any (fun c => sat c b) = true)).card := by
  induction l using List.reverseRecOn with
  | nil => simp
  | append_singleton l c ih =>
    rw [List.length_append, List.length_singleton, Finset.sum_range_succ]
    have hprefix : ∀ i ∈ Finset.range l.length,
        (R.filter (fun b => sat ((l ++ [c]).getD i []) b = true ∧
          ((l ++ [c]).take i).any (fun c => sat c b) = false)).card =
        (R.filter (fun b => sat (l.getD i []) b = true ∧
          (l.take i).any (fun c => sat c b) = false)).card := by
      intro i hi
      have hi' := Finset.mem_range.mp hi
      rw [List.getD_append l [c] [] i hi', List.take_append_of_le_length (le_of_lt hi')]
    rw [Finset.sum_congr rfl hprefix, ih]
    have hlast : (l ++ [c]).getD l.length [] = c := by
      rw [List.getD_append_right l [c] [] l.length le_rfl]
      simp
    rw [hlast, List.take_left]
    have hunion : R.filter (fun b => (l ++ [c]).any (fun c => sat c b) = true) =
        R.filter (fun b => l.any (fun c => sat c b) = true) ∪
          R.filter (fun b => sat c b = true ∧ l.any (fun c => sat c b) = false) := by
      ext b
      simp only [Finset.mem_filter, Finset.mem_union, List.any_append, List.any_cons,
        List.any_nil, Bool.or_false, Bool.or_eq_true]
      constructor
      · rintro ⟨hb, h | h⟩
        · exact Or.inl ⟨hb, h⟩
        · cases hl : l.any (fun c => sat c b)
          · exact Or.inr ⟨hb, h, rfl⟩
          · exact Or.inl ⟨hb, rfl⟩
      · rintro (⟨hb, h⟩ | ⟨hb, h, _⟩)
        · exact ⟨hb, Or.inl h⟩
        · exact ⟨hb, Or.inr h⟩
    have hdisj : Disjoint (R.filter (fun b => l.any (fun c => sat c b) = true))
        (R.filter (fun b => sat c b = true ∧ l.any (fun c => sat c b) = false)) := by
      rw [Finset.disjoint_left]
      intro b h1 h2
      have h1' := (Finset.mem_filter.mp h1).2
      have h2' := (Finset.mem_filter.mp h2).2.2
      rw [h1'] at h2'
      exact absurd h2' (by simp)
    rw [hunion, Finset.card_union_of_disjoint hdisj]

namespace MonteCarloCounter

theorem in_prior_assignmentOfMask (dnf : Formula) (n i b : Nat)
    (hr : literalsInRange dnf n) :
    in_prior dnf n i (assignmentOfMask n b) =
      (dnf.take i).any (fun c => satisfiesClause b c) := by
  unfold in_prior
  apply any_congr_mem
  intro c hc
  rw [mc_clause_satisfied_assignmentOfMask,
    SolveDNF.clause_true_eq_satisfies _ _ _ (hr c (List.mem_of_mem_take hc))]

theorem hits_card (dnf : Formula) (n i : Nat) (hr : literalsInRange dnf n)
    (hi : i < dnf.length) (hcons : consistentFlags (dnf.getD i [])) :
    (hits dnf n i).card =
      ((Finset.range (2 ^ n)).filter (fun b => satisfiesClause b (dnf.getD i []) = true ∧
        (dnf.take i).any (fun c => satisfiesClause b c) = false)).card := by
  have hmem : dnf.getD i [] ∈ dnf := by
    rw [List.getD_eq_getElem _ _ hi]
    exact List.getElem_mem _
  unfold hits
  rw [buildable_eq dnf n i (hr _ hmem) hcons, Finset.filter_image, Finset.card_image_of_injOn,
    Finset.filter_filter]
  · congr 1
    apply Finset.filter_congr
    intro b _
    rw [in_prior_assignmentOfMask dnf n i b hr]
  · intro b hb b' hb' hbb
    exact assignmentOfMask_injOn n
      (Finset.mem_coe.mpr (Finset.mem_filter.mp (Finset.mem_filter.mp (Finset.mem_coe.mp hb)).1).1)
      (Finset.mem_coe.mpr (Finset.mem_filter.mp (Finset.mem_filter.mp (Finset.mem_coe.mp hb')).1).1)
      hbb

theorem hit_pairs_eq_exact (dnf : Formula) (n : Nat) (hr : literalsInRange dnf n)
    (hcons : ∀ clause ∈ dnf, consistentFlags clause) :
    hit_pairs dnf n = exact_count dnf n := by
  unfold hit_pairs
  rw [exact_count_eq_card]
  have hterm : ∀ i ∈ Finset.range dnf.length, (hits dnf n i).card =
      ((Finset.range (2 ^ n)).filter (fun b => satisfiesClause b (dnf.getD i []) = true ∧
        (dnf.take i).any (fun c => satisfiesClause b c) = false)).card := by
    intro i hi
    have hi' := Finset.mem_range.mp hi
    apply hits_card dnf n i hr hi'
    apply hcons
    rw [List.getD_eq_getElem _ _ hi']
    exact List.getElem_mem _
  rw [Finset.sum_congr rfl hterm]
  exact first_hit_partition (Finset.range (2 ^ n)) (fun c b => satisfiesClause b c) dnf

end MonteCarloCounter

/-! ## The first-hit estimator: weights and the contradictory clause -/

namespace MonteCarloCounter

theorem consistentFlags_of_nodup (clause : Clause) (h : (clause.map Prod.fst).Nodup) :
    consistentFlags clause := by
  intro lit hlit lit' hlit' hv
  rw [List.inj_on_of_nodup_map h hlit hlit' hv]

theorem distinctVarCount_of_nodup (clause : Clause) (h : (clause.map Prod.fst).Nodup) :
    distinctVarCount clause = clause.length := by
  rw [distinctVarCount, List.toFinset_card_of_nodup h, List.length_map]

theorem weight_of_le (n : Nat) (clause : Clause) (hn : n ≤ 62) (hlen : clause.length ≤ n) :
    weight n clause = ((2 ^ (n - clause.length) : Nat) : ℚ) := by
  unfold weight
  have hcond : ¬ ((clause.length : Int) > (n : Int)) := by omega
  simp only []
  rw [if_neg hcond]
  have hk : ((n : Int) - (clause.length : Int)).toNat = n - clause.length := by omega
  rw [hk]
  have hlt : 2 ^ (n - clause.length) < 18446744073709551616 := by
    have h1 : 2 ^ (n - clause.length) ≤ 2 ^ 62 := Nat.pow_le_pow_right (by norm_num) (by omega)
    have h2 : (2 : Nat) ^ 62 < 18446744073709551616 := by norm_num
    omega
  rw [Nat.mod_eq_of_lt hlt]

theorem weight_of_gt (n : Nat) (clause : Clause) (hlen : n < clause.length) :
    weight n clause = 0 := by
  unfold weight
  have hcond : (clause.length : Int) > (n : Int) := by omega
  simp only []
  rw [if_pos hcond]

theorem mc_card_satisfying (n : Nat) (clause : Clause)
    (hr : ∀ lit ∈ clause, 1 ≤ lit.1 ∧ lit.1 ≤ n) :
    ((assignments n).filter (fun a => clause_satisfied n clause a = true)).card =
      ((Finset.range (2 ^ n)).filter (fun b => satisfiesClause b clause = true)).card := by
  apply card_filter_assignments
  intro b
  rw [mc_clause_satisfied_assignmentOfMask, SolveDNF.clause_true_eq_satisfies _ _ _ hr]

theorem count_hits_all (l : List Nat) (p : Nat → Bool) (h : ∀ k ∈ l, p k = true) (init : Int) :
    l.foldl (fun X k => if p k = true then X + 1 else X) init = init + l.length := by
  induction l generalizing init with
  | nil => simp
  | cons k l ih =>
    rw [List.foldl_cons, if_pos (h k (List.mem_cons_self _ _)),
      ih (fun k' hk' => h k' (List.mem_cons_of_mem _ hk'))]
    simp only [List.length_cons, Nat.cast_add, Nat.cast_one]
    ring

theorem contradictory_pair_unsatisfied (n : Int) (a : List Int) :
    clause_satisfied n [(1, 0), (1, 1)] a = false := by
  rw [mc_clause_satisfied_eq_all]
  simp only [List.all_cons, List.all_nil, Bool.and_true]
  have e2 : decide ((1 : Int) = 0) = false := by decide
  rw [e2, decide_True]
  cases decide (a.getD (Int.toNat 1) 0 ≠ 0) <;> simp

end MonteCarloCounter

/-- Where the first-hit weight is right. For every clause that lists pairwise distinct
variables and every `n ≤ 62`, the weight the first-hit estimator assigns to the clause is
`2 ^ (n - number of distinct variables)` when the clause has at most `n` distinct variables
and 0 when it has more; when moreover the indices lie in `[1, n]` this weight is the exact
number of assignments over `n` variables that satisfy the clause. -/
theorem first_hit_weight_distinct_vars (n : Nat) (clause : Clause) (h62 : n ≤ 62)
    (hd : (clause.map Prod.fst).Nodup) :
    (distinctVarCount clause ≤ n →
        MonteCarloCounter.weight n clause = ((2 ^ (n - distinctVarCount clause) : Nat) : ℚ)) ∧
      (n < distinctVarCount clause → MonteCarloCounter.weight n clause = 0) ∧
      ((∀ lit ∈ clause, 1 ≤ lit.1 ∧ lit.1 ≤ n) →
        MonteCarloCounter.weight n clause =
          (((assignments n).filter
            (fun a => MonteCarloCounter.clause_satisfied n clause a = true)).card : ℚ)) := by
  have hcount := MonteCarloCounter.distinctVarCount_of_nodup clause hd
  rw [hcount]
  refine ⟨fun hle => MonteCarloCounter.weight_of_le n clause h62 hle,
    fun hgt => MonteCarloCounter.weight_of_gt n clause hgt, fun hr => ?_⟩
  have hle : clause.length ≤ n := by
    rw [← hcount]
    exact distinctVarCount_le clause n hr
  rw [MonteCarloCounter.weight_of_le n clause h62 hle, MonteCarloCounter.mc_card_satisfying n clause hr,
    card_satisfying_masks clause n hr (MonteCarloCounter.consistentFlags_of_nodup clause hd), hcount]

/-- C7, the code at the failing inputs. The first-hit estimator takes the weight of a clause
from its number of literals, `1ULL << (n - clause.size())`, with no test for a contradiction
and no merging of a repeated variable (MonteCarloCounter.cpp:66-74). For every `n` with
`2 ≤ n ≤ 62`: the contradictory clause `{(x1,false),(x1,true)}` gets the weight
`2 ^ (n - 2)`, not 0, although no assignment over `n` variables satisfies it; and the
clause `{(x1,false),(x1,false)}`, which has one distinct variable and `2 ^ (n - 1)`
satisfying assignments, gets the weight `2 ^ (n - 2)` as well. -/
theorem first_hit_weight_from_literal_count (n : Nat) (h2 : 2 ≤ n) (h62 : n ≤ 62) :
    MonteCarloCounter.weight n [(1, 0), (1, 1)] = (2 : ℚ) ^ (n - 2) ∧
      hasBothSigns [(1, 0), (1, 1)] ∧
      ((assignments n).filter
        (fun a => MonteCarloCounter.clause_satisfied n [(1, 0), (1, 1)] a = true)).card = 0 ∧
      MonteCarloCounter.weight n [(1, 0), (1, 0)] = (2 : ℚ) ^ (n - 2) ∧
      distinctVarCount [(1, 0), (1, 0)] = 1 ∧
      ((assignments n).filter
        (fun a => MonteCarloCounter.clause_satisfied n [(1, 0), (1, 0)] a = true)).card =
          2 ^ (n - 1) ∧
      (2 : ℚ) ^ (n - 2) ≠ 0 ∧ (2 : ℚ) ^ (n - 2) < 2 ^ (n - 1) := by
  have hdc : distinctVarCount [(1, 0), (1, 0)] = 1 := by decide
  have hr : ∀ lit ∈ [((1 : Int), (0 : Int)), (1, 0)], 1 ≤ lit.1 ∧ lit.1 ≤ (n : Int) := by
    intro lit hlit
    simp only [List.mem_cons, List.mem_singleton, List.not_mem_nil, or_false, or_self] at hlit
    rw [hlit]
    constructor
    · exact le_refl _
    · show (1 : Int) ≤ (n : Int)
      omega
  refine ⟨?_, ?_, ?_, ?_, hdc, ?_, by positivity, ?_⟩
  · rw [MonteCarloCounter.weight_of_le n [(1, 0), (1, 1)] h62 h2]
    simp
  · exact ⟨1, ⟨(1, 0), by simp, rfl, rfl⟩, ⟨(1, 1), by simp, rfl, by decide⟩⟩
  · rw [Finset.card_eq_zero, Finset.filter_eq_empty_iff]
    intro a _
    rw [MonteCarloCounter.contradictory_pair_unsatisfied]
    simp
  · rw [MonteCarloCounter.weight_of_le n [(1, 0), (1, 0)] h62 h2]
    simp
  · rw [MonteCarloCounter.mc_card_satisfying n _ hr,
      card_satisfying_masks _ n hr (by decide), hdc]
  · exact pow_lt_pow_right₀ (by norm_num) (by omega)

theorem first_hit_weight_from_literal_count_witness :
    MonteCarloCounter.weight (2 : Nat) [(1, 0), (1, 1)] = (2 : ℚ) ^ (2 - 2) ∧
      ((assignments 2).filter
        (fun a => MonteCarloCounter.clause_satisfied (2 : Nat) [(1, 0), (1, 1)] a = true)).card
          = 0 ∧
      MonteCarloCounter.weight (2 : Nat) [(1, 0), (1, 0)] = (2 : ℚ) ^ (2 - 2) ∧
      ((assignments 2).filter
        (fun a => MonteCarloCounter.clause_satisfied (2 : Nat) [(1, 0), (1, 0)] a = true)).card
          = 2 ^ (2 - 1) :=
  have h := first_hit_weight_from_literal_count 2 (by decide) (by decide)
  ⟨h.1, h.2.2.1, h.2.2.2.1, h.2.2.2.2.2.1⟩

/-- C10, the code at the failing input. On the formula whose only clause is
`{(x1,false),(x1,true)}` the first-hit `solve_dnf` returns `2 ^ (n - 2)` for every `n` with
`2 ≤ n ≤ 62`, every sample count `m ≥ 1` and every random source: the weight is taken from
the literal count and every trial is a hit. For `n = 2` the result is 1, not 0. -/
theorem first_hit_contradictory_clause_value (n : Nat) (m : Int) (rng : Rng)
    (h2 : 2 ≤ n) (h62 : n ≤ 62) (hm : 1 ≤ m) :
    (MonteCarloCounter.solve_dnf [[(1, 0), (1, 1)]] n m rng).result = ((2 ^ (n - 2) : Nat) : ℚ) := by
  have hw : MonteCarloCounter.weight n [(1, 0), (1, 1)] = ((2 ^ (n - 2) : Nat) : ℚ) :=
    MonteCarloCounter.weight_of_le n [(1, 0), (1, 1)] h62 h2
  have hguard : ¬ (([[((1 : Int), (0 : Int)), (1, 1)]] : Formula).isEmpty = true ∨
      (n : Int) ≤ 0 ∨ m ≤ 0) := by
    rintro (h | h | h)
    · simp at h
    · omega
    · omega
  have htotal : (MonteCarloCounter.weights [[(1, 0), (1, 1)]] n).foldl (fun acc w => acc + w) 0 =
      ((2 ^ (n - 2) : Nat) : ℚ) := by
    simp only [MonteCarloCounter.weights, List.map_cons, List.map_nil, List.foldl_cons,
      List.foldl_nil, zero_add]
    exact hw
  have hne : ((2 ^ (n - 2) : Nat) : ℚ) ≠ 0 := by positivity
  have hhit : ∀ k ∈ List.range m.toNat,
      MonteCarloCounter.trial_hit [[(1, 0), (1, 1)]] n rng k = true := by
    intro k _
    unfold MonteCarloCounter.trial_hit MonteCarloCounter.in_prior
    rw [Bool.not_eq_true', List.any_eq_false]
    intro c hc
    have hc' := List.mem_of_mem_take hc
    rw [List.mem_singleton] at hc'
    rw [hc', MonteCarloCounter.contradictory_pair_unsatisfied]
    simp
  unfold MonteCarloCounter.solve_dnf
  simp only []
  rw [if_neg hguard, htotal, if_neg hne]
  simp only []
  rw [MonteCarloCounter.count_hits_all _ _ hhit 0, List.length_range]
  have hmq : ((m.toNat : Int) : ℚ) = (m : ℚ) := by
    have : (m.toNat : Int) = m := Int.toNat_of_nonneg (by omega)
    rw [this]
  have hm0 : (m : ℚ) ≠ 0 := by
    have : (0 : ℚ) < (m : ℚ) := by exact_mod_cast (by omega : (0 : Int) < m)
    exact ne_of_gt this
  simp only [Int.cast_add, Int.cast_zero, zero_add, Int.cast_natCast] at hmq ⊢
  rw [hmq, div_self hm0, one_mul]

theorem first_hit_contradictory_clause_value_witness :
    (MonteCarloCounter.solve_dnf [[(1, 0), (1, 1)]] (2 : Nat) 1 ⟨fun _ => 0, fun _ _ => false⟩).result
      = ((2 ^ (2 - 2) : Nat) : ℚ) :=
  first_hit_contradictory_clause_value 2 1 ⟨fun _ => 0, fun _ _ => false⟩ (by decide) (by decide)
    (by decide)

/-! ## The expected contribution of one KLM trial -/

theorem sum_range_getD {α : Type} (l : List α) (d : α) (g : α → ℚ) :
    ∑ i ∈ Finset.range l.length, g (l.getD i d) = (l.map g).sum := by
  induction l with
  | nil => simp
  | cons a l ih =>
    rw [List.length_cons, Finset.sum_range_succ', List.map_cons, List.sum_cons, ← ih]
    simp only [List.getD_cons_succ, List.getD_cons_zero]
    ring

theorem sum_range_congr_getD {α : Type} (l : List α) (d : α) (f : Nat → ℚ) (g : α → ℚ)
    (h : ∀ i, i < l.length → f i = g (l.getD i d)) :
    ∑ i ∈ Finset.range l.length, f i = (l.map g).sum := by
  rw [← sum_range_getD l d g]
  exact Finset.sum_congr rfl (fun i hi => h i (Finset.mem_range.mp hi))

namespace KLM

theorem weights_scaled_getD (dnf : Formula) (n : Int) (i : Nat) (hi : i < dnf.length) :
    (weights_scaled dnf n).getD i 0 =
      weight_scaled (max_free dnf n) (analyze n (dnf.getD i [])).1 (analyze n (dnf.getD i [])).2 := by
  rw [weights_scaled_eq, List.getD_eq_getElem _ _ (by rw [List.length_map]; exact hi),
    List.getElem_map, List.getD_eq_getElem _ _ hi]

theorem weight_scaled_nonneg (mf : Int) (cm : ClauseMeta) (fc : Int) :
    0 ≤ weight_scaled mf cm fc := by
  unfold weight_scaled
  split
  · exact le_rfl
  · positivity

theorem total_scaled_pos (dnf : Formula) (n : Int) (clause : Clause) (hc : clause ∈ dnf)
    (hs : (scan [] clause).2 = false) : 0 < total_scaled dnf n := by
  unfold total_scaled
  rw [foldl_add_eq_sum, weights_scaled_eq]
  have hmem : weight_scaled (max_free dnf n) (analyze n clause).1 (analyze n clause).2 ∈
      dnf.map (fun clause =>
        weight_scaled (max_free dnf n) (analyze n clause).1 (analyze n clause).2) :=
    List.mem_map.mpr ⟨clause, hc, rfl⟩
  have hle := List.single_le_sum (fun w hw => by
    obtain ⟨c, _, rfl⟩ := List.mem_map.mp hw
    exact weight_scaled_nonneg _ _ _) _ hmem
  have hpos : 0 < weight_scaled (max_free dnf n) (analyze n clause).1 (analyze n clause).2 := by
    unfold weight_scaled
    rw [analyze_contradictory, hs]
    simp only [Bool.false_eq_true, if_false]
    positivity
  exact lt_of_lt_of_le hpos hle

/-- Summing over the draws for the free variables is summing over the assignments that
satisfy the clause. -/
theorem sum_draws_eq_sum_satisfying (n : Nat) (clause : Clause)
    (hr : ∀ lit ∈ clause, 1 ≤ lit.1 ∧ lit.1 ≤ n) (hs : (scan [] clause).2 = false)
    (f : List Int → ℚ) :
    ∑ d ∈ Finset.range (2 ^ (analyze n clause).1.free_vars.length),
        f (generate n (analyze n clause).1 (fun j => d.testBit j)) =
      ∑ a ∈ (assignments n).filter (fun a => clause_satisfied clause a = true), f a := by
  apply Finset.sum_nbij (fun d => generate n (analyze n clause).1 (fun j => d.testBit j))
  · intro d _
    exact Finset.mem_filter.mpr ⟨generate_mem_assignments n clause hr hs _,
      generate_satisfies n clause hr hs _⟩
  · intro d hd d' hd' h
    exact mask_eq_of_bits _ d d' (Finset.mem_range.mp (Finset.mem_coe.mp hd))
      (Finset.mem_range.mp (Finset.mem_coe.mp hd'))
      (fun j hj => generate_injective n clause hr hs _ _ h j hj)
  · intro a ha
    obtain ⟨ha1, ha2⟩ := Finset.mem_filter.mp (Finset.mem_coe.mp ha)
    obtain ⟨draw, hdraw⟩ := generate_surjective n clause hr hs a ha1 ha2
    obtain ⟨d, hd, hbits⟩ := exists_mask_with_bits (analyze n clause).1.free_vars.length draw
    refine ⟨d, Finset.mem_coe.mpr (Finset.mem_range.mpr hd), ?_⟩
    show generate n (analyze n clause).1 (fun j => d.testBit j) = a
    rw [← hdraw]
    exact generate_congr n clause hr hs _ _ hbits
  · intro d _
    rfl

theorem trial_contribution_eq (dnf : Formula) (n : Nat) (i : Nat) (hi : i < dnf.length)
    (hs : (scan [] (dnf.getD i [])).2 = false) (d : Nat) :
    trial_contribution dnf n ⟨fun _ => i, fun _ j => d.testBit j⟩ 0 =
      1 / (coverage_count dnf (metas dnf n)
        (generate n (analyze n (dnf.getD i [])).1 (fun j => d.testBit j)) : ℚ) := by
  unfold trial_contribution
  simp only []
  have hguard : ¬ (((metas dnf n).getD i default).contradictory = true ∨
      (weights_scaled dnf n).getD i 0 = 0) := by
    rw [metas_getD dnf n i hi, weights_scaled_getD dnf n i hi, analyze_contradictory, hs]
    rintro (h | h)
    · exact absurd h (by simp)
    · unfold weight_scaled at h
      rw [analyze_contradictory, hs] at h
      simp only [Bool.false_eq_true, if_false] at h
      have : (0 : ℚ) < 2 ^ ((analyze n (dnf.getD i [])).2 - max_free dnf n) := by positivity
      exact absurd h (ne_of_gt this)
  rw [if_neg hguard, metas_getD dnf n i hi]
  split
  · rfl
  · rename_i h
    have : coverage_count dnf (metas dnf n)
        (generate n (analyze n (dnf.getD i [])).1 (fun j => d.testBit j)) = 0 := by omega
    rw [this]
    simp

theorem expected_contribution_eq (dnf : Formula) (n : Nat)
    (hr : ∀ clause ∈ dnf, ∀ lit ∈ clause, 1 ≤ lit.1 ∧ lit.1 ≤ n) :
    expected_contribution dnf n * total_weight dnf n = inverse_coverage_sum dnf n := by
  have hz : List.zip (metas dnf n) dnf =
      dnf.map (fun clause => ((analyze n clause).1, clause)) := by
    unfold metas
    conv_lhs => rw [← List.map_id dnf, List.map_map]
    rw [List.zip_map']
    rfl
  unfold expected_contribution inverse_coverage_sum
  rw [hz, List.map_map, Finset.sum_mul]
  apply sum_range_congr_getD dnf []
  intro i hi
  have hmem : dnf.getD i [] ∈ dnf := by
    rw [List.getD_eq_getElem _ _ hi]
    exact List.getElem_mem _
  simp only [Function.comp]
  rw [metas_getD dnf n i hi, weights_scaled_getD dnf n i hi]
  cases hs : (scan [] (dnf.getD i [])).2 with
  | true =>
    have hc : (analyze n (dnf.getD i [])).1.contradictory = true := by
      rw [analyze_contradictory, hs]
    unfold weight_scaled
    rw [hc]
    simp
  | false =>
    have hc : (analyze n (dnf.getD i [])).1.contradictory = false := by
      rw [analyze_contradictory, hs]
    rw [hc]
    simp only [Bool.false_eq_true, if_false]
    rw [Finset.sum_congr rfl (fun d _ => trial_contribution_eq dnf n i hi hs d),
      sum_draws_eq_sum_satisfying n (dnf.getD i []) (hr _ hmem) hs
        (fun a => 1 / (coverage_count dnf (metas dnf n) a : ℚ))]
    have hts : total_scaled dnf n ≠ 0 := ne_of_gt (total_scaled_pos dnf n _ hmem hs)
    obtain ⟨_, hfc, _⟩ := analyze_free n (dnf.getD i []) (hr _ hmem) hs
    have hw := clause_weight_eq dnf n (dnf.getD i []) hs
    unfold clause_weight at hw
    rw [hfc, zpow_natCast] at hw
    have hpow : (2 : ℚ) ^ (analyze n (dnf.getD i [])).1.free_vars.length ≠ 0 := by positivity
    unfold total_weight
    rw [hfc]
    generalize hT : (∑ a ∈ (assignments n).filter
      (fun a => clause_satisfied (dnf.getD i []) a = true),
        1 / (coverage_count dnf (metas dnf n) a : ℚ)) = T
    generalize hW : weight_scaled (max_free dnf n) (analyze n (dnf.getD i [])).1
      ((analyze n (dnf.getD i [])).1.free_vars.length : Int) = W at hw ⊢
    generalize (2 : ℚ) ^ (analyze n (dnf.getD i [])).1.free_vars.length = P at hw hpow ⊢
    generalize scale_factor dnf n = S at hw ⊢
    generalize total_scaled dnf n = Z at hts ⊢
    field_simp
    rw [← hw]
    ring

end KLM

/-! ## The expected value of one first-hit trial -/

namespace MonteCarloCounter

theorem force_eq_iff (n : Nat) (clause : Clause) (hr : ∀ lit ∈ clause, 1 ≤ lit.1 ∧ lit.1 ≤ n)
    (hcons : consistentFlags clause) (b b' : Nat) :
    force_literals n clause (assignmentOfMask n b) =
        force_literals n clause (assignmentOfMask n b') ↔
      ∀ p ∈ Finset.range n \ bitPositions (clause.map Prod.fst), b.testBit p = b'.testBit p := by
  have hother : ∀ (x p : Nat), p < n → p ∉ bitPositions (clause.map Prod.fst) →
      (force_literals n clause (assignmentOfMask n x)).getD (p + 1) 0 = bitValue (x.testBit p) := by
    intro x p hp hnot
    rw [force_getD_other, assignmentOfMask_getD_succ n x p hp]
    intro lit hlit _ hidx
    apply hnot
    rw [mem_bitPositions]
    exact ⟨lit.1, List.mem_map.mpr ⟨lit, hlit, rfl⟩, by omega⟩
  constructor
  · intro h p hp
    obtain ⟨hp1, hp2⟩ := Finset.mem_sdiff.mp hp
    have hpn := Finset.mem_range.mp hp1
    have h1 := hother b p hpn hp2
    rw [h, hother b' p hpn hp2] at h1
    have h2 := congrArg (fun x => decide (x ≠ 0)) h1
    simp only [bitValue_ne_zero] at h2
    exact h2.symm
  · intro h
    apply list_eq_of_getD _ _ (by rw [force_length, force_length, assignmentOfMask_length,
      assignmentOfMask_length])
    intro i hi
    rw [force_length, assignmentOfMask_length] at hi
    cases i with
    | zero =>
      rw [force_getD_other, force_getD_other, assignmentOfMask_getD_zero,
        assignmentOfMask_getD_zero]
      · intro lit _ hc
        omega
      · intro lit _ hc
        omega
    | succ p =>
      have hp : p < n := by omega
      by_cases hpos : p ∈ bitPositions (clause.map Prod.fst)
      · obtain ⟨v, hv, hvp⟩ := (mem_bitPositions _ p).mp hpos
        obtain ⟨lit, hlit, rfl⟩ := List.mem_map.mp hv
        have hl := hr lit hlit
        have hidx : p + 1 = lit.1.toNat := by omega
        rw [hidx, force_getD_lit n clause _ (assignmentOfMask_length n b) hr hcons lit hlit,
          force_getD_lit n clause _ (assignmentOfMask_length n b') hr hcons lit hlit]
      · rw [hother b p hp hpos, hother b' p hp hpos,
          h p (Finset.mem_sdiff.mpr ⟨Finset.mem_range.mpr hp, hpos⟩)]

theorem fibre_card (n : Nat) (clause : Clause) (hr : ∀ lit ∈ clause, 1 ≤ lit.1 ∧ lit.1 ≤ n)
    (hcons : consistentFlags clause) (b' : Nat) :
    ((Finset.range (2 ^ n)).filter (fun b =>
        force_literals n clause (assignmentOfMask n b) =
          force_literals n clause (assignmentOfMask n b'))).card =
      2 ^ distinctVarCount clause := by
  have hvars : ∀ v ∈ clause.map Prod.fst, 1 ≤ v ∧ v ≤ (n : Int) := by
    intro v hv
    obtain ⟨lit, hlit, rfl⟩ := List.mem_map.mp hv
    exact hr lit hlit
  have hsub : bitPositions (clause.map Prod.fst) ⊆ Finset.range n :=
    fun p hp => Finset.mem_range.mpr (bitPositions_lt _ n hvars p hp)
  rw [Finset.filter_congr (fun b _ => force_eq_iff n clause hr hcons b b'),
    card_masks_with_bits n _ (fun p => b'.testBit p)
      (fun p hp => Finset.mem_range.mp (Finset.mem_sdiff.mp hp).1),
    Finset.card_sdiff hsub, Finset.card_range,
    bitPositions_card _ (fun v hv => (hvars v hv).1)]
  have hle := distinctVarCount_le clause n hr
  unfold distinctVarCount at hle ⊢
  congr 1
  omega

theorem hit_draws_card (dnf : Formula) (n i : Nat) (hr : literalsInRange dnf n)
    (hi : i < dnf.length) (hcons : consistentFlags (dnf.getD i [])) :
    ((Finset.range (2 ^ n)).filter
        (fun b => trial_hit dnf n ⟨fun _ => i, fun _ j => b.testBit j⟩ 0 = true)).card =
      (hits dnf n i).card * 2 ^ distinctVarCount (dnf.getD i []) := by
  have hmem : dnf.getD i [] ∈ dnf := by
    rw [List.getD_eq_getElem _ _ hi]
    exact List.getElem_mem _
  have hmaps : ∀ b ∈ (Finset.range (2 ^ n)).filter
      (fun b => trial_hit dnf n ⟨fun _ => i, fun _ j => b.testBit j⟩ 0 = true),
      trial_assignment dnf n ⟨fun _ => i, fun _ j => b.testBit j⟩ 0 ∈ hits dnf n i := by
    intro b hb
    obtain ⟨hb1, hb2⟩ := Finset.mem_filter.mp hb
    unfold hits
    refine Finset.mem_filter.mpr ⟨Finset.mem_image.mpr ⟨b, hb1, rfl⟩, ?_⟩
    unfold trial_hit at hb2
    simpa using hb2
  rw [Finset.card_eq_sum_card_fiberwise hmaps, ← Finset.sum_const_nat]
  intro a ha
  obtain ⟨ha1, ha2⟩ := Finset.mem_filter.mp ha
  obtain ⟨b', _, hb'⟩ := Finset.mem_image.mp ha1
  rw [trial_assignment_eq] at hb'
  rw [← fibre_card n (dnf.getD i []) (hr _ hmem) hcons b', Finset.filter_filter]
  congr 1
  apply Finset.filter_congr
  intro b _
  rw [trial_assignment_eq, hb']
  constructor
  · exact fun h => h.2
  · intro h
    refine ⟨?_, h⟩
    unfold trial_hit
    rw [trial_assignment_eq, h]
    simp only [Bool.not_eq_true']
    exact ha2

theorem weights_getD (dnf : Formula) (n : Int) (i : Nat) (hi : i < dnf.length) :
    (weights dnf n).getD i 0 = weight n (dnf.getD i []) := by
  unfold weights
  rw [List.getD_eq_getElem _ _ (by rw [List.length_map]; exact hi), List.getElem_map,
    List.getD_eq_getElem _ _ hi]

theorem weight_nonneg (n : Int) (clause : Clause) : 0 ≤ weight n clause := by
  unfold weight
  simp only []
  split
  · exact le_rfl
  · positivity

theorem total_weight_pos (dnf : Formula) (n : Nat) (hn : n ≤ 62) (clause : Clause)
    (hc : clause ∈ dnf) (hlen : clause.length ≤ n) :
    0 < (weights dnf n).foldl (fun acc w => acc + w) 0 := by
  rw [← List.sum_eq_foldl]
  have hmem : weight n clause ∈ weights dnf n := List.mem_map.mpr ⟨clause, hc, rfl⟩
  have hle := List.single_le_sum (fun w hw => by
    obtain ⟨c, _, rfl⟩ := List.mem_map.mp hw
    exact weight_nonneg _ _) _ hmem
  have hpos : 0 < weight n clause := by
    rw [weight_of_le n clause hn hlen]
    positivity
  exact lt_of_lt_of_le hpos hle

theorem expected_estimate_eq (dnf : Formula) (n : Nat) (hn : n ≤ 62)
    (hr : literalsInRange dnf n) (hd : ∀ clause ∈ dnf, (clause.map Prod.fst).Nodup) :
    expected_estimate dnf n = (hit_pairs dnf n : ℚ) := by
  unfold expected_estimate hit_pairs
  simp only []
  rw [Nat.cast_sum]
  apply Finset.sum_congr rfl
  intro i hi
  have hi' := Finset.mem_range.mp hi
  have hmem : dnf.getD i [] ∈ dnf := by
    rw [List.getD_eq_getElem _ _ hi']
    exact List.getElem_mem _
  have hnd := hd _ hmem
  have hcons := consistentFlags_of_nodup _ hnd
  have hcount := distinctVarCount_of_nodup _ hnd
  have hle : (dnf.getD i []).length ≤ n := by
    rw [← hcount]
    exact distinctVarCount_le _ n (hr _ hmem)
  have hW : (weights dnf n).foldl (fun acc w => acc + w) 0 ≠ 0 :=
    ne_of_gt (total_weight_pos dnf n hn _ hmem hle)
  rw [weights_getD dnf n i hi', weight_of_le n _ hn hle, hit_draws_card dnf n i hr hi' hcons,
    hcount]
  have hpow : (2 : ℚ) ^ n = 2 ^ (n - (dnf.getD i []).length) * 2 ^ (dnf.getD i []).length := by
    rw [← pow_add]
    congr 1
    omega
  push_cast
  rw [hpow]
  have h1 : (2 : ℚ) ^ (n - (dnf.getD i []).length) ≠ 0 := by positivity
  have h2 : (2 : ℚ) ^ (dnf.getD i []).length ≠ 0 := by positivity
  field_simp
  ring

end MonteCarloCounter

/-! ## The two estimators are unbiased -/

theorem satisfiesFormula_perm (b : Nat) (dnf dnf' : Formula) (h : dnf'.Perm dnf) :
    satisfiesFormula b dnf' = satisfiesFormula b dnf := by
  unfold satisfiesFormula
  rw [Bool.eq_iff_iff, List.any_eq_true, List.any_eq_true]
  constructor
  · rintro ⟨c, hc, hs⟩
    exact ⟨c, h.mem_iff.mp hc, hs⟩
  · rintro ⟨c, hc, hs⟩
    exact ⟨c, h.mem_iff.mpr hc, hs⟩

theorem exact_count_perm (n : Nat) (dnf dnf' : Formula) (h : dnf'.Perm dnf) :
    exact_count dnf' n = exact_count dnf n := by
  unfold exact_count
  congr 1
  funext b
  exact satisfiesFormula_perm b dnf dnf' h

theorem MonteCarloCounter.buildable_card (dnf : Formula) (n i : Nat) (hi : i < dnf.length)
    (hr : literalsInRange dnf n) (hd : ∀ clause ∈ dnf, (clause.map Prod.fst).Nodup) :
    (MonteCarloCounter.buildable dnf n i).card = 2 ^ (n - (dnf.getD i []).length) := by
  have hmem : dnf.getD i [] ∈ dnf := by
    rw [List.getD_eq_getElem _ _ hi]
    exact List.getElem_mem _
  have hcons := MonteCarloCounter.consistentFlags_of_nodup _ (hd _ hmem)
  rw [MonteCarloCounter.buildable_eq dnf n i (hr _ hmem) hcons, Finset.card_image_of_injOn,
    card_satisfying_masks _ n (hr _ hmem) hcons,
    MonteCarloCounter.distinctVarCount_of_nodup _ (hd _ hmem)]
  intro b hb b' hb' hbb
  exact assignmentOfMask_injOn n
    (Finset.mem_coe.mpr (Finset.mem_filter.mp (Finset.mem_coe.mp hb)).1)
    (Finset.mem_coe.mpr (Finset.mem_filter.mp (Finset.mem_coe.mp hb')).1) hbb

/-- C2. For every formula in which each clause lists pairwise distinct variables with indices
in `[1, n]`, `n ≤ 62` (so for `1 ≤ n ≤ 62`): the generator can build exactly
`2 ^ (n - |clause i|)` assignments for clause `i`; the number of pairs `(i, a)` with `a` one
of them and the trial a hit (no clause `j < i` satisfied by `a`) equals `exact_count`;
equivalently, with clause `i` drawn with probability `weight_i / total_weight` and the bits
uniform, the expected value of `hit × total_weight` equals `exact_count`. For `n ≤ 30` that
count is the value the exact `solve_dnf` returns. -/
theorem first_hit_unbiased (dnf : Formula) (n : Nat) (h62 : n ≤ 62)
    (hr : literalsInRange dnf n) (hd : ∀ clause ∈ dnf, (clause.map Prod.fst).Nodup) :
    (∀ i, i < dnf.length →
        (MonteCarloCounter.buildable dnf n i).card = 2 ^ (n - (dnf.getD i []).length)) ∧
      MonteCarloCounter.hit_pairs dnf n = exact_count dnf n ∧
      MonteCarloCounter.expected_estimate dnf n = (exact_count dnf n : ℚ) ∧
      (n ≤ 30 → (MonteCarloCounter.hit_pairs dnf n : Int) = SolveDNF.solve_dnf dnf n) := by
  have hpairs := MonteCarloCounter.hit_pairs_eq_exact dnf n hr
    (fun clause hc => MonteCarloCounter.consistentFlags_of_nodup clause (hd clause hc))
  refine ⟨fun i hi => MonteCarloCounter.buildable_card dnf n i hi hr hd, hpairs, ?_, ?_⟩
  · rw [MonteCarloCounter.expected_estimate_eq dnf n h62 hr hd, hpairs]
  · intro h30
    rw [hpairs, SolveDNF.solve_dnf_eq_exact_count dnf n (by omega) (by omega) hr, Int.toNat_natCast]

theorem first_hit_unbiased_witness :
    (∀ i, i < [[((1 : Int), (0 : Int))], [(2, 1), (1, 0)], [(3, 0)]].length →
        (MonteCarloCounter.buildable [[(1, 0)], [(2, 1), (1, 0)], [(3, 0)]] 3 i).card =
          2 ^ (3 - ([[((1 : Int), (0 : Int))], [(2, 1), (1, 0)], [(3, 0)]].getD i []).length)) ∧
      MonteCarloCounter.hit_pairs [[(1, 0)], [(2, 1), (1, 0)], [(3, 0)]] 3 =
        exact_count [[(1, 0)], [(2, 1), (1, 0)], [(3, 0)]] 3 ∧
      MonteCarloCounter.expected_estimate [[(1, 0)], [(2, 1), (1, 0)], [(3, 0)]] 3 =
        (exact_count [[(1, 0)], [(2, 1), (1, 0)], [(3, 0)]] 3 : ℚ) ∧
      (3 ≤ 30 → (MonteCarloCounter.hit_pairs [[(1, 0)], [(2, 1), (1, 0)], [(3, 0)]] 3 : Int) =
        SolveDNF.solve_dnf [[(1, 0)], [(2, 1), (1, 0)], [(3, 0)]] (3 : Nat)) :=
  first_hit_unbiased [[(1, 0)], [(2, 1), (1, 0)], [(3, 0)]] 3 (by decide) (by decide) (by decide)

/-- C3. For every formula whose literals have variable index in `[1, n]` and flag 0 or 1
(duplicates and contradictory clauses allowed), the estimator's universe is `n` itself, and
the sum over every clause `i` that is not contradictory and every assignment `a` over the
variables `1 .. n` satisfying clause `i` of `1 / coverage_count(a)` equals `exact_count` as
an exact rational; equivalently the expected per-trial contribution times `total_weight`
equals `exact_count`; both are the same for every reordering of the clauses. For `n ≤ 30`
that count is the value the exact `solve_dnf` returns. -/
theorem klm_inverse_coverage_unbiased (dnf : Formula) (n : Nat)
    (hwf : ∀ clause ∈ dnf, ∀ lit ∈ clause, 1 ≤ lit.1 ∧ lit.1 ≤ n ∧ (lit.2 = 0 ∨ lit.2 = 1)) :
    KLM.actual_n dnf n = n ∧
      KLM.inverse_coverage_sum dnf n = (exact_count dnf n : ℚ) ∧
      KLM.expected_contribution dnf n * KLM.total_weight dnf n = (exact_count dnf n : ℚ) ∧
      (∀ dnf' : Formula, dnf'.Perm dnf →
        KLM.inverse_coverage_sum dnf' n = KLM.inverse_coverage_sum dnf n ∧
        KLM.expected_contribution dnf' n * KLM.total_weight dnf' n =
          KLM.expected_contribution dnf n * KLM.total_weight dnf n) ∧
      (n ≤ 30 → KLM.inverse_coverage_sum dnf n = ((SolveDNF.solve_dnf dnf n : Int) : ℚ)) := by
  have key : ∀ f : Formula,
      (∀ clause ∈ f, ∀ lit ∈ clause, 1 ≤ lit.1 ∧ lit.1 ≤ (n : Int) ∧ (lit.2 = 0 ∨ lit.2 = 1)) →
      KLM.inverse_coverage_sum f n = (exact_count f n : ℚ) ∧
        KLM.expected_contribution f n * KLM.total_weight f n = (exact_count f n : ℚ) := by
    intro f hf
    have h1 := KLM.inverse_coverage_sum_eq_exact f n hf
    refine ⟨h1, ?_⟩
    rw [KLM.expected_contribution_eq f n
      (fun clause hc lit hlit => ⟨(hf clause hc lit hlit).1, (hf clause hc lit hlit).2.1⟩), h1]
  have hr : literalsInRange dnf n :=
    fun clause hc lit hlit => ⟨(hwf clause hc lit hlit).1, (hwf clause hc lit hlit).2.1⟩
  obtain ⟨h1, h2⟩ := key dnf hwf
  refine ⟨KLM.actual_n_eq dnf n (fun clause hc lit hlit => (hwf clause hc lit hlit).2.1),
    h1, h2, ?_, ?_⟩
  · intro dnf' hperm
    obtain ⟨h3, h4⟩ := key dnf' (fun clause hc => hwf clause (hperm.mem_iff.mp hc))
    rw [h1, h2, h3, h4, exact_count_perm n dnf dnf' hperm]
    exact ⟨rfl, rfl⟩
  · intro h30
    rw [h1, SolveDNF.solve_dnf_eq_exact_count dnf n (by omega) (by omega) hr, Int.toNat_natCast]
    simp

theorem klm_inverse_coverage_unbiased_witness :
    KLM.actual_n [[(1, 0), (1, 0)], [(1, 1)], [(2, 0), (2, 1)]] (2 : Nat) = (2 : Nat) ∧
      KLM.inverse_coverage_sum [[(1, 0), (1, 0)], [(1, 1)], [(2, 0), (2, 1)]] 2 =
        (exact_count [[(1, 0), (1, 0)], [(1, 1)], [(2, 0), (2, 1)]] 2 : ℚ) ∧
      KLM.expected_contribution [[(1, 0), (1, 0)], [(1, 1)], [(2, 0), (2, 1)]] (2 : Nat) *
          KLM.total_weight [[(1, 0), (1, 0)], [(1, 1)], [(2, 0), (2, 1)]] (2 : Nat) =
        (exact_count [[(1, 0), (1, 0)], [(1, 1)], [(2, 0), (2, 1)]] 2 : ℚ) ∧
      (∀ dnf' : Formula, dnf'.Perm [[(1, 0), (1, 0)], [(1, 1)], [(2, 0), (2, 1)]] →
        KLM.inverse_coverage_sum dnf' 2 =
          KLM.inverse_coverage_sum [[(1, 0), (1, 0)], [(1, 1)], [(2, 0), (2, 1)]] 2 ∧
        KLM.expected_contribution dnf' (2 : Nat) * KLM.total_weight dnf' (2 : Nat) =
          KLM.expected_contribution [[(1, 0), (1, 0)], [(1, 1)], [(2, 0), (2, 1)]] (2 : Nat) *
            KLM.total_weight [[(1, 0), (1, 0)], [(1, 1)], [(2, 0), (2, 1)]] (2 : Nat)) ∧
      (2 ≤ 30 → KLM.inverse_coverage_sum [[(1, 0), (1, 0)], [(1, 1)], [(2, 0), (2, 1)]] 2 =
        ((SolveDNF.solve_dnf [[(1, 0), (1, 0)], [(1, 1)], [(2, 0), (2, 1)]] (2 : Nat) : Int) : ℚ)) :=
  klm_inverse_coverage_unbiased [[(1, 0), (1, 0)], [(1, 1)], [(2, 0), (2, 1)]] 2 (by decide)

/-! ## Degenerate formulas, parameter validation and the 32-bit range of the exact counter -/

theorem SolveDNF.solve_dnf_congr (dnf dnf' : Formula) (n : Int)
    (h : ∀ mask, SolveDNF.formula_true n mask dnf = SolveDNF.formula_true n mask dnf') :
    SolveDNF.solve_dnf dnf n = SolveDNF.solve_dnf dnf' n := by
  unfold SolveDNF.solve_dnf
  simp only [h]

theorem SolveDNF.formula_true_drop_false (n : Int) (mask : Nat) (pre post : Formula)
    (clause : Clause) (h : SolveDNF.clause_true n mask clause = false) :
    SolveDNF.formula_true n mask (pre ++ clause :: post) =
      SolveDNF.formula_true n mask (pre ++ post) := by
  simp only [SolveDNF.formula_true_eq_any, List.any_append, List.any_cons, h, Bool.false_or]

theorem SolveDNF.clause_true_malformed (n : Int) (mask : Nat) (clause : Clause)
    (h : ∃ lit ∈ clause, lit.1 ≤ 0) : SolveDNF.clause_true n mask clause = false := by
  obtain ⟨lit, hlit, hle⟩ := h
  rw [SolveDNF.clause_true_eq_all]
  cases hall : clause.all (fun lit => decide (0 < lit.1 ∧ lit.1 ≤ n) &&
        (mask.testBit (lit.1 - 1).toNat == decide (lit.2 = 0))) with
  | false => rfl
  | true =>
    exfalso
    rw [List.all_eq_true] at hall
    have h1 := hall lit hlit
    rw [Bool.and_eq_true, decide_eq_true_eq] at h1
    omega

theorem static_cast_int_of_range (x : Int) (h0 : -2147483648 ≤ x) (h1 : x ≤ 2147483647) :
    static_cast_int x = x := by
  unfold static_cast_int
  rw [if_pos ⟨h0, h1⟩]

theorem static_cast_int_overflow (x : Int) (h : 2147483647 < x) :
    static_cast_int x = -2147483648 := by
  unfold static_cast_int
  rw [if_neg (by omega)]

/-- While `3 * t` fits the 32-bit `int`, the first-hit sample count is the converted ceiling
of `(3 t / eps^2) ln(2 / delta)`. -/
theorem MonteCarloCounter.mc_sample_count_eq (ln : ℚ → ℚ) (eps delta : ℚ) (dnf : Formula)
    (hlen : 3 * (dnf.length : Int) ≤ 2147483647) :
    MonteCarloCounter.sample_count ln eps delta dnf =
      static_cast_int ⌈(3 * (dnf.length : ℚ) / (eps * eps)) * ln (2 / delta)⌉ := by
  unfold MonteCarloCounter.sample_count
  simp only []
  rw [wrapInt32_of_range (dnf.length : Int) (by omega) (by omega),
    wrapInt32_of_range (3 * (dnf.length : Int)) (by omega) (by omega)]
  push_cast
  rfl

/-- While `t` fits the 32-bit `int`, the KLM sample count is the converted ceiling of
`(3 t / eps^2) ln(2 / delta)`. -/
theorem KLM.klm_sample_count_eq (ln : ℚ → ℚ) (eps delta : ℚ) (dnf : Formula)
    (hlen : (dnf.length : Int) ≤ 2147483647) :
    KLM.sample_count ln eps delta dnf =
      static_cast_int ⌈(3 * (dnf.length : ℚ) / (eps * eps)) * ln (2 / delta)⌉ := by
  unfold KLM.sample_count
  simp only []
  rw [wrapInt32_of_range (dnf.length : Int) (by omega) (by omega)]
  push_cast
  rfl

/-- C15, as stated, fails: with `n = 1` the clause `{(0, 0), (1, 0)}` holds a literal of
index 0 next to a valid one; the exact `solve_dnf` returns 0 on it and 1 once the malformed
literal is deleted. -/
theorem exact_malformed_literal_counterexample :
    SolveDNF.solve_dnf [[(0, 0), (1, 0)]] 1 = 0 ∧ SolveDNF.solve_dnf [[(1, 0)]] 1 = 1 := by
  decide

/-- C15, amended. In the exact counter a literal whose variable index is `≤ 0` makes its
clause unsatisfiable whatever the other literals of the clause are: for every formula and
every `n`, the clause is false on every bit pattern, and deleting the whole clause leaves
the result of the exact `solve_dnf` unchanged. -/
theorem exact_malformed_literal_kills_clause (pre post : Formula) (clause : Clause) (n : Int)
    (hc : ∃ lit ∈ clause, lit.1 ≤ 0) :
    (∀ mask, SolveDNF.clause_true n mask clause = false) ∧
      SolveDNF.solve_dnf (pre ++ clause :: post) n = SolveDNF.solve_dnf (pre ++ post) n := by
  have hfalse : ∀ mask, SolveDNF.clause_true n mask clause = false :=
    fun mask => SolveDNF.clause_true_malformed n mask clause hc
  refine ⟨hfalse, ?_⟩
  apply SolveDNF.solve_dnf_congr
  intro mask
  exact SolveDNF.formula_true_drop_false n mask pre post clause (hfalse mask)

theorem exact_malformed_literal_kills_clause_witness :
    (∀ mask, SolveDNF.clause_true 2 mask [(1, 0), (-3, 1)] = false) ∧
      SolveDNF.solve_dnf ([[(2, 0)]] ++ [(1, 0), (-3, 1)] :: [[(1, 1)]]) 2 =
        SolveDNF.solve_dnf ([[(2, 0)]] ++ [[(1, 1)]]) 2 :=
  exact_malformed_literal_kills_clause [[(2, 0)]] [[(1, 1)]] [(1, 0), (-3, 1)] 2
    ⟨(-3, 1), by simp, by decide⟩

theorem SolveDNF.solve_dnf_at_31 (dnf : Formula) : SolveDNF.solve_dnf dnf 31 = 0 := by
  unfold SolveDNF.solve_dnf
  simp only []
  have hw : wrapInt32 (2 ^ (31 : Int).toNat) = -2147483648 := by decide
  rw [hw]
  rfl

/-- C18, as stated, fails: under the wraparound model, for `n = 31` the mask limit `1 << 31`
is `-2^31`, the loop body never runs and the exact `solve_dnf` returns 0 on the formula
whose only clause is the empty clause, which all `2^31` patterns satisfy. -/
theorem exact_counter_wraps_counterexample :
    wrapInt32 (2 ^ (31 : Int).toNat) = -2147483648 ∧
      SolveDNF.solve_dnf [[]] 31 = 0 ∧ exact_count [[]] 31 = 2147483648 ∧
      literalsInRange [[]] 31 := by
  refine ⟨by decide, SolveDNF.solve_dnf_at_31 [[]], ?_, by decide⟩
  · unfold exact_count
    have hfun : (fun mask => satisfiesFormula mask [[]]) = (fun _ => true) := by
      funext mask
      simp [satisfiesFormula, satisfiesClause]
    rw [hfun, List.countP_true, List.length_range]
    norm_num

/-- C18, amended. The exact counter is correct up to `n = 30`: for every `n` with
`0 ≤ n ≤ 30` and every formula with literals in `[1, n]`, the mask limit `1 << n` is `2 ^ n`
without wraparound, the number of satisfying patterns is at most `2 ^ n`, which a 32-bit
`int` holds, and the exact `solve_dnf` returns the true number of satisfying patterns among
the `2 ^ n` ones. -/
theorem exact_counter_32bit_range (dnf : Formula) (n : Int) (h0 : 0 ≤ n) (h30 : n ≤ 30)
    (hr : literalsInRange dnf n) :
    wrapInt32 (2 ^ n.toNat) = 2 ^ n.toNat ∧
      (exact_count dnf n.toNat : Int) ≤ 2 ^ n.toNat ∧
      ((2 : Int) ^ n.toNat) ≤ 1073741824 ∧
      SolveDNF.solve_dnf dnf n = (exact_count dnf n.toNat : Int) := by
  obtain ⟨hw, hle⟩ := SolveDNF.total_masks_small n.toNat (by omega)
  refine ⟨hw, ?_, hle, SolveDNF.solve_dnf_eq_exact_count dnf n h0 h30 hr⟩
  exact_mod_cast exact_count_le dnf n.toNat

theorem exact_counter_32bit_range_witness :
    wrapInt32 (2 ^ (30 : Int).toNat) = 2 ^ (30 : Int).toNat ∧
      SolveDNF.solve_dnf [[(1, 0)], [(30, 1)]] 30 =
        (exact_count [[(1, 0)], [(30, 1)]] (30 : Int).toNat : Int) :=
  have h := exact_counter_32bit_range [[(1, 0)], [(30, 1)]] 30 (by decide) (by decide)
    (by decide)
  ⟨h.1, h.2.2.2⟩

/-- C19. For every clause (and every universe size), the KLM clause analyzer marks the clause
contradictory if and only if the clause contains two literals with the same variable index
`≥ 1` and different negation flags; literals with index `≤ 0` neither cause nor hide a
contradiction: removing them leaves the flag unchanged. -/
theorem klm_contradiction_detection_exact (n : Int) (clause : Clause) :
    ((KLM.analyze n clause).1.contradictory = true ↔
        ∃ lit ∈ clause, ∃ lit' ∈ clause, 1 ≤ lit.1 ∧ lit.1 = lit'.1 ∧ lit.2 ≠ lit'.2) ∧
      (KLM.analyze n clause).1.contradictory =
        (KLM.analyze n (clause.filter (fun lit => decide (1 ≤ lit.1)))).1.contradictory := by
  have key : ∀ c : Clause, ((KLM.analyze n c).1.contradictory = true ↔
      ∃ lit ∈ c, ∃ lit' ∈ c, 1 ≤ lit.1 ∧ lit.1 = lit'.1 ∧ lit.2 ≠ lit'.2) := by
    intro c
    rw [KLM.analyze_contradictory]
    constructor
    · intro hs
      obtain ⟨v, s, s', hv, hne, h1, h2⟩ :=
        KLM.scan_true c [] (KLM.scan [] c).1 (by simp) (Prod.ext rfl hs)
      have h1' : (v, s) ∈ c := by
        rcases h1 with h | h
        · exact absurd h (List.not_mem_nil _)
        · exact h
      exact ⟨(v, s), h1', (v, s'), h2, by show 1 ≤ v; omega, rfl, hne⟩
    · rintro ⟨lit, hlit, lit', hlit', hpos, hv, hne⟩
      cases hs : (KLM.scan [] c).2 with
      | true => rfl
      | false =>
        exfalso
        obtain ⟨hnd, hmem⟩ := KLM.scan_nil_false c hs
        have h1 : lit ∈ (KLM.scan [] c).1 := (hmem lit.1 lit.2).mpr ⟨by omega, hlit⟩
        have h2 : lit' ∈ (KLM.scan [] c).1 := (hmem lit'.1 lit'.2).mpr ⟨by omega, hlit'⟩
        have := List.inj_on_of_nodup_map hnd h1 h2 hv
        rw [this] at hne
        exact hne rfl
  refine ⟨key clause, ?_⟩
  rw [Bool.eq_iff_iff, key clause, key (clause.filter (fun lit => decide (1 ≤ lit.1)))]
  constructor
  · rintro ⟨lit, hlit, lit', hlit', hpos, hv, hne⟩
    refine ⟨lit, List.mem_filter.mpr ⟨hlit, by simpa using hpos⟩, lit',
      List.mem_filter.mpr ⟨hlit', ?_⟩, hpos, hv, hne⟩
    rw [decide_eq_true_eq, ← hv]
    exact hpos
  · rintro ⟨lit, hlit, lit', hlit', hpos, hv, hne⟩
    exact ⟨lit, (List.mem_filter.mp hlit).1, lit', (List.mem_filter.mp hlit').1, hpos, hv, hne⟩

/-! ## The scaled weights of the KLM estimator -/

namespace KLM

end KLM

namespace MonteCarloCounter

theorem count_hits_eq (l : List Nat) (p : Nat → Bool) (init : Int) :
    l.foldl (fun X k => if p k = true then X + 1 else X) init = init + (l.countP p : Nat) := by
  induction l generalizing init with
  | nil => simp
  | cons k l ih =>
    rw [List.foldl_cons, ih]
    by_cases hp : p k = true
    · rw [if_pos hp, List.countP_cons_of_pos _ _ hp]
      push_cast
      ring
    · rw [if_neg hp, List.countP_cons_of_neg _ _ hp]

/-- Past its two early returns the first-hit estimator runs `m` trials and returns the
fraction of hits times the total weight. -/
theorem mc_solve_dnf_reached (dnf : Formula) (n m : Int) (rng : Rng) (hne : dnf ≠ [])
    (hn : 0 < n) (hm : 1 ≤ m)
    (hW : (weights dnf n).foldl (fun acc w => acc + w) 0 ≠ 0) :
    solve_dnf dnf n m rng =
      ⟨(((List.range m.toNat).countP (fun k => trial_hit dnf n rng k) : Nat) : ℚ) / (m : ℚ) *
          (weights dnf n).foldl (fun acc w => acc + w) 0, m, m.toNat⟩ := by
  have hguard : ¬ (dnf.isEmpty = true ∨ n ≤ 0 ∨ m ≤ 0) := by
    rintro (h | h | h)
    · exact hne (List.isEmpty_iff.mp h)
    · omega
    · omega
  unfold solve_dnf
  simp only []
  rw [if_neg hguard, if_neg hW, count_hits_eq]
  simp

theorem solve_dnf_all_hits (dnf : Formula) (n m : Int) (rng : Rng) (hne : dnf ≠ [])
    (hn : 0 < n) (hm : 1 ≤ m)
    (hW : (weights dnf n).foldl (fun acc w => acc + w) 0 ≠ 0)
    (hhit : ∀ k, trial_hit dnf n rng k = true) :
    solve_dnf dnf n m rng =
      ⟨(weights dnf n).foldl (fun acc w => acc + w) 0, m, m.toNat⟩ := by
  rw [mc_solve_dnf_reached dnf n m rng hne hn hm hW]
  have hall : (fun k => trial_hit dnf n rng k) = (fun _ => true) := by
    funext k
    exact hhit k
  rw [hall, List.countP_true, List.length_range]
  have hmq : ((m.toNat : Nat) : ℚ) = (m : ℚ) := by
    have h1 : ((m.toNat : Nat) : Int) = m := Int.toNat_of_nonneg (by omega)
    rw [← Int.cast_natCast, h1]
  have hm0 : (m : ℚ) ≠ 0 := by
    have : (0 : ℚ) < (m : ℚ) := by exact_mod_cast (by omega : (0 : Int) < m)
    exact ne_of_gt this
  rw [hmq, div_self hm0, one_mul]

end MonteCarloCounter

namespace KLM

theorem foldl_add_range (f : Nat → ℚ) (N : Nat) :
    (List.range N).foldl (fun acc k => acc + f k) 0 = ∑ k ∈ Finset.range N, f k := by
  induction N with
  | zero => simp
  | succ N ih =>
    rw [List.range_succ, List.foldl_append, ih, Finset.sum_range_succ]
    rfl

/-- Past its early returns the KLM estimator runs `m` trials and returns the sum of the
contributions of all of them, divided by `m`, times the total weight. -/
theorem klm_solve_dnf_reached (eps delta : ℚ) (m : Int) (isfinite : ℚ → Bool) (dnf : Formula)
    (hint : Int) (rng : Rng) (heps : 0 < eps) (hdelta : 0 < delta ∧ delta < 1)
    (hne : dnf ≠ []) (hn : 0 < actual_n dnf hint) (hm : 1 ≤ m)
    (hts : total_scaled dnf (actual_n dnf hint) ≠ 0)
    (hfin : isfinite (total_weight dnf (actual_n dnf hint)) = true) :
    solve_dnf eps delta m isfinite dnf hint rng =
      Except.ok ⟨(∑ k ∈ Finset.range m.toNat,
          trial_contribution dnf (actual_n dnf hint) rng k) / (m : ℚ) *
        total_weight dnf (actual_n dnf hint), m.toNat⟩ := by
  have hparams : ¬ (eps ≤ 0 ∨ delta ≤ 0 ∨ delta ≥ 1) := by
    rintro (h | h | h)
    · exact absurd heps (not_lt.mpr h)
    · exact absurd hdelta.1 (not_lt.mpr h)
    · exact absurd hdelta.2 (not_lt.mpr h)
  have hguard : ¬ (dnf.isEmpty = true ∨ actual_n dnf hint ≤ 0 ∨ m ≤ 0) := by
    rintro (h | h | h)
    · exact hne (List.isEmpty_iff.mp h)
    · omega
    · omega
  have hguard2 : ¬ (total_scaled dnf (actual_n dnf hint) = 0 ∨
      (!isfinite (total_weight dnf (actual_n dnf hint))) = true) := by
    rintro (h | h)
    · exact hts h
    · rw [hfin] at h
      exact absurd h (by simp)
  unfold solve_dnf
  rw [if_neg hparams]
  simp only []
  rw [if_neg hguard, if_neg hguard2, foldl_add_range]

end KLM

theorem sample_count_agree (ln : ℚ → ℚ) (eps delta : ℚ) (dnf : Formula)
    (hlen : 3 * (dnf.length : Int) ≤ 2147483647) :
    MonteCarloCounter.sample_count ln eps delta dnf = KLM.sample_count ln eps delta dnf := by
  rw [MonteCarloCounter.mc_sample_count_eq ln eps delta dnf hlen,
    KLM.klm_sample_count_eq ln eps delta dnf (by omega)]

theorem ceil_sample_pos (ln : ℚ → ℚ) (eps delta : ℚ) (dnf : Formula) (heps : eps ≠ 0)
    (hln : 0 < ln (2 / delta)) (ht : 1 ≤ dnf.length) :
    1 ≤ ⌈(3 * (dnf.length : ℚ) / (eps * eps)) * ln (2 / delta)⌉ := by
  rw [Int.one_le_ceil_iff]
  have h1 : (0 : ℚ) < eps * eps := mul_self_pos.mpr heps
  have h2 : (0 : ℚ) < (dnf.length : ℚ) := by exact_mod_cast ht
  positivity

/-- While the ceiling of `(3 t / eps^2) ln(2 / delta)` fits the 32-bit `int`, the KLM sample
count is that ceiling, and it is at least 1 for a formula with a clause. -/
theorem KLM.sample_count_pos (ln : ℚ → ℚ) (eps delta : ℚ) (dnf : Formula) (heps : eps ≠ 0)
    (hln : 0 < ln (2 / delta)) (ht : 1 ≤ dnf.length)
    (hlen : (dnf.length : Int) ≤ 2147483647)
    (hfit : ⌈(3 * (dnf.length : ℚ) / (eps * eps)) * ln (2 / delta)⌉ ≤ 2147483647) :
    KLM.sample_count ln eps delta dnf =
        ⌈(3 * (dnf.length : ℚ) / (eps * eps)) * ln (2 / delta)⌉ ∧
      1 ≤ KLM.sample_count ln eps delta dnf := by
  have hpos := ceil_sample_pos ln eps delta dnf heps hln ht
  have heq : KLM.sample_count ln eps delta dnf =
      ⌈(3 * (dnf.length : ℚ) / (eps * eps)) * ln (2 / delta)⌉ := by
    rw [KLM.klm_sample_count_eq ln eps delta dnf hlen,
      static_cast_int_of_range _ (by omega) hfit]
  exact ⟨heq, by rw [heq]; exact hpos⟩

/-- When the ceiling of `(3 t / eps^2) ln(2 / delta)` exceeds the 32-bit range, both sample
counts are `INT_MIN`. -/
theorem sample_count_overflow (ln : ℚ → ℚ) (eps delta : ℚ) (dnf : Formula)
    (hlen : 3 * (dnf.length : Int) ≤ 2147483647)
    (hbig : 2147483647 < ⌈(3 * (dnf.length : ℚ) / (eps * eps)) * ln (2 / delta)⌉) :
    MonteCarloCounter.sample_count ln eps delta dnf = -2147483648 ∧
      KLM.sample_count ln eps delta dnf = -2147483648 := by
  rw [sample_count_agree ln eps delta dnf hlen,
    KLM.klm_sample_count_eq ln eps delta dnf (by omega), static_cast_int_overflow _ hbig]
  exact ⟨rfl, rfl⟩

theorem MonteCarloCounter.mc_solve_dnf_no_samples (dnf : Formula) (n m : Int) (rng : Rng)
    (hm : m ≤ 0) : MonteCarloCounter.solve_dnf dnf n m rng = ⟨0, m, 0⟩ := by
  unfold MonteCarloCounter.solve_dnf
  simp only []
  rw [if_pos (Or.inr (Or.inr hm))]

theorem KLM.solve_dnf_no_universe (eps delta : ℚ) (m : Int) (isfinite : ℚ → Bool)
    (dnf : Formula) (hint : Int) (rng : Rng) (heps : 0 < eps) (hdelta : 0 < delta ∧ delta < 1)
    (hn : KLM.actual_n dnf hint ≤ 0) :
    KLM.solve_dnf eps delta m isfinite dnf hint rng = Except.ok ⟨0, 0⟩ := by
  have hparams : ¬ (eps ≤ 0 ∨ delta ≤ 0 ∨ delta ≥ 1) := by
    rintro (h | h | h)
    · exact absurd heps (not_lt.mpr h)
    · exact absurd hdelta.1 (not_lt.mpr h)
    · exact absurd hdelta.2 (not_lt.mpr h)
  unfold KLM.solve_dnf
  rw [if_neg hparams]
  simp only []
  rw [if_pos (Or.inr (Or.inl hn))]

theorem KLM.klm_solve_dnf_no_samples (eps delta : ℚ) (m : Int) (isfinite : ℚ → Bool)
    (dnf : Formula) (hint : Int) (rng : Rng) (heps : 0 < eps) (hdelta : 0 < delta ∧ delta < 1)
    (hm : m ≤ 0) : KLM.solve_dnf eps delta m isfinite dnf hint rng = Except.ok ⟨0, 0⟩ := by
  have hparams : ¬ (eps ≤ 0 ∨ delta ≤ 0 ∨ delta ≥ 1) := by
    rintro (h | h | h)
    · exact absurd heps (not_lt.mpr h)
    · exact absurd hdelta.1 (not_lt.mpr h)
    · exact absurd hdelta.2 (not_lt.mpr h)
  unfold KLM.solve_dnf
  rw [if_neg hparams]
  simp only []
  rw [if_pos (Or.inr (Or.inr hm))]

/-- C13, the code at a failing input. The first-hit `solve_dnf` has no parameter check: for the
formula `[{(x1, not negated)}]` with `n = 1`, every `eps ≠ 0` (negative ones included) and
every `delta` at which the library logarithm of `2 / delta` is positive (so every `delta` in
`(0, 2)`), no call is rejected. When the ceiling of `(3 / eps^2) ln(2 / delta)` fits the
32-bit `int`, it computes a sample count `m ≥ 1`, draws `m` samples and returns the
estimate 1; when the ceiling exceeds that range, `m` is `INT_MIN` and it returns 0 through
the guard `m <= 0`. -/
theorem first_hit_accepts_invalid_parameters (ln : ℚ → ℚ) (eps delta : ℚ) (rng : Rng)
    (heps : eps ≠ 0) (hln : 0 < ln (2 / delta)) (hpick : ∀ k, rng.pick k = 0) :
    (⌈(3 / (eps * eps)) * ln (2 / delta)⌉ ≤ 2147483647 →
      1 ≤ MonteCarloCounter.sample_count ln eps delta [[(1, 0)]] ∧
        MonteCarloCounter.run ln eps delta [[(1, 0)]] 1 rng =
          ⟨1, MonteCarloCounter.sample_count ln eps delta [[(1, 0)]],
            (MonteCarloCounter.sample_count ln eps delta [[(1, 0)]]).toNat⟩) ∧
      (2147483647 < ⌈(3 / (eps * eps)) * ln (2 / delta)⌉ →
        MonteCarloCounter.run ln eps delta [[(1, 0)]] 1 rng = ⟨0, -2147483648, 0⟩) := by
  have hexpr : (3 * (([[((1 : Int), (0 : Int))]] : Formula).length : ℚ) / (eps * eps)) *
      ln (2 / delta) = (3 / (eps * eps)) * ln (2 / delta) := by
    simp
  constructor
  · intro hfit
    have hm : 1 ≤ MonteCarloCounter.sample_count ln eps delta [[(1, 0)]] := by
      rw [sample_count_agree ln eps delta _ (by simp)]
      exact (KLM.sample_count_pos ln eps delta _ heps hln (by simp) (by simp)
        (by rw [hexpr]; exact hfit)).2
    refine ⟨hm, ?_⟩
    have hW : (MonteCarloCounter.weights [[(1, 0)]] 1).foldl (fun acc w => acc + w) 0 = 1 := by
      simp [MonteCarloCounter.weights, MonteCarloCounter.weight]
    unfold MonteCarloCounter.run
    rw [MonteCarloCounter.solve_dnf_all_hits [[(1, 0)]] 1 _ rng (by simp) (by decide) hm
      (by rw [hW]; exact one_ne_zero), hW]
    intro k
    unfold MonteCarloCounter.trial_hit MonteCarloCounter.in_prior
    rw [hpick k]
    rfl
  · intro hbig
    have hm := (sample_count_overflow ln eps delta [[(1, 0)]] (by simp)
      (by rw [hexpr]; exact hbig)).1
    unfold MonteCarloCounter.run
    rw [hm]
    exact MonteCarloCounter.mc_solve_dnf_no_samples _ _ _ rng (by decide)

theorem first_hit_accepts_invalid_parameters_witness :
    1 ≤ MonteCarloCounter.sample_count (fun _ => 3) (-1 / 10) (1 / 10) [[(1, 0)]] ∧
      MonteCarloCounter.run (fun _ => 3) (-1 / 10) (1 / 10) [[(1, 0)]] 1
          ⟨fun _ => 0, fun _ _ => false⟩ =
        ⟨1, MonteCarloCounter.sample_count (fun _ => 3) (-1 / 10) (1 / 10) [[(1, 0)]],
          (MonteCarloCounter.sample_count (fun _ => 3) (-1 / 10) (1 / 10) [[(1, 0)]]).toNat⟩ :=
  (first_hit_accepts_invalid_parameters (fun _ => 3) (-1 / 10) (1 / 10)
    ⟨fun _ => 0, fun _ _ => false⟩ (by norm_num) (by norm_num) (fun _ => rfl)).1
    (by rw [Int.ceil_le]; norm_num)

theorem ceil_at_eps_small : ⌈(3 * (([[((1 : Int), (0 : Int))]] : Formula).length : ℚ) /
    ((1 / 100000 : ℚ) * (1 / 100000))) *
      ((fun _ : ℚ => (2995732 / 1000000 : ℚ)) (2 / (1 / 10)))⌉ = 89871960000 := by
  rw [Int.ceil_eq_iff]
  norm_num

theorem foldl_congr_mem {α β : Type} (f g : β → α → β) (l : List α)
    (h : ∀ a, ∀ x ∈ l, f a x = g a x) : ∀ init, l.foldl f init = l.foldl g init := by
  induction l with
  | nil => intro init; rfl
  | cons x l ih =>
    intro init
    rw [List.foldl_cons, List.foldl_cons, h init x (List.mem_cons_self _ _)]
    exact ih (fun a y hy => h a y (List.mem_cons_of_mem _ hy)) _

theorem countP_eq_one_of_unique {α : Type} (l : List α) (d : α) (p : α → Bool) (i : Nat)
    (hi : i < l.length) (hp : p (l.getD i d) = true)
    (hu : ∀ j, j < l.length → j ≠ i → p (l.getD j d) = false) : l.countP p = 1 := by
  have h1 := sum_map_ite_const l p 1
  rw [mul_one, ← sum_range_getD l d (fun c => if p c = true then (1 : ℚ) else 0),
    Finset.sum_eq_single i] at h1
  · rw [if_pos hp] at h1
    exact_mod_cast h1.symm
  · intro j hj hji
    rw [hu j (Finset.mem_range.mp hj) hji]
    simp
  · intro hni
    exact absurd (Finset.mem_range.mpr hi) hni

theorem sum_range_getD_nat {α : Type} (l : List α) (d : α) (g : α → Nat) :
    ∑ i ∈ Finset.range l.length, g (l.getD i d) = (l.map g).sum := by
  induction l with
  | nil => simp
  | cons a l ih =>
    rw [List.length_cons, Finset.sum_range_succ', List.map_cons, List.sum_cons, ← ih]
    simp only [List.getD_cons_succ, List.getD_cons_zero]
    omega

theorem getD_mem {α : Type} (l : List α) (d : α) (i : Nat) (hi : i < l.length) :
    l.getD i d ∈ l := by
  rw [List.getD_eq_getElem _ _ hi]
  exact List.getElem_mem _

theorem exclusive_others_false (dnf : Formula) (n : Nat) (hex : mutuallyExclusive dnf n)
    (i : Nat) (hi : i < dnf.length) (b : Nat) (hb : b < 2 ^ n)
    (hsat : satisfiesClause b (dnf.getD i []) = true) (j : Nat) (hj : j < dnf.length)
    (hji : j ≠ i) : satisfiesClause b (dnf.getD j []) = false := by
  cases h : satisfiesClause b (dnf.getD j []) with
  | false => rfl
  | true => exact absurd ⟨hsat, h⟩ (hex i hi j hj (fun e => hji e.symm) b hb)

namespace MonteCarloCounter

theorem random_assignment_mask (n : Nat) (draw : Nat → Bool) :
    ∃ b, b < 2 ^ n ∧ random_assignment n draw = assignmentOfMask n b := by
  obtain ⟨b, hb, hbits⟩ := exists_mask_with_bits n draw
  refine ⟨b, hb, ?_⟩
  rw [← random_assignment_eq]
  unfold random_assignment
  rw [Int.toNat_natCast]
  apply foldl_congr_mem
  intro a j hj
  show a.set (j + 1) (bitValue (draw j)) = a.set (j + 1) (bitValue (b.testBit j))
  rw [hbits j (List.mem_range.mp hj)]

/-- The assignment of a trial is the vector of a pattern that satisfies the drawn clause. -/
theorem trial_mask (n : Nat) (clause : Clause) (draw : Nat → Bool)
    (hr : ∀ lit ∈ clause, 1 ≤ lit.1 ∧ lit.1 ≤ n) (hcons : consistentFlags clause) :
    ∃ b, b < 2 ^ n ∧
      force_literals n clause (random_assignment n draw) = assignmentOfMask n b ∧
      satisfiesClause b clause = true := by
  obtain ⟨b0, hb0, hrand⟩ := random_assignment_mask n draw
  rw [hrand]
  have hmem : assignmentOfMask n b0 ∈ assignments n :=
    Finset.mem_image.mpr ⟨b0, Finset.mem_range.mpr hb0, rfl⟩
  obtain ⟨b, hb, hbeq⟩ := Finset.mem_image.mp (force_mem_assignments n clause _ hmem)
  refine ⟨b, Finset.mem_range.mp hb, hbeq.symm, ?_⟩
  have hs := force_satisfies n clause (assignmentOfMask n b0) (assignmentOfMask_length n b0)
    hr hcons
  rw [← hbeq, mc_clause_satisfied_assignmentOfMask,
    SolveDNF.clause_true_eq_satisfies _ _ _ hr] at hs
  exact hs

theorem trial_hit_of_exclusive (dnf : Formula) (n : Nat) (rng : Rng) (k : Nat)
    (hr : literalsInRange dnf n) (hd : distinctVariables dnf) (hex : mutuallyExclusive dnf n)
    (hpick : rng.pick k < dnf.length) : trial_hit dnf n rng k = true := by
  have hmem := getD_mem dnf [] (rng.pick k) hpick
  obtain ⟨b, hb, hbeq, hsat⟩ := trial_mask n (dnf.getD (rng.pick k) []) (rng.bits k)
    (hr _ hmem) (consistentFlags_of_nodup _ (hd _ hmem))
  unfold trial_hit trial_assignment
  rw [hbeq, in_prior_assignmentOfMask dnf n _ b hr, Bool.not_eq_true', List.any_eq_false]
  intro c hc
  obtain ⟨j, hj, rfl⟩ := List.mem_take_iff_getElem.mp hc
  have hj1 : j < rng.pick k := lt_of_lt_of_le hj (min_le_left _ _)
  have hj2 : j < dnf.length := lt_of_lt_of_le hj (min_le_right _ _)
  have := exclusive_others_false dnf n hex (rng.pick k) hpick b hb hsat j hj2 (by omega)
  rw [List.getD_eq_getElem _ _ hj2] at this
  rw [this]
  simp

theorem mc_total_weight_eq_sum (dnf : Formula) (n : Nat) (hn : n ≤ 62)
    (hr : literalsInRange dnf n) (hd : distinctVariables dnf) :
    (weights dnf n).foldl (fun acc w => acc + w) 0 =
      (((dnf.map (fun clause => 2 ^ (n - clause.length))).sum : Nat) : ℚ) := by
  rw [← List.sum_eq_foldl, Nat.cast_list_sum, List.map_map]
  unfold weights
  congr 1
  apply List.map_congr_left
  intro clause hc
  have hle : clause.length ≤ n := by
    rw [← distinctVarCount_of_nodup clause (hd clause hc)]
    exact distinctVarCount_le clause n (hr clause hc)
  rw [weight_of_le n clause hn hle]
  rfl

end MonteCarloCounter

theorem exact_count_of_exclusive (dnf : Formula) (n : Nat) (hr : literalsInRange dnf n)
    (hd : distinctVariables dnf) (hex : mutuallyExclusive dnf n) :
    exact_count dnf n = (dnf.map (fun clause => 2 ^ (n - clause.length))).sum := by
  have hpart := first_hit_partition (Finset.range (2 ^ n)) (fun c b => satisfiesClause b c) dnf
  have hform : ((Finset.range (2 ^ n)).filter (fun b => satisfiesFormula b dnf = true)).card =
      ((Finset.range (2 ^ n)).filter
        (fun b => dnf.any (fun c => satisfiesClause b c) = true)).card := by
    congr 1
  rw [exact_count_eq_card, hform, ← hpart, ← sum_range_getD_nat dnf []]
  apply Finset.sum_congr rfl
  intro i hi
  have hi' := Finset.mem_range.mp hi
  have hmem := getD_mem dnf [] i hi'
  rw [← MonteCarloCounter.distinctVarCount_of_nodup _ (hd _ hmem),
    ← card_satisfying_masks _ n (hr _ hmem)
      (MonteCarloCounter.consistentFlags_of_nodup _ (hd _ hmem))]
  congr 1
  apply Finset.filter_congr
  intro b hb
  have hb' := Finset.mem_range.mp hb
  constructor
  · exact fun h => h.1
  · intro hsat
    refine ⟨hsat, ?_⟩
    rw [List.any_eq_false]
    intro c hc
    obtain ⟨j, hj, rfl⟩ := List.mem_take_iff_getElem.mp hc
    have hj1 : j < i := lt_of_lt_of_le hj (min_le_left _ _)
    have hj2 : j < dnf.length := lt_of_lt_of_le hj (min_le_right _ _)
    have := exclusive_others_false dnf n hex i hi' b hb' hsat j hj2 (by omega)
    rw [List.getD_eq_getElem _ _ hj2] at this
    rw [this]
    simp


namespace KLM

theorem scan_false_of_nodup (clause : Clause) (h : (clause.map Prod.fst).Nodup) :
    (scan [] clause).2 = false := by
  cases hs : (scan [] clause).2 with
  | false => rfl
  | true =>
    exfalso
    obtain ⟨v, s, s', _, hne, h1, h2⟩ :=
      scan_true clause [] (scan [] clause).1 (by simp) (Prod.ext rfl hs)
    have h1' : (v, s) ∈ clause := by
      rcases h1 with h1 | h1
      · exact absurd h1 (List.not_mem_nil _)
      · exact h1
    have heq := List.inj_on_of_nodup_map h h1' h2 rfl
    exact hne (Prod.mk.inj heq).2

theorem trial_contribution_of_pick (dnf : Formula) (n : Int) (rng : Rng) (k : Nat)
    (hi : rng.pick k < dnf.length) (hs : (scan [] (dnf.getD (rng.pick k) [])).2 = false) :
    trial_contribution dnf n rng k =
      1 / (coverage_count dnf (metas dnf n)
        (generate n (analyze n (dnf.getD (rng.pick k) [])).1 (rng.bits k)) : ℚ) := by
  unfold trial_contribution
  simp only []
  have hguard : ¬ (((metas dnf n).getD (rng.pick k) default).contradictory = true ∨
      (weights_scaled dnf n).getD (rng.pick k) 0 = 0) := by
    rw [metas_getD dnf n _ hi, weights_scaled_getD dnf n _ hi, analyze_contradictory, hs]
    rintro (h | h)
    · exact absurd h (by simp)
    · unfold weight_scaled at h
      rw [analyze_contradictory, hs] at h
      simp only [Bool.false_eq_true, if_false] at h
      have : (0 : ℚ) < 2 ^ ((analyze n (dnf.getD (rng.pick k) [])).2 - max_free dnf n) := by
        positivity
      exact absurd h (ne_of_gt this)
  rw [if_neg hguard, metas_getD dnf n _ hi]
  split
  · rfl
  · rename_i h
    have : coverage_count dnf (metas dnf n)
        (generate n (analyze n (dnf.getD (rng.pick k) [])).1 (rng.bits k)) = 0 := by omega
    rw [this]
    simp

/-- On mutually exclusive clauses the assignment generated from any clause satisfies that
clause only. -/
theorem coverage_count_of_exclusive (dnf : Formula) (n : Nat) (hr : literalsInRange dnf n)
    (hd : distinctVariables dnf) (hex : mutuallyExclusive dnf n) (i : Nat)
    (hi : i < dnf.length) (draw : Nat → Bool) :
    coverage_count dnf (metas dnf n) (generate n (analyze n (dnf.getD i [])).1 draw) = 1 := by
  have hmem := getD_mem dnf [] i hi
  have hs := scan_false_of_nodup _ (hd _ hmem)
  obtain ⟨b, hb, hbeq⟩ :=
    Finset.mem_image.mp (generate_mem_assignments n _ (hr _ hmem) hs draw)
  have hsat := generate_satisfies n _ (hr _ hmem) hs draw
  rw [← hbeq] at hsat ⊢
  rw [klm_clause_satisfied_assignmentOfMask,
    SolveDNF.clause_true_eq_satisfies _ _ _ (hr _ hmem)] at hsat
  rw [coverage_count_eq]
  apply countP_eq_one_of_unique dnf [] _ i hi
  · show (!(analyze n (dnf.getD i [])).1.contradictory &&
      clause_satisfied (dnf.getD i []) (assignmentOfMask n b)) = true
    rw [analyze_contradictory, hs, klm_clause_satisfied_assignmentOfMask,
      SolveDNF.clause_true_eq_satisfies _ _ _ (hr _ hmem), hsat]
    rfl
  · intro j hj hji
    have := exclusive_others_false dnf n hex i hi b (Finset.mem_range.mp hb) hsat j hj hji
    show (!(analyze n (dnf.getD j [])).1.contradictory &&
      clause_satisfied (dnf.getD j []) (assignmentOfMask n b)) = false
    rw [klm_clause_satisfied_assignmentOfMask,
      SolveDNF.clause_true_eq_satisfies _ _ _ (hr _ (getD_mem dnf [] j hj)), this,
      Bool.and_false]

theorem trial_contribution_of_exclusive (dnf : Formula) (n : Nat) (rng : Rng) (k : Nat)
    (hr : literalsInRange dnf n) (hd : distinctVariables dnf) (hex : mutuallyExclusive dnf n)
    (hpick : rng.pick k < dnf.length) : trial_contribution dnf n rng k = 1 := by
  rw [trial_contribution_of_pick dnf n rng k hpick
      (scan_false_of_nodup _ (hd _ (getD_mem dnf [] _ hpick))),
    coverage_count_of_exclusive dnf n hr hd hex _ hpick]
  norm_num

theorem klm_total_weight_eq_sum (dnf : Formula) (n : Nat) (hr : literalsInRange dnf n)
    (hd : distinctVariables dnf) :
    total_weight dnf n =
      (((dnf.map (fun clause => 2 ^ (n - clause.length))).sum : Nat) : ℚ) := by
  unfold total_weight total_scaled
  rw [foldl_add_eq_sum, weights_scaled_eq, ← List.sum_map_mul_left, Nat.cast_list_sum,
    List.map_map]
  congr 1
  apply List.map_congr_left
  intro clause hc
  have hs := scan_false_of_nodup _ (hd _ hc)
  have hw := clause_weight_eq dnf n clause hs
  unfold clause_weight at hw
  rw [hw]
  obtain ⟨_, h2, h3⟩ := analyze_free n clause (hr _ hc) hs
  rw [MonteCarloCounter.distinctVarCount_of_nodup clause (hd _ hc)] at h3
  rw [h2, zpow_natCast]
  have : (analyze (n : Int) clause).1.free_vars.length = n - clause.length := by omega
  rw [this]
  simp

end KLM


theorem prefix_sum_le (dnf : Formula) (g : Clause → Nat) (i : Nat) :
    ((dnf.take i).map g).sum ≤ (dnf.map g).sum :=
  List.Sublist.sum_le_sum ((List.take_sublist i dnf).map g) (fun _ _ => Nat.zero_le _)

/-- The partial sums of the first-hit weight accumulation (MonteCarloCounter.cpp:76) are the
partial sums of the numbers `2 ^ (n - |clause|)`. -/
theorem MonteCarloCounter.mc_prefix_weight_sum (dnf : Formula) (n : Nat) (hn : n ≤ 62)
    (hr : literalsInRange dnf n) (hd : distinctVariables dnf) (i : Nat) :
    ((MonteCarloCounter.weights dnf n).take i).foldl (fun acc w => acc + w) 0 =
      ((((dnf.take i).map (fun clause => 2 ^ (n - clause.length))).sum : Nat) : ℚ) := by
  have htake : (MonteCarloCounter.weights dnf n).take i =
      MonteCarloCounter.weights (dnf.take i) n := by
    unfold MonteCarloCounter.weights
    rw [List.map_take]
  rw [htake]
  exact MonteCarloCounter.mc_total_weight_eq_sum (dnf.take i) n hn
    (fun clause hc => hr clause (List.mem_of_mem_take hc))
    (fun clause hc => hd clause (List.mem_of_mem_take hc))

/-- The partial sums of the KLM accumulation of `total_scaled` (KLM.cpp:128-138), times
`scale_factor`, are the partial sums of the numbers `2 ^ (n - |clause|)`. -/
theorem KLM.klm_prefix_weight_sum (dnf : Formula) (n : Nat) (hr : literalsInRange dnf n)
    (hd : distinctVariables dnf) (i : Nat) :
    KLM.scale_factor dnf n *
        ((KLM.weights_scaled dnf n).take i).foldl (fun acc w => acc + w) 0 =
      ((((dnf.take i).map (fun clause => 2 ^ (n - clause.length))).sum : Nat) : ℚ) := by
  rw [KLM.foldl_add_eq_sum, KLM.weights_scaled_eq, ← List.map_take, ← List.sum_map_mul_left,
    Nat.cast_list_sum, List.map_map]
  congr 1
  apply List.map_congr_left
  intro clause hc'
  have hc := List.mem_of_mem_take hc'
  have hs := KLM.scan_false_of_nodup _ (hd _ hc)
  have hw := KLM.clause_weight_eq dnf n clause hs
  unfold KLM.clause_weight at hw
  rw [hw]
  obtain ⟨_, h2, h3⟩ := KLM.analyze_free n clause (hr _ hc) hs
  rw [MonteCarloCounter.distinctVarCount_of_nodup clause (hd _ hc)] at h3
  rw [h2, zpow_natCast]
  have : (KLM.analyze (n : Int) clause).1.free_vars.length = n - clause.length := by omega
  rw [this]
  simp

theorem representableDouble_of_le (x : Nat) (h : x ≤ 2 ^ 53) : representableDouble x := by
  rcases Nat.lt_or_ge x (2 ^ 53) with hlt | hge
  · exact ⟨x, 0, hlt, by omega, by simp⟩
  · have hx : x = 2 ^ 53 := le_antisymm h hge
    exact ⟨1, 53, by norm_num, by omega, by rw [hx, one_mul]⟩

theorem not_representableDouble_succ : ¬ representableDouble (2 ^ 53 + 1) := by
  rintro ⟨k, e, hk, _, h⟩
  cases e with
  | zero =>
    rw [pow_zero, mul_one] at h
    omega
  | succ e =>
    have h2 : k * 2 ^ (e + 1) = 2 * (k * 2 ^ e) := by ring
    rw [h2] at h
    generalize k * 2 ^ e = j at h
    norm_num at h
    omega

theorem MonteCarloCounter.mc_solve_dnf_no_universe (dnf : Formula) (n m : Int) (rng : Rng)
    (hn : n ≤ 0) : MonteCarloCounter.solve_dnf dnf n m rng = ⟨0, m, 0⟩ := by
  unfold MonteCarloCounter.solve_dnf
  simp only []
  rw [if_pos (Or.inr (Or.inl hn))]

/-- The two clauses `{x1}` and `{not x1, x2, ..., x54}` exclude each other. -/
theorem exclusive_at_54 :
    mutuallyExclusive
      [[(1, 0)], (1, 1) :: (List.range 53).map (fun j => (((j + 2 : Nat) : Int), (0 : Int)))]
      54 := by
  have key : ∀ b : Nat,
      ¬ (satisfiesClause b [(1, 0)] = true ∧
        satisfiesClause b
          ((1, 1) :: (List.range 53).map (fun j => (((j + 2 : Nat) : Int), (0 : Int)))) =
            true) := by
    rintro b ⟨h1, h2⟩
    unfold satisfiesClause at h1 h2
    rw [List.all_cons, Bool.and_eq_true] at h1 h2
    have a1 := h1.1
    have a2 := h2.1
    simp only [beq_iff_eq] at a1 a2
    rw [a1] at a2
    simp at a2
  intro i hi j hj hij b _ hboth
  simp only [List.length_cons, List.length_nil] at hi hj
  have hi' : i = 0 ∨ i = 1 := by omega
  have hj' : j = 0 ∨ j = 1 := by omega
  rcases hi' with rfl | rfl <;> rcases hj' with rfl | rfl
  · exact hij rfl
  · exact key b hboth
  · exact key b ⟨hboth.2, hboth.1⟩
  · exact hij rfl

/-- C16, as stated, fails, in three ways, shown with 2.995732 for `log 20`. It has no lower
bound on `n`: with `n = 0` the formula of one empty clause meets every condition of the
claim and has exactly one satisfying assignment (the empty one), `2 ^ (0 - 0) = 1`, but
both estimators return 0 through their guards `num_vars <= 0` (MonteCarloCounter.cpp:60)
and `actual_n <= 0` (KLM.cpp:67). It covers every valid `eps`: with `eps = 0.00001`,
`delta = 0.1`, `n = 1` and the clause `{x1}`, which has one satisfying assignment, the
sample count is `INT_MIN` and both estimators return 0 through their guard `m <= 0`. And it
reaches `n = 62`: with `n = 54` the clauses `{x1}` and `{not x1, x2, ..., x54}` meet every
condition of the claim and have `2 ^ 53 + 1` satisfying assignments, which is not a value
of the type `double` that both estimators return (the weights `2 ^ 53` and 1 add up to the
`double` `2 ^ 53`). -/
theorem exclusive_clauses_counterexample :
    (([[]] : Formula) ≠ [] ∧ distinctVariables [[]] ∧ literalsInRange [[]] 0 ∧
      mutuallyExclusive [[]] 0 ∧ exact_count [[]] 0 = 1 ∧
      (([[]] : Formula).map (fun clause => 2 ^ (0 - clause.length))).sum = 1 ∧
      (MonteCarloCounter.run (fun _ => 2995732 / 1000000) (1 / 10) (1 / 10) [[]] 0
        ⟨fun _ => 0, fun _ _ => false⟩).result = 0 ∧
      KLM.run (fun _ => 2995732 / 1000000) (1 / 10) (1 / 10) (fun _ => true) [[]] 0
        ⟨fun _ => 0, fun _ _ => false⟩ = Except.ok ⟨0, 0⟩) ∧
    (distinctVariables [[(1, 0)]] ∧ literalsInRange [[(1, 0)]] 1 ∧
      mutuallyExclusive [[(1, 0)]] 1 ∧ exact_count [[(1, 0)]] 1 = 1 ∧
      MonteCarloCounter.run (fun _ => 2995732 / 1000000) (1 / 100000) (1 / 10) [[(1, 0)]] 1
        ⟨fun _ => 0, fun _ _ => false⟩ = ⟨0, -2147483648, 0⟩ ∧
      KLM.run (fun _ => 2995732 / 1000000) (1 / 100000) (1 / 10) (fun _ => true) [[(1, 0)]] 1
        ⟨fun _ => 0, fun _ _ => false⟩ = Except.ok ⟨0, 0⟩) ∧
    (distinctVariables
        [[(1, 0)], (1, 1) :: (List.range 53).map (fun j => (((j + 2 : Nat) : Int), (0 : Int)))] ∧
      literalsInRange
        [[(1, 0)], (1, 1) :: (List.range 53).map (fun j => (((j + 2 : Nat) : Int), (0 : Int)))]
        54 ∧
      mutuallyExclusive
        [[(1, 0)], (1, 1) :: (List.range 53).map (fun j => (((j + 2 : Nat) : Int), (0 : Int)))]
        54 ∧
      exact_count
        [[(1, 0)], (1, 1) :: (List.range 53).map (fun j => (((j + 2 : Nat) : Int), (0 : Int)))]
        54 = 2 ^ 53 + 1 ∧
      MonteCarloCounter.weights
        [[(1, 0)], (1, 1) :: (List.range 53).map (fun j => (((j + 2 : Nat) : Int), (0 : Int)))]
        54 = [2 ^ 53, 1] ∧
      ¬ representableDouble (2 ^ 53 + 1)) := by
  have hbig := sample_count_overflow (fun _ => 2995732 / 1000000) (1 / 100000) (1 / 10)
    [[(1, 0)]] (by simp) (by rw [ceil_at_eps_small]; norm_num)
  have hd54 : distinctVariables
      [[(1, 0)], (1, 1) :: (List.range 53).map (fun j => (((j + 2 : Nat) : Int), (0 : Int)))] := by
    decide
  have hr54 : literalsInRange
      [[(1, 0)], (1, 1) :: (List.range 53).map (fun j => (((j + 2 : Nat) : Int), (0 : Int)))]
      (54 : Nat) := by
    decide
  refine ⟨⟨by decide, by decide, by decide, by decide, by decide, by decide, ?_, ?_⟩,
    ⟨by decide, by decide, by decide, by decide, ?_, ?_⟩,
    ⟨hd54, hr54, exclusive_at_54, ?_, ?_, not_representableDouble_succ⟩⟩
  · unfold MonteCarloCounter.run
    rw [MonteCarloCounter.mc_solve_dnf_no_universe _ _ _ _ (le_refl 0)]
  · unfold KLM.run
    exact KLM.solve_dnf_no_universe _ _ _ _ _ _ _ (by norm_num) (by norm_num) (by decide)
  · unfold MonteCarloCounter.run
    rw [hbig.1]
    exact MonteCarloCounter.mc_solve_dnf_no_samples _ _ _ _ (by decide)
  · unfold KLM.run
    rw [hbig.2]
    exact KLM.klm_solve_dnf_no_samples _ _ _ _ _ _ _ (by norm_num) (by norm_num) (by decide)
  · rw [exact_count_of_exclusive _ 54 hr54 hd54 exclusive_at_54]
    rfl
  · have w1 : MonteCarloCounter.weight 54 [(1, 0)] = 2 ^ 53 := by
      have h := MonteCarloCounter.weight_of_le 54 [(1, 0)] (by decide) (by decide)
      norm_num at h
      rw [h]
      norm_num
    have w2 : MonteCarloCounter.weight 54
        ((1, 1) :: (List.range 53).map (fun j => (((j + 2 : Nat) : Int), (0 : Int)))) = 1 := by
      have h := MonteCarloCounter.weight_of_le 54
        ((1, 1) :: (List.range 53).map (fun j => (((j + 2 : Nat) : Int), (0 : Int))))
        (by decide) (by simp)
      norm_num at h
      exact h
    unfold MonteCarloCounter.weights
    rw [List.map_cons, List.map_cons, List.map_nil, w1, w2]

/-- C16, amended with the bounds `1 ≤ n ≤ 53` and a positive sample count. For every
non-empty formula over `1 ≤ n ≤ 53` variables whose clauses each list pairwise distinct
variables with indices in `[1, n]` and are pairwise mutually exclusive, every `eps > 0` and
`0 < delta < 1` at which the sample count `m` the estimator computes is at least 1 (the
total weight passing `std::isfinite`) and every random source (whose clause index is always
a valid index): the number of satisfying assignments is the sum over the clauses of
`2 ^ (n - |clause|)`, it is at most `2 ^ 53` and so a value of the type `double`, and both
the first-hit and the KLM `solve_dnf` return exactly that number after `m` trials. Every
partial sum of the two weight accumulations is an integer of at most `2 ^ 53` (for KLM,
once multiplied by `scale_factor`), so no addition of the loops rounds. -/
theorem exclusive_clauses_exact (ln : ℚ → ℚ) (eps delta : ℚ) (isfinite : ℚ → Bool)
    (dnf : Formula) (n : Nat) (rng : Rng) (hn1 : 1 ≤ n) (hn : n ≤ 53) (hne : dnf ≠ [])
    (hd : distinctVariables dnf) (hr : literalsInRange dnf n) (hex : mutuallyExclusive dnf n)
    (heps : 0 < eps) (hdelta : 0 < delta ∧ delta < 1)
    (hm1 : 1 ≤ MonteCarloCounter.sample_count ln eps delta dnf)
    (hm : 1 ≤ KLM.sample_count ln eps delta dnf)
    (hpick : ∀ k, rng.pick k < dnf.length)
    (hfin : isfinite (KLM.total_weight dnf n) = true) :
    exact_count dnf n = (dnf.map (fun clause => 2 ^ (n - clause.length))).sum ∧
      representableDouble (exact_count dnf n) ∧
      MonteCarloCounter.run ln eps delta dnf n rng =
        ⟨(exact_count dnf n : ℚ), MonteCarloCounter.sample_count ln eps delta dnf,
          (MonteCarloCounter.sample_count ln eps delta dnf).toNat⟩ ∧
      KLM.run ln eps delta isfinite dnf n rng =
        Except.ok ⟨(exact_count dnf n : ℚ), (KLM.sample_count ln eps delta dnf).toNat⟩ ∧
      (∀ i : Nat, ∃ k : Nat, k ≤ 2 ^ 53 ∧
        ((MonteCarloCounter.weights dnf n).take i).foldl (fun acc w => acc + w) 0 = (k : ℚ)) ∧
      (∀ i : Nat, ∃ k : Nat, k ≤ 2 ^ 53 ∧
        KLM.scale_factor dnf n *
          ((KLM.weights_scaled dnf n).take i).foldl (fun acc w => acc + w) 0 = (k : ℚ)) := by
  have hcount := exact_count_of_exclusive dnf n hr hd hex
  have hlen1 : 1 ≤ dnf.length := by
    cases dnf with
    | nil => exact absurd rfl hne
    | cons c l => simp
  have hnpos : (0 : Int) < (n : Int) := by omega
  have hle53 : exact_count dnf n ≤ 2 ^ 53 :=
    le_trans (exact_count_le dnf n) (Nat.pow_le_pow_right (by norm_num) hn)
  have hrep : representableDouble (exact_count dnf n) := representableDouble_of_le _ hle53
  have hprefix : ∀ i : Nat,
      ((dnf.take i).map (fun clause => 2 ^ (n - clause.length))).sum ≤ 2 ^ 53 := by
    intro i
    refine le_trans (prefix_sum_le dnf _ i) ?_
    rw [← hcount]
    exact hle53
  refine ⟨hcount, hrep, ?_, ?_,
    fun i => ⟨_, hprefix i, MonteCarloCounter.mc_prefix_weight_sum dnf n (by omega) hr hd i⟩,
    fun i => ⟨_, hprefix i, KLM.klm_prefix_weight_sum dnf n hr hd i⟩⟩
  · have hmem := getD_mem dnf [] 0 hlen1
    have hclen : (dnf.getD 0 []).length ≤ n := by
      rw [← MonteCarloCounter.distinctVarCount_of_nodup _ (hd _ hmem)]
      exact distinctVarCount_le _ n (hr _ hmem)
    have hW := ne_of_gt (MonteCarloCounter.total_weight_pos dnf n (by omega) _ hmem hclen)
    unfold MonteCarloCounter.run
    rw [MonteCarloCounter.solve_dnf_all_hits dnf n _ rng hne hnpos hm1 hW
        (fun k => MonteCarloCounter.trial_hit_of_exclusive dnf n rng k hr hd hex (hpick k)),
      MonteCarloCounter.mc_total_weight_eq_sum dnf n (by omega) hr hd, hcount]
  · have han : KLM.actual_n dnf n = n :=
      KLM.actual_n_eq dnf n (fun clause hc lit hlit => (hr clause hc lit hlit).2)
    have hs := KLM.scan_false_of_nodup _ (hd _ (getD_mem dnf [] 0 hlen1))
    have hts := ne_of_gt (KLM.total_scaled_pos dnf n _ (getD_mem dnf [] 0 hlen1) hs)
    unfold KLM.run
    rw [KLM.klm_solve_dnf_reached eps delta _ isfinite dnf n rng heps hdelta hne
      (by rw [han]; exact hnpos) hm (by rw [han]; exact hts) (by rw [han]; exact hfin), han]
    have hsum : ∑ k ∈ Finset.range (KLM.sample_count ln eps delta dnf).toNat,
        KLM.trial_contribution dnf n rng k =
          ((KLM.sample_count ln eps delta dnf : Int) : ℚ) := by
      rw [Finset.sum_congr rfl (fun k _ =>
        KLM.trial_contribution_of_exclusive dnf n rng k hr hd hex (hpick k))]
      rw [Finset.sum_const, Finset.card_range, nsmul_eq_mul, mul_one, ← Int.cast_natCast,
        Int.toNat_of_nonneg (by omega)]
    have hmq : ((KLM.sample_count ln eps delta dnf : Int) : ℚ) ≠ 0 := by
      intro h0
      have : KLM.sample_count ln eps delta dnf = 0 := by exact_mod_cast h0
      omega
    rw [hsum, div_self hmq, one_mul, KLM.klm_total_weight_eq_sum dnf n hr hd, hcount]

theorem exclusive_clauses_exact_witness :
    (exact_count [[(1, 0)]] 3 = 4 ∧
      (MonteCarloCounter.run (fun _ => 3) (1 / 10) (1 / 10) [[(1, 0)]] (3 : Nat)
        ⟨fun _ => 0, fun _ _ => true⟩).result = 4 ∧
      KLM.run (fun _ => 3) (1 / 10) (1 / 10) (fun _ => true) [[(1, 0)]] (3 : Nat)
        ⟨fun _ => 0, fun _ _ => true⟩ =
          Except.ok ⟨4, (KLM.sample_count (fun _ => 3) (1 / 10) (1 / 10) [[(1, 0)]]).toNat⟩) ∧
    (exact_count [[(1, 0)], [(1, 1)]] 2 = 4 ∧
      (MonteCarloCounter.run (fun _ => 3) (1 / 10) (1 / 10) [[(1, 0)], [(1, 1)]] (2 : Nat)
        ⟨fun k => k % 2, fun _ _ => true⟩).result = 4 ∧
      KLM.run (fun _ => 3) (1 / 10) (1 / 10) (fun _ => true) [[(1, 0)], [(1, 1)]] (2 : Nat)
        ⟨fun k => k % 2, fun _ _ => true⟩ =
          Except.ok ⟨4, (KLM.sample_count (fun _ => 3) (1 / 10) (1 / 10)
            [[(1, 0)], [(1, 1)]]).toNat⟩) := by
  have p1 := KLM.sample_count_pos (fun _ => 3) (1 / 10) (1 / 10) [[(1, 0)]] (by norm_num)
    (by norm_num) (by simp) (by simp) (by rw [Int.ceil_le]; norm_num)
  have p2 := KLM.sample_count_pos (fun _ => 3) (1 / 10) (1 / 10) [[(1, 0)], [(1, 1)]]
    (by norm_num) (by norm_num) (by simp) (by simp) (by rw [Int.ceil_le]; norm_num)
  have h1 := exclusive_clauses_exact (fun _ => 3) (1 / 10) (1 / 10) (fun _ => true)
    [[(1, 0)]] 3 ⟨fun _ => 0, fun _ _ => true⟩ (by decide) (by decide) (by decide)
    (by decide) (by decide) (by decide) (by norm_num) (by norm_num)
    (by rw [sample_count_agree _ _ _ _ (by simp)]; exact p1.2) p1.2
    (fun _ => Nat.zero_lt_one) rfl
  have h2 := exclusive_clauses_exact (fun _ => 3) (1 / 10) (1 / 10) (fun _ => true)
    [[(1, 0)], [(1, 1)]] 2 ⟨fun k => k % 2, fun _ _ => true⟩ (by decide) (by decide)
    (by decide) (by decide) (by decide) (by decide) (by norm_num) (by norm_num)
    (by rw [sample_count_agree _ _ _ _ (by simp)]; exact p2.2) p2.2
    (fun k => Nat.mod_lt k (by decide)) rfl
  have e1 : exact_count [[(1, 0)]] 3 = 4 := h1.1
  have e2 : exact_count [[(1, 0)], [(1, 1)]] 2 = 4 := h2.1
  rw [e1] at h1
  rw [e2] at h2
  exact ⟨⟨e1, by rw [h1.2.2.1]; norm_num, by rw [h1.2.2.2.1]; norm_num⟩,
    ⟨e2, by rw [h2.2.2.1]; norm_num, by rw [h2.2.2.2.1]; norm_num⟩⟩


/-- C17, as stated, fails: with `n = 2` and the clauses `{(x1,false)}`, `{(x1,true)}` a
sampled assignment has coverage count 1, not 2, and the trial contributes 1, not 1/2. Here
the first trial draws clause 0 and 0 for the free variable: the assignment sets `x1 = 1`,
`x2 = 0`, which the clause `not x1` does not accept. -/
theorem tautology_coverage_counterexample :
    KLM.actual_n [[(1, 0)], [(1, 1)]] 2 = 2 ∧
      KLM.generate 2 ((KLM.metas [[(1, 0)], [(1, 1)]] 2).getD 0 default) (fun _ => false) =
        [0, 1, 0] ∧
      KLM.clause_satisfied [(1, 1)] [0, 1, 0] = false ∧
      KLM.coverage_count [[(1, 0)], [(1, 1)]] (KLM.metas [[(1, 0)], [(1, 1)]] 2)
        [0, 1, 0] = 1 ∧
      KLM.trial_contribution [[(1, 0)], [(1, 1)]] 2 ⟨fun _ => 0, fun _ _ => false⟩ 0 = 1 :=
  ⟨by decide, by decide, by decide, by decide,
    KLM.trial_contribution_of_exclusive [[(1, 0)], [(1, 1)]] 2 ⟨fun _ => 0, fun _ _ => false⟩ 0
      (by decide) (by decide) (by decide) Nat.zero_lt_two⟩

/-- C17, amended. With `n = 2` and the clauses `{(x1,false)}`, `{(x1,true)}` (x1 or not x1),
which have 4 satisfying assignments, every assignment the KLM estimator samples (whatever
clause index below 2 and whatever bits the random source gives) has coverage count 1, so
every trial contributes 1 to the running sum. -/
theorem tautology_coverage_is_one (rng : Rng) (k : Nat) (hpick : rng.pick k < 2) :
    exact_count [[(1, 0)], [(1, 1)]] 2 = 4 ∧
      KLM.coverage_count [[(1, 0)], [(1, 1)]] (KLM.metas [[(1, 0)], [(1, 1)]] 2)
        (KLM.generate 2 ((KLM.metas [[(1, 0)], [(1, 1)]] 2).getD (rng.pick k) default)
          (rng.bits k)) = 1 ∧
      KLM.trial_contribution [[(1, 0)], [(1, 1)]] 2 rng k = 1 := by
  refine ⟨by decide, ?_, ?_⟩
  · rw [KLM.metas_getD [[(1, 0)], [(1, 1)]] 2 _ hpick]
    exact KLM.coverage_count_of_exclusive [[(1, 0)], [(1, 1)]] 2 (by decide) (by decide)
      (by decide) (rng.pick k) hpick (rng.bits k)
  · exact KLM.trial_contribution_of_exclusive [[(1, 0)], [(1, 1)]] 2 rng k (by decide)
      (by decide) (by decide) hpick

theorem tautology_coverage_is_one_witness :
    KLM.coverage_count [[(1, 0)], [(1, 1)]] (KLM.metas [[(1, 0)], [(1, 1)]] 2)
        (KLM.generate 2 ((KLM.metas [[(1, 0)], [(1, 1)]] 2).getD 1 default)
          (fun j => decide (j = 0))) = 1 ∧
      KLM.trial_contribution [[(1, 0)], [(1, 1)]] 2
        ⟨fun k => k % 2, fun _ j => decide (j = 0)⟩ 1 = 1 :=
  (tautology_coverage_is_one ⟨fun k => k % 2, fun _ j => decide (j = 0)⟩ 1 (by decide)).2


/-! ## The universe size of the KLM analyzer -/

namespace KLM

theorem clause_max_attained (clause : Clause) : ∀ n0 : Int,
    clause.foldl (fun n lit => max n lit.1) n0 = n0 ∨
      ∃ lit ∈ clause, lit.1 = clause.foldl (fun n lit => max n lit.1) n0 := by
  induction clause with
  | nil => intro n0; exact Or.inl rfl
  | cons lit rest ih =>
    intro n0
    rw [List.foldl_cons]
    rcases ih (max n0 lit.1) with h | ⟨l, hl, h⟩
    · rw [h]
      rcases max_cases n0 lit.1 with ⟨hm, _⟩ | ⟨hm, _⟩
      · exact Or.inl hm
      · exact Or.inr ⟨lit, List.mem_cons_self _ _, hm.symm⟩
    · exact Or.inr ⟨l, List.mem_cons_of_mem _ hl, h⟩

theorem actual_n_attained (dnf : Formula) : ∀ hint : Int,
    actual_n dnf hint = hint ∨
      ∃ clause ∈ dnf, ∃ lit ∈ clause, lit.1 = actual_n dnf hint := by
  induction dnf with
  | nil => intro hint; exact Or.inl rfl
  | cons c rest ih =>
    intro hint
    unfold actual_n at ih ⊢
    rw [List.foldl_cons]
    rcases ih (c.foldl (fun n lit => max n lit.1) hint) with h | ⟨c', hc', l, hl, h⟩
    · rw [h]
      rcases clause_max_attained c hint with h' | ⟨l, hl, h'⟩
      · exact Or.inl h'
      · exact Or.inr ⟨c, List.mem_cons_self _ _, l, hl, h'⟩
    · exact Or.inr ⟨c', List.mem_cons_of_mem _ hc', l, hl, h⟩

theorem vars_in_range (n : Int) (clause : Clause) (hs : (scan [] clause).2 = false)
    (hle : ∀ lit ∈ clause, lit.1 ≤ n) :
    ∀ v ∈ (analyze n clause).1.vars, 1 ≤ v ∧ v ≤ n := by
  intro v hv
  obtain ⟨h0, hmem⟩ := (mem_vars n clause hs v).mp hv
  obtain ⟨lit, hlit, rfl⟩ := List.mem_map.mp hmem
  exact ⟨by omega, hle lit hlit⟩

/-- A clause that the scan does not flag and whose indices do not exceed `n`: the recorded
variables fit in `1 .. n` and the analyzer takes the branch that computes the free
variables. -/
theorem analyze_fits (n : Nat) (clause : Clause) (hs : (scan [] clause).2 = false)
    (hle : ∀ lit ∈ clause, lit.1 ≤ n) :
    (free_vars n (analyze n clause).1.vars).length + (analyze n clause).1.vars.length = n ∧
      (analyze n clause).1.free_vars = free_vars n (analyze n clause).1.vars ∧
      (analyze n clause).2 = ((free_vars n (analyze n clause).1.vars).length : Int) := by
  have hlen := free_vars_length n _ (vars_nodup n clause hs) (vars_in_range n clause hs hle)
  have hcond : ¬ ((scan [] clause).2 = true ∨ ((analyze n clause).1.vars.length : Int) > n) := by
    rw [hs]
    simp only [Bool.false_eq_true, false_or, gt_iff_lt, not_lt]
    omega
  exact ⟨hlen, analyze_of_fits n clause hcond⟩

end KLM

/-- C21. For every formula and hint, `n` is the larger of the hint and the largest variable
index. When `n ≤ 0` the KLM `solve_dnf` returns 0 before the analysis loop (KLM.cpp:67).
Otherwise, for every clause of the formula that the analyzer does not mark contradictory:
the number of distinct variables is at most `n`, so the condition of the branch of
KLM.cpp:108 is false and the free variables and the free count are computed; `vars` and
`free_vars` have no repetition, are disjoint, together hold exactly the indices `1 .. n`,
and their lengths add up to `n`. -/
theorem klm_excess_vars_branch_unreachable (dnf : Formula) (hint : Int) :
    hint ≤ KLM.actual_n dnf hint ∧
      (∀ clause ∈ dnf, ∀ lit ∈ clause, lit.1 ≤ KLM.actual_n dnf hint) ∧
      (KLM.actual_n dnf hint = hint ∨
        ∃ clause ∈ dnf, ∃ lit ∈ clause, lit.1 = KLM.actual_n dnf hint) ∧
      (KLM.actual_n dnf hint ≤ 0 →
        ∀ (eps delta : ℚ) (m : Int) (isfinite : ℚ → Bool) (rng : Rng),
          0 < eps → 0 < delta ∧ delta < 1 →
          KLM.solve_dnf eps delta m isfinite dnf hint rng = Except.ok ⟨0, 0⟩) ∧
      (0 ≤ KLM.actual_n dnf hint → ∀ clause ∈ dnf,
        (KLM.analyze (KLM.actual_n dnf hint) clause).1.contradictory = false →
        ((KLM.analyze (KLM.actual_n dnf hint) clause).1.vars.length : Int) ≤
            KLM.actual_n dnf hint ∧
          ¬ ((KLM.analyze (KLM.actual_n dnf hint) clause).1.contradictory = true ∨
            ((KLM.analyze (KLM.actual_n dnf hint) clause).1.vars.length : Int) >
              KLM.actual_n dnf hint) ∧
          (KLM.analyze (KLM.actual_n dnf hint) clause).1.free_vars =
            KLM.free_vars (KLM.actual_n dnf hint)
              (KLM.analyze (KLM.actual_n dnf hint) clause).1.vars ∧
          (KLM.analyze (KLM.actual_n dnf hint) clause).2 =
            ((KLM.analyze (KLM.actual_n dnf hint) clause).1.free_vars.length : Int) ∧
          (KLM.analyze (KLM.actual_n dnf hint) clause).1.vars.Nodup ∧
          (KLM.analyze (KLM.actual_n dnf hint) clause).1.free_vars.Nodup ∧
          (∀ v : Int, (v ∈ (KLM.analyze (KLM.actual_n dnf hint) clause).1.vars ∨
              v ∈ (KLM.analyze (KLM.actual_n dnf hint) clause).1.free_vars) ↔
            (1 ≤ v ∧ v ≤ KLM.actual_n dnf hint)) ∧
          (∀ v : Int, v ∈ (KLM.analyze (KLM.actual_n dnf hint) clause).1.vars →
            v ∉ (KLM.analyze (KLM.actual_n dnf hint) clause).1.free_vars) ∧
          ((KLM.analyze (KLM.actual_n dnf hint) clause).1.vars.length : Int) +
              ((KLM.analyze (KLM.actual_n dnf hint) clause).1.free_vars.length : Int) =
            KLM.actual_n dnf hint) := by
  obtain ⟨hge, hall⟩ := KLM.actual_n_ge dnf hint
  refine ⟨hge, hall, KLM.actual_n_attained dnf hint, ?_, ?_⟩
  · intro hn eps delta m isfinite rng heps hdelta
    exact KLM.solve_dnf_no_universe eps delta m isfinite dnf hint rng heps hdelta hn
  · intro hn clause hc hcontra
    have hle := hall clause hc
    rw [KLM.analyze_contradictory] at hcontra
    generalize KLM.actual_n dnf hint = n at hn hle ⊢
    lift n to ℕ using hn
    obtain ⟨hlen, hfree, hcount⟩ := KLM.analyze_fits n clause hcontra hle
    have hvr := KLM.vars_in_range n clause hcontra hle
    rw [hfree, KLM.analyze_contradictory, hcontra]
    refine ⟨by omega, ?_, rfl, hcount, KLM.vars_nodup n clause hcontra,
      KLM.free_vars_nodup n _, ?_, ?_, by omega⟩
    · simp only [Bool.false_eq_true, false_or, gt_iff_lt, not_lt]
      omega
    · intro v
      rw [KLM.mem_free_vars]
      constructor
      · rintro (h | h)
        · exact hvr v h
        · exact ⟨h.1, h.2.1⟩
      · rintro ⟨h1, h2⟩
        by_cases hv : v ∈ (KLM.analyze n clause).1.vars
        · exact Or.inl hv
        · exact Or.inr ⟨h1, h2, hv⟩
    · intro v hv hfv
      exact ((KLM.mem_free_vars n _ v).mp hfv).2.2 hv


theorem klm_excess_vars_branch_unreachable_witness :
    (KLM.actual_n [[(0, 0), (3, 1), (1, 0)], [(2, 0), (2, 1)]] 2 = 3 ∧
      (KLM.analyze 3 [(0, 0), (3, 1), (1, 0)]).1.vars = [1, 3] ∧
      (KLM.analyze 3 [(0, 0), (3, 1), (1, 0)]).1.free_vars = [2] ∧
      ((KLM.analyze (KLM.actual_n [[(0, 0), (3, 1), (1, 0)], [(2, 0), (2, 1)]] 2)
          [(0, 0), (3, 1), (1, 0)]).1.vars.length : Int) ≤
        KLM.actual_n [[(0, 0), (3, 1), (1, 0)], [(2, 0), (2, 1)]] 2 ∧
      ((KLM.analyze (KLM.actual_n [[(0, 0), (3, 1), (1, 0)], [(2, 0), (2, 1)]] 2)
          [(0, 0), (3, 1), (1, 0)]).1.vars.length : Int) +
        ((KLM.analyze (KLM.actual_n [[(0, 0), (3, 1), (1, 0)], [(2, 0), (2, 1)]] 2)
          [(0, 0), (3, 1), (1, 0)]).1.free_vars.length : Int) =
        KLM.actual_n [[(0, 0), (3, 1), (1, 0)], [(2, 0), (2, 1)]] 2) ∧
    KLM.solve_dnf (1 / 10) (1 / 10) 899 (fun _ => true) [[]] (-1)
      ⟨fun _ => 0, fun _ _ => false⟩ = Except.ok ⟨0, 0⟩ :=
  have h := (klm_excess_vars_branch_unreachable
    [[(0, 0), (3, 1), (1, 0)], [(2, 0), (2, 1)]] 2).2.2.2.2 (by decide)
    [(0, 0), (3, 1), (1, 0)] (by decide) (by decide)
  ⟨⟨by decide, by decide, by decide, h.1, h.2.2.2.2.2.2.2.2⟩,
    (klm_excess_vars_branch_unreachable [[]] (-1)).2.2.2.1 (by decide) (1 / 10) (1 / 10) 899
      (fun _ => true) ⟨fun _ => 0, fun _ _ => false⟩ (by norm_num) (by norm_num)⟩


/-! ## A variable index beyond the universe -/

end DNFCounter
